import Mathlib

/-!
# mumax3: adaptive Heun solver, shapes and `Expect`

A shallow embedding of the Heun solver (`cuda/heun.go`), of the shape
constructors and transformations (`engine/shape.go`), of the test helper
`Expect` (`engine/util.go`), and of the small part of IEEE-754 arithmetic
their control flow depends on, followed by the properties proved about them.

Numbers.  Go's `float64` and `float32` values are modelled by `Fl`: NaN, the
two infinities, or a finite rational (the two signed zeros are identified).
Every arithmetic result is passed through a rounding function, so the same
definitions describe the machine (`Arith.ieee`: round to nearest, ties to
even, with overflow and gradual underflow) and the real-number reading of the
formulas (`Arith.exact`: no rounding).  The counters `NSteps` and `undone`
are Go `int`s; they are modelled by unbounded integers (the 64-bit limit is
out of reach of any run).
-/

namespace Mumax

/-! ## Floating-point values -/

/-- A floating-point value: NaN, plus or minus infinity, or a finite number. -/
inductive Fl where
  | nan
  | pinf
  | ninf
  | fin (q : ℚ)
deriving DecidableEq

namespace Fl

/-- Sign change `-x`. -/
def neg : Fl → Fl
  | nan => nan
  | pinf => ninf
  | ninf => pinf
  | fin q => fin (-q)

/-- Absolute value, `math.Abs` and CUDA `fabsf`. -/
def abs : Fl → Fl
  | nan => nan
  | pinf => pinf
  | ninf => pinf
  | fin q => fin |q|

/-- Sum `x + y`; a finite exact sum is rounded by `r`. -/
def add (r : ℚ → Fl) : Fl → Fl → Fl
  | nan, _ => nan
  | _, nan => nan
  | pinf, ninf => nan
  | ninf, pinf => nan
  | pinf, _ => pinf
  | ninf, _ => ninf
  | fin _, pinf => pinf
  | fin _, ninf => ninf
  | fin a, fin b => r (a + b)

/-- Difference `x - y`. -/
def sub (r : ℚ → Fl) (x y : Fl) : Fl := add r x (neg y)

/-- Infinity of the sign of `q`, NaN when `q` is zero: the product of an
infinity with the finite number `q`. -/
def infTimes (q : ℚ) (positive : Bool) : Fl :=
  if q = 0 then nan
  else if (0 < q) = positive then pinf else ninf

/-- Product `x * y`; a finite exact product is rounded by `r`. -/
def mul (r : ℚ → Fl) : Fl → Fl → Fl
  | nan, _ => nan
  | _, nan => nan
  | pinf, pinf => pinf
  | pinf, ninf => ninf
  | ninf, pinf => ninf
  | ninf, ninf => pinf
  | pinf, fin b => infTimes b true
  | ninf, fin b => infTimes b false
  | fin a, pinf => infTimes a true
  | fin a, ninf => infTimes a false
  | fin a, fin b => r (a * b)

/-- Quotient `x / y`; a finite exact quotient is rounded by `r`.  A zero
divisor is taken as `+0`. -/
def div (r : ℚ → Fl) : Fl → Fl → Fl
  | nan, _ => nan
  | _, nan => nan
  | pinf, pinf => nan
  | pinf, ninf => nan
  | ninf, pinf => nan
  | ninf, ninf => nan
  | pinf, fin b => if 0 ≤ b then pinf else ninf
  | ninf, fin b => if 0 ≤ b then ninf else pinf
  | fin _, pinf => fin 0
  | fin _, ninf => fin 0
  | fin a, fin b =>
    if b = 0 then (if a = 0 then nan else if 0 < a then pinf else ninf)
    else r (a / b)

/-- Comparison `x < y`; false as soon as one side is NaN. -/
def lt : Fl → Fl → Bool
  | fin a, fin b => decide (a < b)
  | ninf, fin _ => true
  | ninf, pinf => true
  | fin _, pinf => true
  | _, _ => false

/-- Comparison `x <= y`; false as soon as one side is NaN. -/
def le : Fl → Fl → Bool
  | fin a, fin b => decide (a ≤ b)
  | ninf, ninf => true
  | ninf, fin _ => true
  | ninf, pinf => true
  | fin _, pinf => true
  | pinf, pinf => true
  | _, _ => false

/-- The larger of two values, NaN if either is NaN (`math.Max`). -/
def max : Fl → Fl → Fl
  | nan, _ => nan
  | _, nan => nan
  | x, y => if lt x y then y else x

/-- Test `math.IsNaN`. -/
def isNaN : Fl → Bool
  | nan => true
  | _ => false

/-- Neither NaN nor infinite. -/
def isFinite : Fl → Bool
  | fin _ => true
  | _ => false

end Fl

/-! ## Rounding -/

/-- The power of two `2 ^ e` as a rational. -/
def pow2 (e : ℤ) : ℚ :=
  if 0 ≤ e then ((2 ^ e.toNat : ℕ) : ℚ) else 1 / ((2 ^ (-e).toNat : ℕ) : ℚ)

/-- Worker of `bitLen`. -/
def bitLenAux : ℕ → ℕ → ℕ
  | 0, _ => 0
  | fuel + 1, k => if k = 0 then 0 else bitLenAux fuel (k / 2) + 1

/-- Number of binary digits of `k`. -/
def bitLen (k : ℕ) : ℕ := bitLenAux k k

/-- Binary exponent of a nonzero rational: the `e` with `2^e ≤ |q| < 2^(e+1)`. -/
def ilog2 (q : ℚ) : ℤ :=
  let e : ℤ := (bitLen q.num.natAbs : ℤ) - (bitLen q.den : ℤ)
  if pow2 e ≤ |q| then e else e - 1

/-- Nearest integer to a nonnegative rational, ties to the even one. -/
def roundHalfEven (m : ℚ) : ℤ :=
  let f := ⌊m⌋
  let r := m - f
  if r < 1 / 2 then f
  else if 1 / 2 < r then f + 1
  else if f % 2 = 0 then f else f + 1

/-- IEEE-754 rounding to nearest of the real number `q` into the binary
format with `prec` significand bits and exponent range `emin .. emax`: the
spacing of the format around `q` is `2^(e - (prec - 1))` with `e` the exponent
of `q`, but not below `emin` (subnormal numbers); a result of magnitude
`2^(emax + 1)` or more is an infinity. -/
def roundBinary (prec : ℕ) (emin emax : ℤ) (q : ℚ) : Fl :=
  if q = 0 then .fin 0
  else
    let e := Max.max (ilog2 q) emin
    let ulp := pow2 (e - ((prec : ℤ) - 1))
    let r := (roundHalfEven (|q| / ulp) : ℚ) * ulp
    if pow2 (emax + 1) ≤ r then (if 0 < q then .pinf else .ninf)
    else .fin (if 0 < q then r else -r)

/-- How finite results are rounded into Go's two floating-point types. -/
structure Arith where
  /-- rounding into `float32` -/
  round32 : ℚ → Fl
  /-- rounding into `float64` -/
  round64 : ℚ → Fl

/-- The machine: IEEE-754 binary32 and binary64. -/
def Arith.ieee : Arith where
  round32 := roundBinary 24 (-126) 127
  round64 := roundBinary 53 (-1022) 1023

/-- Real-number arithmetic: nothing is rounded. -/
def Arith.exact : Arith where
  round32 := Fl.fin
  round64 := Fl.fin

/-- What the proofs use of rounding to nearest into `float64`: it keeps the
order of two numbers, and 0 and 1 are `float64` values. -/
structure Arith.Monotone64 (A : Arith) : Prop where
  mono : ∀ p q : ℚ, p ≤ q → Fl.le (A.round64 p) (A.round64 q) = true
  zero : A.round64 0 = .fin 0
  one : A.round64 1 = .fin 1

/-- Conversion `float32(x)` of a `float64`. -/
def toFloat32 (A : Arith) : Fl → Fl
  | .fin q => A.round32 q
  | x => x

/-! ## Slices and the kernels of package `cuda` used by the solver -/

/-- The elements of a `data.Slice` of `n` `float32` values (all components
and all cells in one sequence). -/
abbrev Slice (n : ℕ) := Fin n → Fl

/-- Modelled from the spec: kernel `Madd2` is not in src; by the comment at its
call in `Step` (`y = y + dt * dy`) and the spec's predictor
`Y ← Y + stepSize * d1` it is the multiply-add
`dst[i] = fac1*src1[i] + fac2*src2[i]`, computed in `float32`. -/
def Madd2 {n : ℕ} (A : Arith) (src1 src2 : Slice n) (fac1 fac2 : Fl) : Slice n :=
  fun i => Fl.add A.round32 (Fl.mul A.round32 fac1 (src1 i)) (Fl.mul A.round32 fac2 (src2 i))

/-- Modelled from the spec: kernel `Madd3` is not in src; by the spec's
corrector `Y ← Y + 0.5*stepSize*d2 - 0.5*stepSize*d1` it is the multiply-add
`dst[i] = fac1*src1[i] + fac2*src2[i] + fac3*src3[i]`, computed in `float32`. -/
def Madd3 {n : ℕ} (A : Arith) (src1 src2 src3 : Slice n) (fac1 fac2 fac3 : Fl) : Slice n :=
  fun i =>
    Fl.add A.round32
      (Fl.add A.round32 (Fl.mul A.round32 fac1 (src1 i)) (Fl.mul A.round32 fac2 (src2 i)))
      (Fl.mul A.round32 fac3 (src3 i))

/-- Modelled from the spec: `MaxVecDiff` is not in src; the spec's error
estimator takes "the maximum, over all elements, of the absolute difference
between the two derivative evaluations" (the scaling by the step size is done
by the caller, `Step`).  The maximum of no elements is 0. -/
def MaxVecDiff (A : Arith) : {n : ℕ} → Slice n → Slice n → Fl
  | 0, _, _ => .fin 0
  | _ + 1, a, b =>
    Fl.max (Fl.abs (Fl.sub A.round32 (a 0) (b 0)))
      (MaxVecDiff A (fun i => a i.succ) (fun i => b i.succ))

/-- Modelled from the spec: `solverCheckErr` is not in src; the spec's error
estimator "fails (propagates a non-finite-error condition) if the result is NaN
or infinite".  True when the check passes. -/
def solverCheckErr (err : Fl) : Bool := err.isFinite

/-! ## The solver state -/

/-- Modelled from the spec: struct `solverCommon` is not in src; these are the
fields `heun.go` reads and writes, the spec's StepState: step size, unit
multiplier, elapsed time, step-size floor, tolerance and the two counters. -/
structure solverCommon where
  dt_si : Fl
  dt_mul : Fl
  Time : Fl
  Mindt : Fl
  Maxerr : Fl
  NSteps : ℤ
  undone : ℤ

/-- What `heun.go` uses and src does not define: the arithmetic, the library
function `math.Pow`, and the constants of the missing `solverCommon` code. -/
structure Env where
  /-- rounding of `float32` and `float64` results -/
  arith : Arith
  /-- Go's `math.Pow` -/
  pow : Fl → Fl → Fl
  /-- smallest factor `adaptDt` multiplies the step size by -/
  clampLo : Fl
  /-- largest factor `adaptDt` multiplies the step size by -/
  clampHi : Fl
  /-- tolerance a new solver starts with -/
  Maxerr0 : Fl
  /-- step-size floor a new solver starts with -/
  Mindt0 : Fl

/-- Modelled from the spec: `newSolverCommon` is not in src; a new solver holds
the given step size and multiplier, no elapsed time and no counted steps. -/
def newSolverCommon (E : Env) (dt_si dt_mul : Fl) : solverCommon where
  dt_si := dt_si
  dt_mul := dt_mul
  Time := .fin 0
  Mindt := E.Mindt0
  Maxerr := E.Maxerr0
  NSteps := 0
  undone := 0

/-- Modelled from the spec: `solverCommon.adaptDt` is not in src; it
"multiplies the current step size by a clamped factor and enforces
`stepSize >= minStepSize`", with no upper bound on the step size. -/
def solverCommon.adaptDt (E : Env) (s : solverCommon) (corr : Fl) : solverCommon :=
  let corr := if Fl.lt E.clampHi corr then E.clampHi
    else if Fl.lt corr E.clampLo then E.clampLo else corr
  let dt := Fl.mul E.arith.round64 s.dt_si corr
  { s with dt_si := if Fl.lt dt s.Mindt then s.Mindt else dt }

/-- Adaptive heun solver (`type Heun struct`).  `y` is the state the solver
mutates in place, `dy0` its own buffer. -/
structure Heun (n : ℕ) extends solverCommon where
  y : Slice n
  dy0 : Slice n
  torqueFn : Slice n → Fl → Slice n
  normalizeFn : Slice n → Slice n
  Fixdt : Bool

/-- The method `adaptDt` of the embedded `solverCommon`, called on a `Heun`. -/
def Heun.adaptDt {n : ℕ} (E : Env) (e : Heun n) (corr : Fl) : Heun n :=
  Heun.mk (e.tosolverCommon.adaptDt E corr) e.y e.dy0 e.torqueFn e.normalizeFn e.Fixdt

/-- Why a call did not return. -/
inductive Fault where
  /-- `util.Assert(dt > 0)` at the start of `Step` -/
  | assertDt
  /-- `solverCheckErr` -/
  | nonFiniteErr
  /-- `util.Assert(!e.Fixdt)` in the undo branch of `Step` -/
  | assertNotFixdt
deriving DecidableEq

/-- Result of a call on a solver: it returned with the solver in state `e`, or
it was aborted (by `util.Assert` or `solverCheckErr`) with the solver left in
state `e`. -/
inductive Outcome (n : ℕ) where
  | done (e : Heun n)
  | fatal (f : Fault) (e : Heun n)

/-- True when the call returned. -/
def Outcome.isDone {n : ℕ} : Outcome n → Bool
  | .done _ => true
  | .fatal _ _ => false

/-- The solver state the call left behind. -/
def Outcome.state {n : ℕ} : Outcome n → Heun n
  | .done e => e
  | .fatal _ e => e

/-- The fault that aborted the call, if any. -/
def Outcome.fault {n : ℕ} : Outcome n → Option Fault
  | .done _ => none
  | .fatal f _ => some f

/-! ## `heun.go` -/

/-- Constructor `NewHeun` (heun.go:20); `none` when `util.Argument` rejects the
arguments (`util.Argument` is not in src; by the spec construction "fails
(fatal, non-recoverable)" when its condition is false).  The buffer `dy0` is a
fresh slice. -/
def NewHeun {n : ℕ} (E : Env) (y : Slice n) (torqueFn : Slice n → Fl → Slice n)
    (normalizeFn : Slice n → Slice n) (dt multiplier : Fl) : Option (Heun n) :=
  if Fl.lt (.fin 0) dt && Fl.lt (.fin 0) multiplier then
    some (Heun.mk (newSolverCommon E dt multiplier) y (fun _ => .fin 0) torqueFn normalizeFn false)
  else none

/-- Take one time step (heun.go:27).  `util.Assert` is not in src; it aborts
the call when its condition is false. -/
def Step {n : ℕ} (E : Env) (e : Heun n) : Outcome n :=
  let A := E.arith
  let dt := toFloat32 A (Fl.mul A.round64 e.dt_si e.dt_mul)
  if !Fl.lt (.fin 0) dt then .fatal .assertDt e
  else
    -- stage 1
    let dy := e.torqueFn e.y e.Time
    let e := { e with y := Madd2 A e.y dy (.fin 1) dt }
    let e := { e with dy0 := dy }
    -- stage 2
    let dy := e.torqueFn e.y e.Time
    let err := if !e.Fixdt then Fl.mul A.round64 (MaxVecDiff A e.dy0 dy) dt else .fin 0
    if !e.Fixdt && !solverCheckErr err then .fatal .nonFiniteErr e
    else if Fl.lt err e.Maxerr || Fl.le e.dt_si e.Mindt then
      let half := Fl.mul A.round32 (.fin (1 / 2)) dt
      let mhalf := Fl.mul A.round32 (.fin (-(1 / 2))) dt
      let e := { e with y := Madd3 A e.y dy e.dy0 (.fin 1) half mhalf }
      let e := { e with y := e.normalizeFn e.y }
      let e := { e with Time := Fl.add A.round64 e.Time e.dt_si }
      let e := { e with NSteps := e.NSteps + 1 }
      if !e.Fixdt then
        .done (e.adaptDt E (E.pow (Fl.div A.round64 e.Maxerr err) (.fin (1 / 2))))
      else .done e
    else
      -- undo.
      if e.Fixdt then .fatal .assertNotFixdt e
      else
        let e := { e with y := Madd2 A e.y e.dy0 (.fin 1) (Fl.neg dt) }
        let e := { e with undone := e.undone + 1 }
        .done (e.adaptDt E (E.pow (Fl.div A.round64 e.Maxerr err) (A.round64 (1 / 3))))

/-- The loop of `Advance`: `for e.Time < stop { e.Step() }`, cut off after
`fuel` calls of `Step`; `none` when the loop is still running then. -/
def AdvanceLoop {n : ℕ} (E : Env) (stop : Fl) : ℕ → Heun n → Option (Outcome n)
  | 0, e => if Fl.lt e.Time stop then none else some (.done e)
  | fuel + 1, e =>
    if Fl.lt e.Time stop then
      match Step E e with
      | .done e1 => AdvanceLoop E stop fuel e1
      | .fatal f e1 => some (.fatal f e1)
    else some (.done e)

/-- Run for a duration in seconds (heun.go:65). -/
def Advance {n : ℕ} (E : Env) (seconds : Fl) (fuel : ℕ) (e : Heun n) : Option (Outcome n) :=
  let stop := Fl.add E.arith.round64 e.Time seconds
  AdvanceLoop E stop fuel e

/-- The loop of `Steps`, with the number of iterations left. -/
def StepsLoop {n : ℕ} (E : Env) : ℕ → Heun n → Outcome n
  | 0, e => .done e
  | k + 1, e =>
    match Step E e with
    | .done e1 => StepsLoop E k e1
    | .fatal f e1 => .fatal f e1

/-- Run for a number of steps (heun.go:75): `for s := 0; s < steps; s++`. -/
def Steps {n : ℕ} (E : Env) (steps : ℤ) (e : Heun n) : Outcome n :=
  StepsLoop E steps.toNat e

/-- True when the run returned (it neither was aborted nor ran out of fuel). -/
def runDone {n : ℕ} : Option (Outcome n) → Bool
  | some (.done _) => true
  | _ => false

/-- The solver state a run ended in (`e` for a run that is out of fuel). -/
def runState {n : ℕ} (r : Option (Outcome n)) (e : Heun n) : Heun n :=
  match r with
  | some o => o.state
  | none => e

/-! ## The parts of one `Step` -/

/-- The local `dt` of `Step`: `float32(e.dt_si * e.dt_mul)`. -/
def Heun.stepDt {n : ℕ} (A : Arith) (e : Heun n) : Fl :=
  toFloat32 A (Fl.mul A.round64 e.dt_si e.dt_mul)

/-- Stage-1 derivative, `torqueFn(y, Time)` at the start of `Step`. -/
def Heun.d1 {n : ℕ} (e : Heun n) : Slice n := e.torqueFn e.y e.Time

/-- The state `y` after stage 1, the Euler predictor `y + dt * dy`. -/
def Heun.predictor {n : ℕ} (A : Arith) (e : Heun n) : Slice n :=
  Madd2 A e.y e.d1 (.fin 1) (e.stepDt A)

/-- Stage-2 derivative, `torqueFn` at the predictor and the same `Time`. -/
def Heun.d2 {n : ℕ} (A : Arith) (e : Heun n) : Slice n := e.torqueFn (e.predictor A) e.Time

/-- The local `err` of `Step`. -/
def Heun.stepErr {n : ℕ} (A : Arith) (e : Heun n) : Fl :=
  if !e.Fixdt then Fl.mul A.round64 (MaxVecDiff A e.d1 (e.d2 A)) (e.stepDt A) else .fin 0

/-- The test `err < e.Maxerr || e.dt_si <= e.Mindt` of `Step`. -/
def Heun.acceptCond {n : ℕ} (A : Arith) (e : Heun n) : Bool :=
  Fl.lt (e.stepErr A) e.Maxerr || Fl.le e.dt_si e.Mindt

/-- The state `y` the accept branch computes before normalizing. -/
def Heun.corrector {n : ℕ} (A : Arith) (e : Heun n) : Slice n :=
  Madd3 A (e.predictor A) (e.d2 A) e.d1 (.fin 1)
    (Fl.mul A.round32 (.fin (1 / 2)) (e.stepDt A)) (Fl.mul A.round32 (.fin (-(1 / 2))) (e.stepDt A))

/-- The state `y` the undo branch computes. -/
def Heun.undo {n : ℕ} (A : Arith) (e : Heun n) : Slice n :=
  Madd2 A (e.predictor A) e.d1 (.fin 1) (Fl.neg (e.stepDt A))

/-- The solver after stage 1: `y` holds the predictor, `dy0` the stage-1
derivative. -/
def Heun.afterStage1 {n : ℕ} (A : Arith) (e : Heun n) : Heun n :=
  { e with y := e.predictor A, dy0 := e.d1 }

/-- The solver at the end of the accept branch, before `adaptDt`. -/
def Heun.accepted {n : ℕ} (A : Arith) (e : Heun n) : Heun n :=
  { e with y := e.normalizeFn (e.corrector A), dy0 := e.d1,
           Time := Fl.add A.round64 e.Time e.dt_si, NSteps := e.NSteps + 1 }

/-- The solver at the end of the undo branch, before `adaptDt`. -/
def Heun.rejected {n : ℕ} (A : Arith) (e : Heun n) : Heun n :=
  { e with y := e.undo A, dy0 := e.d1, undone := e.undone + 1 }

/-- The factor `Step` passes to `adaptDt` after an accepted step. -/
def Heun.growFactor {n : ℕ} (E : Env) (e : Heun n) : Fl :=
  E.pow (Fl.div E.arith.round64 e.Maxerr (e.stepErr E.arith)) (.fin (1 / 2))

/-- The factor `Step` passes to `adaptDt` after an undone step. -/
def Heun.shrinkFactor {n : ℕ} (E : Env) (e : Heun n) : Fl :=
  E.pow (Fl.div E.arith.round64 e.Maxerr (e.stepErr E.arith)) (E.arith.round64 (1 / 3))

/-! ## Shapes (`engine/shape.go`) -/

/-- Go's `math.Cos` and `math.Sin`. -/
structure Trig where
  cos : Fl → Fl
  sin : Fl → Fl

/-- Geometrical shape for setting sample geometry:
`type Shape func(x, y, z float64) bool`. -/
abbrev Shape := Fl → Fl → Fl → Bool

/-- All cells with x-coordinate between a and b. -/
def XRange (a b : Fl) : Shape :=
  fun x _ _ => Fl.le a x && Fl.lt x b

/-- All cells with y-coordinate between a and b. -/
def YRange (a b : Fl) : Shape :=
  fun _ y _ => Fl.le a y && Fl.lt y b

/-- All cells with z-coordinate between a and b. -/
def ZRange (a b : Fl) : Shape :=
  fun _ _ z => Fl.le a z && Fl.lt z b

/-- What `shape.go` and `util.go` use of the mesh `Mesh()` returns, which is
not in src: the numbers of cells `Size()` and the cell sizes `CellSize()`, one
per axis. -/
structure Mesh where
  Size : Fin 3 → ℤ
  CellSize : Fin 3 → Fl

/-- Conversion `float64(i)` of an `int`. -/
def intToFloat64 (A : Arith) (i : ℤ) : Fl := A.round64 (i : ℚ)

/-- Cell layers #a (inclusive) up to #b (exclusive) (shape.go:73); `none` when
`log.Fatal` ends the program. -/
def Layers (A : Arith) (m : Mesh) (a b : ℤ) : Option Shape :=
  let Nz := m.Size 0
  if a < 0 || a > Nz || b < 0 || b > Nz then none
  else
    let c := m.CellSize 0
    let n := intToFloat64 A Nz
    let z1 := Fl.mul A.round64
      (Fl.sub A.round64 (Fl.sub A.round64 (intToFloat64 A a) (Fl.div A.round64 n (.fin 2)))
        (.fin (1 / 2))) c
    let z2 := Fl.mul A.round64
      (Fl.add A.round64
        (Fl.sub A.round64 (intToFloat64 A (b - 1)) (Fl.div A.round64 n (.fin 2)))
        (.fin (1 / 2))) c
    some (ZRange z1 z2)

namespace Shape

/-- Rotates the shape around the Z-axis, over θ radians. -/
def RotZ (A : Arith) (T : Trig) (s : Shape) (θ : Fl) : Shape :=
  let cos := T.cos θ
  let sin := T.sin θ
  fun x y z =>
    let x_ := Fl.add A.round64 (Fl.mul A.round64 x cos) (Fl.mul A.round64 y sin)
    let y_ := Fl.add A.round64 (Fl.mul A.round64 (Fl.neg x) sin) (Fl.mul A.round64 y cos)
    s x_ y_ z

/-- Rotates the shape around the Y-axis, over θ radians. -/
def RotY (A : Arith) (T : Trig) (s : Shape) (θ : Fl) : Shape :=
  let cos := T.cos θ
  let sin := T.sin θ
  fun x y z =>
    let x_ := Fl.add A.round64 (Fl.mul A.round64 x cos) (Fl.mul A.round64 z sin)
    let z_ := Fl.add A.round64 (Fl.mul A.round64 (Fl.neg x) sin) (Fl.mul A.round64 z cos)
    s x_ y z_

/-- Rotates the shape around the X-axis, over θ radians. -/
def RotX (A : Arith) (T : Trig) (s : Shape) (θ : Fl) : Shape :=
  let cos := T.cos θ
  let sin := T.sin θ
  fun x y z =>
    let y_ := Fl.add A.round64 (Fl.mul A.round64 z cos) (Fl.mul A.round64 y sin)
    let z_ := Fl.add A.round64 (Fl.mul A.round64 (Fl.neg z) sin) (Fl.mul A.round64 y cos)
    s x y_ z_

/-- Union of shapes a and b (logical OR). -/
def Add (a b : Shape) : Shape :=
  fun x y z => a x y z || b x y z

/-- Intersection of shapes a and b (logical AND). -/
def Intersect (a b : Shape) : Shape :=
  fun x y z => a x y z && b x y z

/-- Inverse (outside) of shape (logical NOT). -/
def Inverse (s : Shape) : Shape :=
  fun x y z => !s x y z

/-- Removes b from a (logical a AND NOT b). -/
def Sub (a b : Shape) : Shape :=
  fun x y z => a x y z && !b x y z

/-- Logical XOR of shapes a and b. -/
def Xor (a b : Shape) : Shape :=
  fun x y z =>
    let A := a x y z
    let B := b x y z
    (A || B) && !(A && B)

end Shape

/-! ## `engine/util.go` -/

/-- Index of the x axis (`const X = 0`). -/
def X : Fin 3 := 0

/-- Index of the y axis (`const Y = 1`). -/
def Y : Fin 3 := 1

/-- Index of the z axis (`const Z = 2`). -/
def Z : Fin 3 := 2

/-- Test if have lies within maxError of want (util.go:43): `true` when the
value is logged as OK, `false` when `util.Fatal` is called. -/
def Expect (A : Arith) (hav want maxError : Fl) : Bool :=
  if hav.isNaN || want.isNaN || Fl.lt maxError (Fl.abs (Fl.sub A.round64 hav want)) then false
  else true

/-- The loop of `ExpectV` (util.go:52) over the three components; `util.Fatal`
at one component ends it. -/
def ExpectV (A : Arith) (hav want : Fin 3 → Fl) (maxErr : Fl) : Bool :=
  Expect A (hav 0) (want 0) maxErr && Expect A (hav 1) (want 1) maxErr &&
    Expect A (hav 2) (want 2) maxErr

/-- Converts cell index to coordinate, internal coordinates (util.go:117).
`TotalShift` is a variable of package `engine` that is not in src. -/
def Index2Coord (A : Arith) (m : Mesh) (TotalShift : Fl) (ix iy iz : ℤ) : Fin 3 → Fl :=
  let n := m.Size
  let c := m.CellSize
  let half (k : ℤ) := Fl.mul A.round64 (.fin (1 / 2)) (intToFloat64 A (k - 1))
  let x := Fl.sub A.round64
    (Fl.mul A.round64 (c X) (Fl.sub A.round64 (intToFloat64 A ix) (half (n X)))) TotalShift
  let y := Fl.mul A.round64 (c Y) (Fl.sub A.round64 (intToFloat64 A iy) (half (n Y)))
  let z := Fl.mul A.round64 (c Z) (Fl.sub A.round64 (intToFloat64 A iz) (half (n Z)))
  fun k => if k = X then x else if k = Y then y else z

/-! ## Concrete solvers used to evaluate the code -/

/-- Stand-in for `math.Pow` in concrete runs: it returns its base.  It is not
`math.Pow`; statements that depend on what `math.Pow` returns quantify over
it instead.  For the exponents 1/2 and 1/3 of `Step` it gives what `math.Pow`
gives at the bases 0, 1, `+Inf` and NaN; after the clamp of the factor to
`[1/2, 2]` it also gives the same step size at every base of at most 1/8 and,
for the exponent 1/2, at every base of at least 4.  Like a root it maps
`[0, 1]` into itself and numbers of at least 1 to such numbers.  A run in
which another base occurs follows the code only up to that step. -/
def powStub : Fl → Fl → Fl := fun x _ => x

/-- The machine arithmetic, with factors clamped to `[1/2, 2]` and the stand-in
`powStub` for `math.Pow`. -/
def ieeeEnv : Env where
  arith := Arith.ieee
  pow := powStub
  clampLo := .fin (1 / 2)
  clampHi := .fin 2
  Maxerr0 := .fin (1 / 10000)
  Mindt0 := .fin 0

/-- Real-number arithmetic, with factors clamped to `[1/2, 2]` and the stand-in
`powStub` for `math.Pow`. -/
def exactEnv : Env where
  arith := Arith.exact
  pow := powStub
  clampLo := .fin (1 / 2)
  clampHi := .fin 2
  Maxerr0 := .fin (1 / 10000)
  Mindt0 := .fin 0

/-- One cell obeying `dy/dt = 2^24 * y`, started at `y = 1` with step size 1
and tolerance 1, in `float32`. -/
def stiff : Heun 1 where
  dt_si := .fin 1
  dt_mul := .fin 1
  Time := .fin 0
  Mindt := .fin 0
  Maxerr := .fin 1
  NSteps := 0
  undone := 0
  y := fun _ => .fin 1
  dy0 := fun _ => .fin 0
  torqueFn := fun y _ i => Fl.mul Arith.ieee.round32 (.fin (2 ^ 24)) (y i)
  normalizeFn := id
  Fixdt := false

/-- Exponential decay `RHS(y, t) = -y` from `y = 1`: step size 0.1, unit
multiplier 1, tolerance `1e-3`, identity normalize, adaptive mode, nothing
done yet; `mindt` is the step-size floor and `A` the arithmetic in which 0.1
and `1e-3` are stored. -/
def decay (A : Arith) (mindt : Fl) : Heun 1 where
  dt_si := A.round64 (1 / 10)
  dt_mul := .fin 1
  Time := .fin 0
  Mindt := mindt
  Maxerr := A.round64 (1 / 1000)
  NSteps := 0
  undone := 0
  y := fun _ => .fin 1
  dy0 := fun _ => .fin 0
  torqueFn := fun y _ i => Fl.neg (y i)
  normalizeFn := id
  Fixdt := false

/-- One cell obeying `dy/dt = 1/(1 - y)`, singular at `y = 1`, started at
`y = 0` with step size 1, in `float32`. -/
def blowup : Heun 1 where
  dt_si := .fin 1
  dt_mul := .fin 1
  Time := .fin 0
  Mindt := .fin 0
  Maxerr := .fin 1
  NSteps := 0
  undone := 0
  y := fun _ => .fin 0
  dy0 := fun _ => .fin 0
  torqueFn := fun y _ i =>
    Fl.div Arith.ieee.round32 (.fin 1) (Fl.sub Arith.ieee.round32 (.fin 1) (y i))
  normalizeFn := id
  Fixdt := false

/-- The decay solver `RHS(y, t) = -y` from `y = 1` in fixed-step mode (`Fixdt`
set), with step size 1/8, no floor and tolerance `maxerr`. -/
def fixedDecay (maxerr : Fl) : Heun 1 where
  dt_si := .fin (1 / 8)
  dt_mul := .fin 1
  Time := .fin 0
  Mindt := .fin 0
  Maxerr := maxerr
  NSteps := 0
  undone := 0
  y := fun _ => .fin 1
  dy0 := fun _ => .fin 0
  torqueFn := fun y _ i => Fl.neg (y i)
  normalizeFn := id
  Fixdt := true

/-- The solver `NewHeun` builds on the machine for `RHS(y, t) = -y`, `y = 1`,
step size `2^-100` and multiplier `2^-100` (both are `float64` values). -/
def tinyHeun : Option (Heun 1) :=
  NewHeun ieeeEnv (fun _ => .fin 1) (fun y _ i => Fl.neg (y i)) id
    (.fin (1 / 2 ^ 100)) (.fin (1 / 2 ^ 100))

/-- Real-number arithmetic with a stand-in for `math.Pow` that never returns
NaN, factors clamped to `[1/2, 2]`. -/
def exactEnvOne : Env where
  arith := Arith.exact
  pow := fun _ _ => .fin 1
  clampLo := .fin (1 / 2)
  clampHi := .fin 2
  Maxerr0 := .fin (1 / 10000)
  Mindt0 := .fin 0

/-- The states a solver can be in: built by a successful `NewHeun`, then any
sequence of `Step` calls that return and of assignments to the exported
settings `Maxerr`, `Mindt` and `Fixdt`. -/
inductive Reachable {n : ℕ} (E : Env) : Heun n → Prop where
  | new (y : Slice n) (f : Slice n → Fl → Slice n) (g : Slice n → Slice n) (dt mul : Fl)
      (e : Heun n) : NewHeun E y f g dt mul = some e → Reachable E e
  | step (e e1 : Heun n) : Reachable E e → Step E e = .done e1 → Reachable E e1
  | setMaxerr (e : Heun n) (m : Fl) : Reachable E e → Reachable E { e with Maxerr := m }
  | setMindt (e : Heun n) (m : Fl) : Reachable E e → Reachable E { e with Mindt := m }
  | setFixdt (e : Heun n) (b : Bool) : Reachable E e → Reachable E { e with Fixdt := b }

/-- The decay solver `RHS(y, t) = -y` from `y = 1` in adaptive mode, with step
size 1/8 and multiplier 1 (error estimate of the first step:
`|-1 + 7/8| * 1/8 = 1/64`), tolerance `maxerr` and floor `mindt`. -/
def decayEighth (maxerr mindt : Fl) : Heun 1 where
  dt_si := .fin (1 / 8)
  dt_mul := .fin 1
  Time := .fin 0
  Mindt := mindt
  Maxerr := maxerr
  NSteps := 0
  undone := 0
  y := fun _ => .fin 1
  dy0 := fun _ => .fin 0
  torqueFn := fun y _ i => Fl.neg (y i)
  normalizeFn := id
  Fixdt := false

/-- One cell at rest, `RHS(y, t) = 0`, with `y = 1`, step size 1/8, tolerance
`1e-3` and no floor, in adaptive mode: its error estimate is 0. -/
def still : Heun 1 where
  dt_si := .fin (1 / 8)
  dt_mul := .fin 1
  Time := .fin 0
  Mindt := .fin 0
  Maxerr := .fin (1 / 1000)
  NSteps := 0
  undone := 0
  y := fun _ => .fin 1
  dy0 := fun _ => .fin 0
  torqueFn := fun _ _ _ => .fin 0
  normalizeFn := id
  Fixdt := false

/-- One cell with the switching right-hand side `RHS(y) = 2^24` for `y <= 1`
and `-2^24` for `y > 1`, started at `y = 1` with step size 1 and tolerance
`2^27`, in adaptive mode. -/
def switching : Heun 1 where
  dt_si := .fin 1
  dt_mul := .fin 1
  Time := .fin 0
  Mindt := .fin 0
  Maxerr := .fin (2 ^ 27)
  NSteps := 0
  undone := 0
  y := fun _ => .fin 1
  dy0 := fun _ => .fin 0
  torqueFn := fun y _ i => if Fl.le (y i) (.fin 1) then .fin (2 ^ 24) else .fin (-(2 ^ 24))
  normalizeFn := id
  Fixdt := false

/-- A cell at rest (`RHS = 0`) in fixed-step mode at `Time = 2 - 2^-51`, with
step size `5 * 2^-52` and multiplier 1 (all of them `float64` values). -/
def edgeClock : Heun 1 where
  dt_si := .fin (5 / 2 ^ 52)
  dt_mul := .fin 1
  Time := .fin (2 - 1 / 2 ^ 51)
  Mindt := .fin 0
  Maxerr := .fin 1
  NSteps := 0
  undone := 0
  y := fun _ => .fin 1
  dy0 := fun _ => .fin 0
  torqueFn := fun _ _ _ => .fin 0
  normalizeFn := id
  Fixdt := true

/-- The solver `edgeClock` after `Advance(2^-52)`, in machine arithmetic. -/
def edgeClockRun : Heun 1 :=
  runState (Advance ieeeEnv (.fin (1 / 2 ^ 52)) 3 edgeClock) edgeClock

/-- One cell obeying `dy/dt = -2^77 * y` from `y = 1`, with the smallest positive
`float64` as step size, `2^-1074`, and the multiplier `2^1000` (so that `dt`
is `2^-74` in `float32`), tolerance 48 and no floor, in adaptive mode: the
predictor is `1 - 8 = -7` and the error estimate `|-2^77 - 7*2^77| * 2^-74 = 64`. -/
def subnormalDecay : Heun 1 where
  dt_si := .fin (1 / 2 ^ 1074)
  dt_mul := .fin (2 ^ 1000)
  Time := .fin 0
  Mindt := .fin 0
  Maxerr := .fin 48
  NSteps := 0
  undone := 0
  y := fun _ => .fin 1
  dy0 := fun _ => .fin 0
  torqueFn := fun y _ i => Fl.mul Arith.ieee.round32 (.fin (-(2 ^ 77))) (y i)
  normalizeFn := id
  Fixdt := false

/-- The machine arithmetic with the value of `math.Pow(0.75, 1/3)`:
`0.9085602964160698`, the `float64` nearest to the cube root of 3/4 (`math.Pow`
returns it to within one unit in the last place); factors clamped to
`[1/2, 2]`.  At other bases the stand-in `powStub` is kept. -/
def cbrtEnv : Env where
  arith := Arith.ieee
  pow := fun x y =>
    if x = .fin (3 / 4) then .fin (8183583624766079 / 9007199254740992) else powStub x y
  clampLo := .fin (1 / 2)
  clampHi := .fin 2
  Maxerr0 := .fin (1 / 10000)
  Mindt0 := .fin 0

/-- The values of `math.Cos` and `math.Sin` at 0 (`Cos(0) = 1`, `Sin(0) = 0`);
no value is assumed at other angles. -/
def trigAtZero : Trig where
  cos := fun θ => if θ = .fin 0 then .fin 1 else .nan
  sin := fun θ => if θ = .fin 0 then .fin 0 else .nan

/-- A mesh of 4 x 4 x 4 cells of size 1. -/
def cube4 : Mesh where
  Size := fun _ => 4
  CellSize := fun _ => .fin 1

/-- Whether shape `s` contains the centre of the cells of layer `i`, the point
`Index2Coord(0, 0, i)` of an unshifted mesh. -/
def containsLayer (A : Arith) (m : Mesh) (s : Shape) (i : ℤ) : Bool :=
  let p := Index2Coord A m (.fin 0) 0 0 i
  s (p X) (p Y) (p Z)

/-- The values of `math.Cos` and `math.Sin` at the angles 3 and -3 to within one
unit in the last place: the `float64` values nearest to cos 3 and sin 3,
`-0.9899924966004454 = -8917059677578706 / 2^53` and
`0.1411200080598672 = 5084384125703515 / 2^55`, moved by `i` and `j` units in
the last place; `Cos(-x) = Cos(x)`, `Sin(-x) = -Sin(x)`, `Cos(0) = 1` and
`Sin(0) = 0`.  No value is assumed at other angles. -/
def trigNearThree (i j : ℤ) : Trig where
  cos := fun θ =>
    if θ = .fin 0 then .fin 1
    else if θ = .fin 3 ∨ θ = .fin (-3) then .fin ((-8917059677578706 + i) / 2 ^ 53)
    else .nan
  sin := fun θ =>
    if θ = .fin 0 then .fin 0
    else if θ = .fin 3 then .fin ((5084384125703515 + j) / 2 ^ 55)
    else if θ = .fin (-3) then .fin (-((5084384125703515 + j) / 2 ^ 55))
    else .nan

/-- Whether the shape `s = XRange(1, 1 + 2^-52)` rotated over 3 and then over
-3, and the same shape rotated over the `float64` sum `3 + (-3)`, contain the
point (1, 0, 0): the pair (`s.RotZ(3).RotZ(-3)` contains it, `s.RotZ(3 + (-3))`
contains it), in machine arithmetic with the cosine and sine of
`trigNearThree i j`. -/
def roundTripThree (i j : ℤ) : Bool × Bool :=
  (Shape.RotZ Arith.ieee (trigNearThree i j)
      (Shape.RotZ Arith.ieee (trigNearThree i j) (XRange (.fin 1) (.fin (1 + 1 / 2 ^ 52)))
        (.fin 3))
      (.fin (-3)) (.fin 1) (.fin 0) (.fin 0),
    Shape.RotZ Arith.ieee (trigNearThree i j) (XRange (.fin 1) (.fin (1 + 1 / 2 ^ 52)))
      (Fl.add Arith.ieee.round64 (.fin 3) (.fin (-3))) (.fin 1) (.fin 0) (.fin 0))

/-- Cosine and sine of the three angles a, b and a + b with
`cos a = 3/5`, `sin a = 4/5`, `cos b = 5/13`, `sin b = 12/13`, named 1, 2 and 3,
and of their opposites; `cos 0 = 1`, `sin 0 = 0`. -/
def trigPythagorean : Trig where
  cos := fun θ => match θ with
    | .fin q =>
      if q = 0 then .fin 1
      else if q = 1 ∨ q = -1 then .fin (3 / 5)
      else if q = 2 ∨ q = -2 then .fin (5 / 13)
      else if q = 3 ∨ q = -3 then .fin (-33 / 65)
      else .nan
    | _ => .nan
  sin := fun θ => match θ with
    | .fin q =>
      if q = 0 then .fin 0
      else if q = 1 then .fin (4 / 5) else if q = -1 then .fin (-4 / 5)
      else if q = 2 then .fin (12 / 13) else if q = -2 then .fin (-12 / 13)
      else if q = 3 then .fin (56 / 65) else if q = -3 then .fin (-56 / 65)
      else .nan
    | _ => .nan

/-! ## Properties -/

/-! ### Values and the error estimate -/

theorem Fl.add_fin_fin (r : ℚ → Fl) (a b : ℚ) : Fl.add r (.fin a) (.fin b) = r (a + b) := rfl

theorem Fl.mul_fin_fin (r : ℚ → Fl) (a b : ℚ) : Fl.mul r (.fin a) (.fin b) = r (a * b) := rfl

theorem Arith.exact_round32 (q : ℚ) : Arith.exact.round32 q = .fin q := rfl

theorem Arith.exact_round64 (q : ℚ) : Arith.exact.round64 q = .fin q := rfl

theorem Fl.add_exact_eq_fin {x y : Fl} {c : ℚ} (h : Fl.add Fl.fin x y = .fin c) :
    ∃ a b, x = .fin a ∧ y = .fin b ∧ c = a + b := by
  cases x <;> cases y <;> simp [Fl.add] at h
  exact ⟨_, _, rfl, rfl, h.symm⟩

theorem Fl.mul_exact_eq_fin {x y : Fl} {c : ℚ} (h : Fl.mul Fl.fin x y = .fin c) :
    ∃ a b, x = .fin a ∧ y = .fin b ∧ c = a * b := by
  cases x <;> cases y <;> simp [Fl.mul, Fl.infTimes] at h
  all_goals first | exact ⟨_, _, rfl, rfl, h.symm⟩ | (split_ifs at h)

theorem Fl.neg_eq_fin {x : Fl} {c : ℚ} (h : Fl.neg x = .fin c) : x = .fin (-c) := by
  cases x <;> simp [Fl.neg] at h
  simp [← h]

theorem Fl.abs_eq_fin {x : Fl} {c : ℚ} (h : Fl.abs x = .fin c) : ∃ a, x = .fin a := by
  cases x <;> simp [Fl.abs] at h
  exact ⟨_, rfl⟩

theorem Fl.abs_ne_ninf (x : Fl) : Fl.abs x ≠ .ninf := by
  cases x <;> simp [Fl.abs]

theorem Fl.max_ne_ninf {x y : Fl} (hx : x ≠ .ninf) (hy : y ≠ .ninf) : Fl.max x y ≠ .ninf := by
  cases x <;> cases y <;> simp_all [Fl.max] <;> split_ifs <;> simp

theorem Fl.max_eq_fin {x y : Fl} {c : ℚ} (hx : x ≠ .ninf) (hy : y ≠ .ninf)
    (h : Fl.max x y = .fin c) : (∃ a, x = .fin a) ∧ ∃ b, y = .fin b := by
  cases x <;> cases y <;> simp_all [Fl.max, Fl.lt]

theorem isFinite_iff {x : Fl} : x.isFinite = true ↔ ∃ a, x = .fin a := by
  cases x <;> simp [Fl.isFinite]

theorem MaxVecDiff_ne_ninf (A : Arith) : ∀ {n : ℕ} (a b : Slice n), MaxVecDiff A a b ≠ .ninf
  | 0, _, _ => by simp [MaxVecDiff]
  | n + 1, a, b => by
    rw [MaxVecDiff]
    exact Fl.max_ne_ninf (Fl.abs_ne_ninf _) (MaxVecDiff_ne_ninf A _ _)

/-- In real-number arithmetic a finite `MaxVecDiff` means that every element
of both slices is finite. -/
theorem MaxVecDiff_exact_fin : ∀ {n : ℕ} (a b : Slice n) (c : ℚ),
    MaxVecDiff Arith.exact a b = .fin c → ∀ i, ∃ p q, a i = .fin p ∧ b i = .fin q
  | 0, _, _, _, _, i => i.elim0
  | n + 1, a, b, c, h, i => by
    rw [MaxVecDiff] at h
    obtain ⟨⟨u, hu⟩, ⟨v, hv⟩⟩ :=
      Fl.max_eq_fin (Fl.abs_ne_ninf _) (MaxVecDiff_ne_ninf _ _ _) h
    refine Fin.cases ?_ (fun j => ?_) i
    · obtain ⟨w, hw⟩ := Fl.abs_eq_fin hu
      obtain ⟨p, q, hp, hq, -⟩ := Fl.add_exact_eq_fin hw
      exact ⟨p, -q, hp, Fl.neg_eq_fin hq⟩
    · exact MaxVecDiff_exact_fin _ _ v hv j

/-! ### Rounding keeps the order -/

theorem pow2_eq_zpow (e : ℤ) : pow2 e = (2 : ℚ) ^ e := by
  unfold pow2
  split_ifs with h
  · obtain ⟨k, rfl⟩ := Int.eq_ofNat_of_zero_le h
    simp
  · push_neg at h
    obtain ⟨k, hk⟩ := Int.eq_ofNat_of_zero_le (show (0 : ℤ) ≤ -e by omega)
    have he : e = -(k : ℤ) := by omega
    subst he
    simp

theorem pow2_pos (e : ℤ) : 0 < pow2 e := by
  rw [pow2_eq_zpow]
  positivity

theorem bitLenAux_spec : ∀ (fuel k : ℕ), k ≤ fuel → 0 < k →
    0 < bitLenAux fuel k ∧ 2 ^ (bitLenAux fuel k - 1) ≤ k ∧ k < 2 ^ bitLenAux fuel k
  | 0, k, h, h0 => by omega
  | fuel + 1, k, h, h0 => by
    rw [bitLenAux, if_neg (by omega)]
    by_cases h2 : k / 2 = 0
    · have hk : k = 1 := by omega
      subst hk
      cases fuel <;> simp [bitLenAux]
    · obtain ⟨hp, hlo, hhi⟩ := bitLenAux_spec fuel (k / 2) (by omega) (by omega)
      refine ⟨by omega, ?_, ?_⟩
      · have e1 : bitLenAux fuel (k / 2) + 1 - 1 = (bitLenAux fuel (k / 2) - 1) + 1 := by omega
        rw [e1, pow_succ]
        omega
      · rw [pow_succ]
        omega

theorem bitLen_spec (k : ℕ) (h0 : 0 < k) :
    0 < bitLen k ∧ 2 ^ (bitLen k - 1) ≤ k ∧ k < 2 ^ bitLen k :=
  bitLenAux_spec k k le_rfl h0

theorem abs_eq_natAbs_div_den (q : ℚ) : |q| = (q.num.natAbs : ℚ) / (q.den : ℚ) := by
  conv_lhs => rw [← Rat.num_div_den q]
  rw [abs_div, Nat.cast_natAbs, Int.cast_abs, abs_of_pos (show (0 : ℚ) < q.den by positivity)]

theorem ilog2_spec (q : ℚ) (hq : q ≠ 0) :
    (2 : ℚ) ^ ilog2 q ≤ |q| ∧ |q| < (2 : ℚ) ^ (ilog2 q + 1) := by
  have hn : 0 < q.num.natAbs := Int.natAbs_pos.mpr (Rat.num_ne_zero.mpr hq)
  have hd : 0 < q.den := q.den_pos
  obtain ⟨hbn, hn1, hn2⟩ := bitLen_spec _ hn
  obtain ⟨hbd, hd1, hd2⟩ := bitLen_spec _ hd
  have habs := abs_eq_natAbs_div_den q
  set n := q.num.natAbs with hndef
  set d := q.den with hddef
  set bn := bitLen n with hbndef
  set bd := bitLen d with hbddef
  have hdq : (0 : ℚ) < d := by exact_mod_cast hd
  have hn1q : (2 : ℚ) ^ ((bn : ℤ) - 1) ≤ n := by
    have : ((2 ^ (bn - 1) : ℕ) : ℚ) ≤ n := by exact_mod_cast hn1
    have e : ((bn : ℤ) - 1) = ((bn - 1 : ℕ) : ℤ) := by omega
    rw [e, zpow_natCast]
    exact_mod_cast this
  have hn2q : (n : ℚ) < (2 : ℚ) ^ (bn : ℤ) := by
    rw [zpow_natCast]
    exact_mod_cast hn2
  have hd1q : (2 : ℚ) ^ ((bd : ℤ) - 1) ≤ d := by
    have : ((2 ^ (bd - 1) : ℕ) : ℚ) ≤ d := by exact_mod_cast hd1
    have e : ((bd : ℤ) - 1) = ((bd - 1 : ℕ) : ℤ) := by omega
    rw [e, zpow_natCast]
    exact_mod_cast this
  have hd2q : (d : ℚ) < (2 : ℚ) ^ (bd : ℤ) := by
    rw [zpow_natCast]
    exact_mod_cast hd2
  have two : (2 : ℚ) ≠ 0 := by norm_num
  -- 2^(e0-1) < |q| < 2^(e0+1)
  have hlow : (2 : ℚ) ^ ((bn : ℤ) - (bd : ℤ) - 1) < |q| := by
    rw [habs, lt_div_iff₀ hdq]
    have e : (2 : ℚ) ^ ((bn : ℤ) - (bd : ℤ) - 1) * (2 : ℚ) ^ (bd : ℤ)
        = (2 : ℚ) ^ ((bn : ℤ) - 1) := by
      rw [← zpow_add₀ two]
      congr 1
      ring
    calc (2 : ℚ) ^ ((bn : ℤ) - (bd : ℤ) - 1) * d
        < (2 : ℚ) ^ ((bn : ℤ) - (bd : ℤ) - 1) * (2 : ℚ) ^ (bd : ℤ) := by
          apply mul_lt_mul_of_pos_left hd2q
          positivity
      _ = (2 : ℚ) ^ ((bn : ℤ) - 1) := e
      _ ≤ n := hn1q
  have hhigh : |q| < (2 : ℚ) ^ ((bn : ℤ) - (bd : ℤ) + 1) := by
    rw [habs, div_lt_iff₀ hdq]
    have e : (2 : ℚ) ^ ((bn : ℤ) - (bd : ℤ) + 1) * (2 : ℚ) ^ ((bd : ℤ) - 1)
        = (2 : ℚ) ^ (bn : ℤ) := by
      rw [← zpow_add₀ two]
      congr 1
      ring
    calc (n : ℚ) < (2 : ℚ) ^ (bn : ℤ) := hn2q
      _ = (2 : ℚ) ^ ((bn : ℤ) - (bd : ℤ) + 1) * (2 : ℚ) ^ ((bd : ℤ) - 1) := e.symm
      _ ≤ (2 : ℚ) ^ ((bn : ℤ) - (bd : ℤ) + 1) * d := by
          apply mul_le_mul_of_nonneg_left hd1q
          positivity
  unfold ilog2
  simp only [pow2_eq_zpow]
  split_ifs with h
  · exact ⟨h, hhigh⟩
  · push_neg at h
    refine ⟨le_of_lt hlow, ?_⟩
    have e : (bn : ℤ) - (bd : ℤ) - 1 + 1 = (bn : ℤ) - (bd : ℤ) := by ring
    rw [e]
    exact h

theorem ilog2_mono {a b : ℚ} (ha : 0 < a) (hab : a ≤ b) : ilog2 a ≤ ilog2 b := by
  have hb : 0 < b := lt_of_lt_of_le ha hab
  obtain ⟨ha1, -⟩ := ilog2_spec a (ne_of_gt ha)
  obtain ⟨-, hb2⟩ := ilog2_spec b (ne_of_gt hb)
  rw [abs_of_pos ha] at ha1
  rw [abs_of_pos hb] at hb2
  have h : (2 : ℚ) ^ ilog2 a < (2 : ℚ) ^ (ilog2 b + 1) := lt_of_le_of_lt (le_trans ha1 hab) hb2
  have := (zpow_lt_zpow_iff_right₀ (show (1 : ℚ) < 2 by norm_num)).mp h
  omega

theorem roundHalfEven_bounds (m : ℚ) :
    ⌊m⌋ ≤ roundHalfEven m ∧ roundHalfEven m ≤ ⌊m⌋ + 1 := by
  unfold roundHalfEven
  simp only
  split_ifs <;> constructor <;> omega

theorem roundHalfEven_intCast (k : ℤ) : roundHalfEven (k : ℚ) = k := by
  unfold roundHalfEven
  simp

theorem roundHalfEven_mono {a b : ℚ} (hab : a ≤ b) : roundHalfEven a ≤ roundHalfEven b := by
  have hfl : ⌊a⌋ ≤ ⌊b⌋ := Int.floor_le_floor hab
  rcases lt_or_eq_of_le hfl with hlt | heq
  · have h1 := (roundHalfEven_bounds a).2
    have h2 := (roundHalfEven_bounds b).1
    omega
  · unfold roundHalfEven
    simp only
    rw [← heq]
    have hr : a - ⌊a⌋ ≤ b - ⌊a⌋ := by linarith
    split_ifs <;> first | omega | (exfalso; linarith)

theorem roundHalfEven_le_of_le_int {a : ℚ} {k : ℤ} (h : a ≤ k) : roundHalfEven a ≤ k := by
  have := roundHalfEven_mono h
  rwa [roundHalfEven_intCast] at this

theorem roundHalfEven_ge_of_int_le {a : ℚ} {k : ℤ} (h : (k : ℚ) ≤ a) :
    k ≤ roundHalfEven a := by
  have := roundHalfEven_mono h
  rwa [roundHalfEven_intCast] at this

/-- The magnitude `roundBinary` gives a nonzero number before the overflow
test: a multiple of the spacing, nearest to `|q|`. -/
theorem roundMag_mono (prec : ℕ) (hprec : 1 ≤ prec) (emin : ℤ) {a b : ℚ} (ha : 0 < a)
    (hab : a ≤ b) :
    (roundHalfEven (|a| / pow2 (Max.max (ilog2 a) emin - ((prec : ℤ) - 1))) : ℚ)
        * pow2 (Max.max (ilog2 a) emin - ((prec : ℤ) - 1))
      ≤ (roundHalfEven (|b| / pow2 (Max.max (ilog2 b) emin - ((prec : ℤ) - 1))) : ℚ)
        * pow2 (Max.max (ilog2 b) emin - ((prec : ℤ) - 1)) := by
  have hb : 0 < b := lt_of_lt_of_le ha hab
  have two : (2 : ℚ) ≠ 0 := by norm_num
  have one2 : (1 : ℚ) < 2 := by norm_num
  rw [abs_of_pos ha, abs_of_pos hb]
  simp only [pow2_eq_zpow]
  have hil := ilog2_mono ha hab
  set ea := Max.max (ilog2 a) emin with hea
  set eb := Max.max (ilog2 b) emin with heb
  have hle : ea ≤ eb := max_le_max hil le_rfl
  have hua : (0 : ℚ) < (2 : ℚ) ^ (ea - ((prec : ℤ) - 1)) := by positivity
  have hub : (0 : ℚ) < (2 : ℚ) ^ (eb - ((prec : ℤ) - 1)) := by positivity
  rcases eq_or_lt_of_le hle with heq | hlt
  · rw [← heq]
    apply mul_le_mul_of_nonneg_right _ (le_of_lt hua)
    have : a / (2 : ℚ) ^ (ea - ((prec : ℤ) - 1))
        ≤ b / (2 : ℚ) ^ (ea - ((prec : ℤ) - 1)) :=
      div_le_div_of_nonneg_right hab (le_of_lt hua)
    exact_mod_cast roundHalfEven_mono this
  · -- the result for `a` is at most `2^(ea+1)`, the one for `b` at least `2^eb`
    have hA : (roundHalfEven (a / (2 : ℚ) ^ (ea - ((prec : ℤ) - 1))) : ℚ)
        * (2 : ℚ) ^ (ea - ((prec : ℤ) - 1)) ≤ (2 : ℚ) ^ (ea + 1) := by
      have ha2 : a < (2 : ℚ) ^ (ea + 1) := by
        have h1 := (ilog2_spec a (ne_of_gt ha)).2
        rw [abs_of_pos ha] at h1
        refine lt_of_lt_of_le h1 ?_
        apply zpow_le_zpow_right₀ (le_of_lt one2)
        have : ilog2 a ≤ ea := le_max_left _ _
        omega
      have hsplit : (2 : ℚ) ^ (ea + 1)
          = ((2 ^ prec : ℕ) : ℤ) * (2 : ℚ) ^ (ea - ((prec : ℤ) - 1)) := by
        push_cast
        rw [← zpow_natCast, ← zpow_add₀ two]
        congr 1
        ring
      have hq : a / (2 : ℚ) ^ (ea - ((prec : ℤ) - 1)) ≤ (((2 ^ prec : ℕ) : ℤ) : ℚ) := by
        rw [div_le_iff₀ hua, ← hsplit]
        exact le_of_lt ha2
      have hr := roundHalfEven_le_of_le_int hq
      rw [hsplit]
      apply mul_le_mul_of_nonneg_right _ (le_of_lt hua)
      exact_mod_cast hr
    have hB : (2 : ℚ) ^ eb ≤ (roundHalfEven (b / (2 : ℚ) ^ (eb - ((prec : ℤ) - 1))) : ℚ)
        * (2 : ℚ) ^ (eb - ((prec : ℤ) - 1)) := by
      have heb2 : eb = ilog2 b := by
        have h1 : emin ≤ ea := le_max_right _ _
        rcases max_choice (ilog2 b) emin with h | h
        · exact h
        · rw [← heb] at h
          omega
      have hb1 : (2 : ℚ) ^ eb ≤ b := by
        have h1 := (ilog2_spec b (ne_of_gt hb)).1
        rw [abs_of_pos hb, ← heb2] at h1
        exact h1
      have hsplit : (2 : ℚ) ^ eb
          = ((2 ^ (prec - 1) : ℕ) : ℤ) * (2 : ℚ) ^ (eb - ((prec : ℤ) - 1)) := by
        push_cast
        rw [← zpow_natCast, ← zpow_add₀ two]
        congr 1
        have : ((prec - 1 : ℕ) : ℤ) = (prec : ℤ) - 1 := by omega
        rw [this]
        ring
      have hq : (((2 ^ (prec - 1) : ℕ) : ℤ) : ℚ)
          ≤ b / (2 : ℚ) ^ (eb - ((prec : ℤ) - 1)) := by
        rw [le_div_iff₀ hub, ← hsplit]
        exact hb1
      have hr := roundHalfEven_ge_of_int_le hq
      rw [hsplit]
      apply mul_le_mul_of_nonneg_right _ (le_of_lt hub)
      exact_mod_cast hr
    refine le_trans hA (le_trans ?_ hB)
    apply zpow_le_zpow_right₀ (le_of_lt one2)
    omega

theorem roundMag_nonneg (prec : ℕ) (emin : ℤ) (q : ℚ) :
    0 ≤ (roundHalfEven (|q| / pow2 (Max.max (ilog2 q) emin - ((prec : ℤ) - 1))) : ℚ)
        * pow2 (Max.max (ilog2 q) emin - ((prec : ℤ) - 1)) := by
  apply mul_nonneg _ (le_of_lt (pow2_pos _))
  have h0 : ((0 : ℤ) : ℚ) ≤ |q| / pow2 (Max.max (ilog2 q) emin - ((prec : ℤ) - 1)) := by
    simpa using div_nonneg (abs_nonneg q) (le_of_lt (pow2_pos _))
  exact_mod_cast roundHalfEven_ge_of_int_le h0

theorem ilog2_neg (q : ℚ) : ilog2 (-q) = ilog2 q := by
  unfold ilog2
  simp [abs_neg]

theorem roundBinary_of_pos (prec : ℕ) (emin emax : ℤ) {q : ℚ} (hq : 0 < q) :
    roundBinary prec emin emax q =
      if pow2 (emax + 1) ≤ (roundHalfEven (|q| / pow2 (Max.max (ilog2 q) emin
            - ((prec : ℤ) - 1))) : ℚ) * pow2 (Max.max (ilog2 q) emin - ((prec : ℤ) - 1))
      then .pinf
      else .fin ((roundHalfEven (|q| / pow2 (Max.max (ilog2 q) emin
            - ((prec : ℤ) - 1))) : ℚ)
          * pow2 (Max.max (ilog2 q) emin - ((prec : ℤ) - 1))) := by
  unfold roundBinary
  simp only [if_neg (ne_of_gt hq), hq, if_true]

theorem roundBinary_of_neg (prec : ℕ) (emin emax : ℤ) {q : ℚ} (hq : q < 0) :
    roundBinary prec emin emax q =
      if pow2 (emax + 1) ≤ (roundHalfEven (|-q| / pow2 (Max.max (ilog2 (-q)) emin
            - ((prec : ℤ) - 1))) : ℚ) * pow2 (Max.max (ilog2 (-q)) emin - ((prec : ℤ) - 1))
      then .ninf
      else .fin (-((roundHalfEven (|-q| / pow2 (Max.max (ilog2 (-q)) emin
            - ((prec : ℤ) - 1))) : ℚ)
          * pow2 (Max.max (ilog2 (-q)) emin - ((prec : ℤ) - 1)))) := by
  unfold roundBinary
  simp only [if_neg (ne_of_lt hq), if_neg (not_lt.mpr (le_of_lt hq)), ilog2_neg, abs_neg]

/-- IEEE rounding to nearest keeps the order of two numbers. -/
theorem roundBinary_mono (prec : ℕ) (hprec : 1 ≤ prec) (emin emax : ℤ) {p q : ℚ}
    (hpq : p ≤ q) :
    Fl.le (roundBinary prec emin emax p) (roundBinary prec emin emax q) = true := by
  rcases lt_trichotomy p 0 with hp | hp | hp
  · rw [roundBinary_of_neg prec emin emax hp]
    have hRp := roundMag_nonneg prec emin (-p)
    rcases lt_trichotomy q 0 with hq | hq | hq
    · rw [roundBinary_of_neg prec emin emax hq]
      have hm := roundMag_mono prec hprec emin (show 0 < -q by linarith)
        (show -q ≤ -p by linarith)
      split_ifs with h1 h2 h2
      · rfl
      · rfl
      · exact absurd (le_trans h2 hm) h1
      · simp only [Fl.le, decide_eq_true_eq]
        linarith
    · subst hq
      have h0 : roundBinary prec emin emax 0 = .fin 0 := by simp [roundBinary]
      rw [h0]
      split_ifs
      · rfl
      · simp only [Fl.le, decide_eq_true_eq]
        linarith
    · rw [roundBinary_of_pos prec emin emax hq]
      have hRq := roundMag_nonneg prec emin q
      split_ifs
      · rfl
      · rfl
      · rfl
      · simp only [Fl.le, decide_eq_true_eq]
        linarith
  · subst hp
    have h0 : roundBinary prec emin emax 0 = .fin 0 := by simp [roundBinary]
    rw [h0]
    rcases eq_or_lt_of_le hpq with hq | hq
    · rw [← hq, h0]
      simp [Fl.le]
    · rw [roundBinary_of_pos prec emin emax hq]
      have hRq := roundMag_nonneg prec emin q
      split_ifs
      · rfl
      · simp only [Fl.le, decide_eq_true_eq]
        exact hRq
  · have hq : 0 < q := lt_of_lt_of_le hp hpq
    rw [roundBinary_of_pos prec emin emax hp, roundBinary_of_pos prec emin emax hq]
    have hm := roundMag_mono prec hprec emin hp hpq
    split_ifs with h1 h2 h2
    · rfl
    · exact absurd (le_trans h1 hm) h2
    · rfl
    · simp only [Fl.le, decide_eq_true_eq]
      exact hm

theorem Arith.ieee_round64_mono {p q : ℚ} (hpq : p ≤ q) :
    Fl.le (Arith.ieee.round64 p) (Arith.ieee.round64 q) = true :=
  roundBinary_mono 53 (by norm_num) _ _ hpq

theorem Arith.exact_round64_mono {p q : ℚ} (hpq : p ≤ q) :
    Fl.le (Arith.exact.round64 p) (Arith.exact.round64 q) = true := by
  simpa [Arith.exact, Fl.le] using hpq

theorem Arith.ieee_monotone64 : Arith.ieee.Monotone64 where
  mono := fun _ _ h => Arith.ieee_round64_mono h
  zero := by simp [Arith.ieee, roundBinary]
  one := by decide!

theorem Arith.exact_monotone64 : Arith.exact.Monotone64 where
  mono := fun _ _ h => Arith.exact_round64_mono h
  zero := rfl
  one := rfl

theorem Fl.le_chain {a b c : Fl} (h1 : Fl.le a b = true) (h2 : Fl.le b c = true) :
    Fl.le a c = true := by
  cases a <;> cases b <;> cases c <;> simp_all [Fl.le]
  linarith

theorem Fl.le_of_lt_true {a b : Fl} (h : Fl.lt a b = true) : Fl.le a b = true := by
  cases a <;> cases b <;> simp_all [Fl.lt, Fl.le]
  exact le_of_lt h

theorem Fl.le_of_le_of_lt {a b c : Fl} (h1 : Fl.le a b = true) (h2 : Fl.lt b c = true) :
    Fl.le a c = true := by
  cases a <;> cases b <;> cases c <;> simp_all [Fl.lt, Fl.le]
  exact le_of_lt (lt_of_le_of_lt h1 h2)

/-- With rounding that keeps the order, the product of a positive `float64`
value `d` and a factor of at most 1 is at most `d`. -/
theorem Fl.mul_le_self_of_le_one {r : ℚ → Fl}
    (hmono : ∀ p q : ℚ, p ≤ q → Fl.le (r p) (r q) = true) {d : ℚ} (hd0 : 0 < d)
    (hrep : r d = .fin d) {c : Fl} (hc : Fl.le c (.fin 1) = true) :
    Fl.le (Fl.mul r (.fin d) c) (.fin d) = true := by
  cases c with
  | nan => simp [Fl.le] at hc
  | pinf => simp [Fl.le] at hc
  | ninf => simp [Fl.mul, Fl.infTimes, ne_of_gt hd0, hd0, Fl.le]
  | fin c =>
    have hc1 : c ≤ 1 := by simpa [Fl.le] using hc
    have h := hmono (d * c) d (by nlinarith)
    rw [hrep] at h
    exact h

/-- With rounding that keeps the order, the product of a positive `float64`
value `d` and a factor of at least 1 is at least `d`. -/
theorem Fl.le_mul_self_of_one_le {r : ℚ → Fl}
    (hmono : ∀ p q : ℚ, p ≤ q → Fl.le (r p) (r q) = true) {d : ℚ} (hd0 : 0 < d)
    (hrep : r d = .fin d) {c : Fl} (hc : Fl.le (.fin 1) c = true) :
    Fl.le (.fin d) (Fl.mul r (.fin d) c) = true := by
  cases c with
  | nan => simp [Fl.le] at hc
  | ninf => simp [Fl.le] at hc
  | pinf => simp [Fl.mul, Fl.infTimes, ne_of_gt hd0, hd0, Fl.le]
  | fin c =>
    have hc1 : 1 ≤ c := by simpa [Fl.le] using hc
    have h := hmono d (d * c) (by nlinarith)
    rw [hrep] at h
    exact h

/-- For `0 <= Maxerr <= err` with `err` positive and finite, the quotient
`Maxerr/err` computed with a rounding that keeps the order lies in `[0, 1]`. -/
theorem ratio_le_one {A : Arith} (hS : A.Monotone64) {m err : Fl}
    (hm : Fl.le (.fin 0) m = true) (herr : Fl.le m err = true)
    (hpos : Fl.lt (.fin 0) err = true) (hfin : err.isFinite = true) :
    Fl.le (.fin 0) (Fl.div A.round64 m err) = true ∧
    Fl.le (Fl.div A.round64 m err) (.fin 1) = true := by
  cases m <;> cases err <;> simp_all [Fl.le, Fl.lt, Fl.isFinite, Fl.div]
  rename_i a b
  rw [if_neg (ne_of_gt hpos)]
  have h0 := hS.mono 0 (a / b) (div_nonneg hm hpos.le)
  have h1 := hS.mono (a / b) 1 ((div_le_one hpos).mpr herr)
  rw [hS.zero] at h0
  rw [hS.one] at h1
  exact ⟨h0, h1⟩

/-- For `0 <= err < Maxerr` the quotient `Maxerr/err` computed with a rounding
that keeps the order is at least 1 (it is `+Inf` for `err = 0`). -/
theorem ratio_ge_one {A : Arith} (hS : A.Monotone64) {m err : Fl}
    (h0 : Fl.le (.fin 0) err = true) (herr : Fl.lt err m = true) :
    Fl.le (.fin 1) (Fl.div A.round64 m err) = true := by
  cases m <;> cases err <;> simp_all [Fl.le, Fl.lt, Fl.div]
  rename_i a b
  by_cases hb : b = 0
  · subst hb
    rw [if_pos rfl, if_neg (ne_of_gt herr), if_pos herr]
  · rw [if_neg hb]
    have hb0 : 0 < b := lt_of_le_of_ne h0 (Ne.symm hb)
    have h1 := hS.mono 1 (a / b) ((one_le_div hb0).mpr herr.le)
    rw [hS.one] at h1
    exact h1

/-- The clamp of `adaptDt` keeps a factor of at most 1 at most 1, when the
lower clamp is at most 1. -/
theorem clamp_le_one (E : Env) (lo : ℚ) (hlo : E.clampLo = .fin lo) (hlo1 : lo ≤ 1)
    (corr : Fl) (hc : Fl.le corr (.fin 1) = true) :
    Fl.le (if Fl.lt E.clampHi corr then E.clampHi
      else if Fl.lt corr E.clampLo then E.clampLo else corr) (.fin 1) = true := by
  split_ifs with h1 h2
  · exact Fl.le_chain (Fl.le_of_lt_true h1) hc
  · rw [hlo]
    simpa [Fl.le] using hlo1
  · exact hc

/-! ### The shape of one `Step` -/

@[simp] theorem Heun.adaptDt_y {n : ℕ} (E : Env) (e : Heun n) (c : Fl) :
    (e.adaptDt E c).y = e.y := rfl

@[simp] theorem Heun.adaptDt_Time {n : ℕ} (E : Env) (e : Heun n) (c : Fl) :
    (e.adaptDt E c).Time = e.Time := rfl

@[simp] theorem Heun.adaptDt_NSteps {n : ℕ} (E : Env) (e : Heun n) (c : Fl) :
    (e.adaptDt E c).NSteps = e.NSteps := rfl

@[simp] theorem Heun.adaptDt_undone {n : ℕ} (E : Env) (e : Heun n) (c : Fl) :
    (e.adaptDt E c).undone = e.undone := rfl

@[simp] theorem Heun.adaptDt_dt_mul {n : ℕ} (E : Env) (e : Heun n) (c : Fl) :
    (e.adaptDt E c).dt_mul = e.dt_mul := rfl

@[simp] theorem Heun.adaptDt_Mindt {n : ℕ} (E : Env) (e : Heun n) (c : Fl) :
    (e.adaptDt E c).Mindt = e.Mindt := rfl

@[simp] theorem Heun.adaptDt_Maxerr {n : ℕ} (E : Env) (e : Heun n) (c : Fl) :
    (e.adaptDt E c).Maxerr = e.Maxerr := rfl

@[simp] theorem Heun.adaptDt_Fixdt {n : ℕ} (E : Env) (e : Heun n) (c : Fl) :
    (e.adaptDt E c).Fixdt = e.Fixdt := rfl

@[simp] theorem Heun.adaptDt_torqueFn {n : ℕ} (E : Env) (e : Heun n) (c : Fl) :
    (e.adaptDt E c).torqueFn = e.torqueFn := rfl

@[simp] theorem Heun.adaptDt_normalizeFn {n : ℕ} (E : Env) (e : Heun n) (c : Fl) :
    (e.adaptDt E c).normalizeFn = e.normalizeFn := rfl

theorem Outcome.eq_done_of_isDone {n : ℕ} {o : Outcome n} (h : o.isDone = true) :
    o = .done o.state := by
  cases o <;> simp_all [Outcome.isDone, Outcome.state]

/-- The function `Step`, branch by branch. -/
theorem Step_eq {n : ℕ} (E : Env) (e : Heun n) :
    Step E e =
      if !Fl.lt (.fin 0) (e.stepDt E.arith) then .fatal .assertDt e
      else if !e.Fixdt && !solverCheckErr (e.stepErr E.arith) then
        .fatal .nonFiniteErr (e.afterStage1 E.arith)
      else if e.acceptCond E.arith then
        (if !e.Fixdt then .done ((e.accepted E.arith).adaptDt E (e.growFactor E))
         else .done (e.accepted E.arith))
      else if e.Fixdt then .fatal .assertNotFixdt (e.afterStage1 E.arith)
      else .done ((e.rejected E.arith).adaptDt E (e.shrinkFactor E)) := by
  rfl

/-- A `Step` that returns passed both checks and took one of the two
branches. -/
theorem Step_done {n : ℕ} {E : Env} {e e1 : Heun n} (h : Step E e = .done e1) :
    Fl.lt (.fin 0) (e.stepDt E.arith) = true ∧
    (e.Fixdt = false → solverCheckErr (e.stepErr E.arith) = true) ∧
    ((e.acceptCond E.arith = true ∧
        e1 = if e.Fixdt then e.accepted E.arith
             else (e.accepted E.arith).adaptDt E (e.growFactor E)) ∨
     (e.acceptCond E.arith = false ∧ e.Fixdt = false ∧
        e1 = (e.rejected E.arith).adaptDt E (e.shrinkFactor E))) := by
  rw [Step_eq] at h
  cases hdt : Fl.lt (.fin 0) (e.stepDt E.arith) <;>
    cases hf : e.Fixdt <;>
    cases hc : solverCheckErr (e.stepErr E.arith) <;>
    cases ha : e.acceptCond E.arith <;>
    simp_all

/-- In real-number arithmetic the undo `y - dt*dy0` of a step whose error
estimate is finite gives back the state the step started from. -/
theorem undo_exact {n : ℕ} (e : Heun n) (hfix : e.Fixdt = false)
    (herr : solverCheckErr (e.stepErr Arith.exact) = true) : e.undo Arith.exact = e.y := by
  obtain ⟨c, hc⟩ := isFinite_iff.mp herr
  simp only [Heun.stepErr, hfix, Bool.not_false, if_true] at hc
  obtain ⟨m, h, hm, hh, -⟩ := Fl.mul_exact_eq_fin hc
  funext i
  obtain ⟨p, q, hp, -⟩ := MaxVecDiff_exact_fin _ _ m hm i
  simp only [Heun.undo, Heun.predictor, Madd2, hh, hp]
  cases e.y i <;> simp [Fl.mul, Fl.add, Fl.neg, Fl.infTimes, Arith.exact]

/-! ### C1: a rejected step -/

/-- C1, as stated, fails on the code: in `float32` the undo of a rejected step
does not give back the state.  For `dy/dt = 2^24 * y` from `y = 1` with step
size 1, `Step` is in adaptive mode, finds `err >= Maxerr` with `dt_si > Mindt`
and returns with `undone` grown by 1, but the predictor `1 + 2^24` was rounded
to `2^24`, so the undo `2^24 - 2^24` leaves `y = 0` where it was 1. -/
theorem Step_reject_not_exact_float32 :
    stiff.Fixdt = false ∧
    Fl.le stiff.Maxerr (stiff.stepErr Arith.ieee) = true ∧
    Fl.lt stiff.Mindt stiff.dt_si = true ∧
    (Step ieeeEnv stiff).isDone = true ∧
    (Step ieeeEnv stiff).state.undone = stiff.undone + 1 ∧
    stiff.y 0 = .fin 1 ∧
    stiff.d1 0 = .fin (2 ^ 24) ∧
    stiff.predictor Arith.ieee 0 = .fin (2 ^ 24) ∧
    (Step ieeeEnv stiff).state.y 0 = .fin 0 := by
  decide!

/-- C1, amended: a step that takes the undo branch leaves in `y` the value
`(y + dt*d1) - dt*d1` computed in `float32` (the normalize function is not
applied, whatever it is), leaves `Time` and `NSteps` unchanged and adds 1 to
`undone`; in real-number arithmetic that value of `y` is exactly the one before
the call. -/
theorem Step_reject_roundtrip {n : ℕ} (E : Env) (e e1 : Heun n) (hfix : e.Fixdt = false)
    (hrej : e.acceptCond E.arith = false) (h : Step E e = .done e1) :
    e1.y = e.undo E.arith ∧
    (E.arith = Arith.exact → e1.y = e.y) ∧
    e1.Time = e.Time ∧ e1.NSteps = e.NSteps ∧ e1.undone = e.undone + 1 ∧
    ∀ g, (Step E { e with normalizeFn := g }).state.y = e1.y := by
  obtain ⟨hdt, hchk, hbr⟩ := Step_done h
  rcases hbr with ⟨hacc, -⟩ | ⟨-, -, rfl⟩
  · rw [hrej] at hacc
    cases hacc
  · refine ⟨rfl, fun hA => ?_, rfl, rfl, rfl, fun g => ?_⟩
    · rw [hA] at hchk ⊢
      exact undo_exact e hfix (hchk hfix)
    · have hd : ({ e with normalizeFn := g } : Heun n).stepDt E.arith = e.stepDt E.arith := rfl
      have he : ({ e with normalizeFn := g } : Heun n).stepErr E.arith = e.stepErr E.arith := rfl
      have ha : ({ e with normalizeFn := g } : Heun n).acceptCond E.arith
          = e.acceptCond E.arith := rfl
      have hf : ({ e with normalizeFn := g } : Heun n).Fixdt = e.Fixdt := rfl
      rw [Step_eq, hd, he, ha, hf, hdt, hchk hfix, hrej, hfix]
      rfl

/-- C1, amended, at the decay solver in real-number arithmetic: the first step
(error 0.01 against tolerance 0.001) is undone and `y` is 1 again. -/
theorem Step_reject_roundtrip_witness :
    (decay Arith.exact (.fin 0)).Fixdt = false ∧
    (decay Arith.exact (.fin 0)).acceptCond exactEnv.arith = false ∧
    ((Step exactEnv (decay Arith.exact (.fin 0))).state.y
        = (decay Arith.exact (.fin 0)).undo exactEnv.arith ∧
     (exactEnv.arith = Arith.exact →
        (Step exactEnv (decay Arith.exact (.fin 0))).state.y = (decay Arith.exact (.fin 0)).y) ∧
     (Step exactEnv (decay Arith.exact (.fin 0))).state.Time = (decay Arith.exact (.fin 0)).Time ∧
     (Step exactEnv (decay Arith.exact (.fin 0))).state.NSteps
        = (decay Arith.exact (.fin 0)).NSteps ∧
     (Step exactEnv (decay Arith.exact (.fin 0))).state.undone
        = (decay Arith.exact (.fin 0)).undone + 1 ∧
     ∀ g, (Step exactEnv { decay Arith.exact (.fin 0) with normalizeFn := g }).state.y
        = (Step exactEnv (decay Arith.exact (.fin 0))).state.y) :=
  ⟨rfl, by decide!,
    Step_reject_roundtrip exactEnv (decay Arith.exact (.fin 0)) _ rfl (by decide!)
      (Outcome.eq_done_of_isDone (by decide!))⟩

/-! ### C2: what an aborted step leaves behind -/

theorem Outcome.eq_fatal_of_fault {n : ℕ} {o : Outcome n} {f : Fault} (h : o.fault = some f) :
    o = .fatal f o.state := by
  cases o <;> simp_all [Outcome.fault, Outcome.state]

/-- C2, as stated, fails on the code: for `dy/dt = 1/(1 - y)` from `y = 0` with
step size 1 the stage-2 derivative is infinite, so is the error estimate, and
`Step` aborts in `solverCheckErr` with `y` left at the predictor value
`0 + 1*1 = 1`: neither the value 0 it had before the call nor the value (an
infinity) the accept branch would have stored; no step is counted. -/
theorem Step_abort_leaves_predictor :
    (Step ieeeEnv blowup).fault = some Fault.nonFiniteErr ∧
    blowup.stepErr Arith.ieee = .pinf ∧
    blowup.y 0 = .fin 0 ∧
    (Step ieeeEnv blowup).state.y 0 = .fin 1 ∧
    blowup.predictor Arith.ieee 0 = .fin 1 ∧
    (blowup.accepted Arith.ieee).y 0 = .pinf ∧
    (Step ieeeEnv blowup).state.NSteps = blowup.NSteps ∧
    (Step ieeeEnv blowup).state.undone = blowup.undone := by
  decide!

/-- C2, amended: a `Step` that returns leaves `y` either in the accepted new
state (with `NSteps` grown by 1) or in the undone state `(y + dt*d1) - dt*d1`
(with `undone` grown by 1), which in real-number arithmetic is the value
before the call; a `Step` aborted by `solverCheckErr` or by the assertion of
the undo branch leaves `y` at the predictor value `y + dt*d1`; a `Step` aborted
by `util.Assert(dt > 0)` leaves `y` as it was. -/
theorem Step_leaves_y {n : ℕ} (E : Env) (e : Heun n) :
    (∀ e1, Step E e = .done e1 →
      (e1.y = e.normalizeFn (e.corrector E.arith) ∧ e1.NSteps = e.NSteps + 1) ∨
      (e1.y = e.undo E.arith ∧ e1.undone = e.undone + 1 ∧
        (E.arith = Arith.exact → e1.y = e.y))) ∧
    (∀ e1, Step E e = .fatal .nonFiniteErr e1 → e1.y = e.predictor E.arith) ∧
    (∀ e1, Step E e = .fatal .assertNotFixdt e1 → e1.y = e.predictor E.arith) ∧
    (∀ e1, Step E e = .fatal .assertDt e1 → e1.y = e.y) := by
  refine ⟨fun e1 h => ?_, fun e1 h => ?_, fun e1 h => ?_, fun e1 h => ?_⟩
  · obtain ⟨-, hchk, hbr⟩ := Step_done h
    rcases hbr with ⟨-, rfl⟩ | ⟨-, hfix, rfl⟩
    · left
      cases hf : e.Fixdt <;> simp [hf, Heun.accepted]
    · right
      refine ⟨rfl, rfl, fun hA => ?_⟩
      rw [hA] at hchk ⊢
      exact undo_exact e hfix (hchk hfix)
  all_goals
    rw [Step_eq] at h
    cases hdt : Fl.lt (.fin 0) (e.stepDt E.arith) <;>
      cases hf : e.Fixdt <;>
      cases hc : solverCheckErr (e.stepErr E.arith) <;>
      cases ha : e.acceptCond E.arith <;>
      simp_all [Heun.afterStage1]
  all_goals
    obtain ⟨-, rfl⟩ := h
    rfl

/-- C2, amended, at the singular solver: `Step` is aborted by `solverCheckErr`
and `y` holds the predictor. -/
theorem Step_leaves_y_witness :
    Step ieeeEnv blowup = .fatal .nonFiniteErr (Step ieeeEnv blowup).state ∧
    (Step ieeeEnv blowup).state.y = blowup.predictor ieeeEnv.arith :=
  ⟨Outcome.eq_fatal_of_fault (by decide!),
    (Step_leaves_y ieeeEnv blowup).2.1 _ (Outcome.eq_fatal_of_fault (by decide!))⟩

/-! ### C3: an accepted step -/

/-- C3, as stated, fails on the code: in `float32` an accepted step does not
store `Y0 + (h/2)*(d1 + d2)`.  For the switching right-hand side from `y = 1`
with step size 1, `d1 = 2^24`, the predictor `1 + 2^24` is rounded to `2^24`,
`d2 = -2^24`, the step is accepted (`err = 2^25 < Maxerr`) and stores
`(2^24 - 2^23) - 2^23 = 0`, where the formula gives `1 + (1/2)*(d1 + d2) = 1`,
also when it is evaluated in `float32`. -/
theorem Step_accept_not_formula_float32 :
    switching.acceptCond Arith.ieee = true ∧
    (Step ieeeEnv switching).isDone = true ∧
    (Step ieeeEnv switching).state.NSteps = switching.NSteps + 1 ∧
    switching.y 0 = .fin 1 ∧
    switching.stepDt Arith.ieee = .fin 1 ∧
    switching.d1 0 = .fin (2 ^ 24) ∧
    switching.predictor Arith.ieee 0 = .fin (2 ^ 24) ∧
    switching.d2 Arith.ieee 0 = .fin (-(2 ^ 24)) ∧
    switching.torqueFn (fun _ => .fin (1 + 1 * 2 ^ 24)) switching.Time 0 = .fin (-(2 ^ 24)) ∧
    (Step ieeeEnv switching).state.y 0 = .fin 0 ∧
    Fl.add Arith.ieee.round32 (switching.y 0)
      (Fl.mul Arith.ieee.round32
        (Fl.mul Arith.ieee.round32 (.fin (1 / 2)) (switching.stepDt Arith.ieee))
        (Fl.add Arith.ieee.round32 (switching.d1 0) (switching.d2 Arith.ieee 0))) = .fin 1 := by
  decide!

/-- C3, amended: a `Step` that accepts returns with `NSteps` grown by 1,
`undone` unchanged, `Time` set to the `float64` sum `Time + dt_si`, and in `y`
the normalized result of the corrector
`((Y0 + h*d1) + (0.5*h)*d2) + (-0.5*h)*d1` computed in `float32`, with
`h = float32(dt_si*dt_mul)`, `d1 = RHS(Y0, t0)` and `d2 = RHS(Y0 + h*d1, t0)`
(both derivatives taken at the time before the step); in real-number
arithmetic, for a finite state `Y0`, time `t0`, step size `dt_si = a` and
multiplier `dt_mul = b`, with `h = a*b`, that is
`Y = normalize(Y0 + (h/2)*(d1 + d2))` and `Time = t0 + dt_si`. -/
theorem Step_accept_result {n : ℕ} (E : Env) (e e1 : Heun n)
    (hacc : e.acceptCond E.arith = true) (h : Step E e = .done e1) :
    (e1.y = e.normalizeFn (e.corrector E.arith) ∧
      e1.Time = Fl.add E.arith.round64 e.Time e.dt_si ∧
      e1.NSteps = e.NSteps + 1 ∧ e1.undone = e.undone) ∧
    (E.arith = Arith.exact → ∀ (y0 d1 d2 : Fin n → ℚ) (t a b : ℚ),
      e.y = (fun i => .fin (y0 i)) → e.Time = .fin t →
      e.dt_si = .fin a → e.dt_mul = .fin b →
      e.torqueFn (fun i => .fin (y0 i)) (.fin t) = (fun i => .fin (d1 i)) →
      e.torqueFn (fun i => .fin (y0 i + a * b * d1 i)) (.fin t) = (fun i => .fin (d2 i)) →
      e1.y = e.normalizeFn (fun i => .fin (y0 i + a * b / 2 * (d1 i + d2 i))) ∧
        e1.Time = .fin (t + a)) ∧
    ((∀ i, e.corrector E.arith i =
        Fl.add E.arith.round32
          (Fl.add E.arith.round32
            (Fl.mul E.arith.round32 (.fin 1) (e.predictor E.arith i))
            (Fl.mul E.arith.round32
              (Fl.mul E.arith.round32 (.fin (1 / 2)) (e.stepDt E.arith)) (e.d2 E.arith i)))
          (Fl.mul E.arith.round32
            (Fl.mul E.arith.round32 (.fin (-(1 / 2))) (e.stepDt E.arith)) (e.d1 i))) ∧
      (∀ i, e.predictor E.arith i =
        Fl.add E.arith.round32 (Fl.mul E.arith.round32 (.fin 1) (e.y i))
          (Fl.mul E.arith.round32 (e.stepDt E.arith) (e.d1 i))) ∧
      e.stepDt E.arith = toFloat32 E.arith (Fl.mul E.arith.round64 e.dt_si e.dt_mul) ∧
      e.d1 = e.torqueFn e.y e.Time ∧
      e.d2 E.arith = e.torqueFn (e.predictor E.arith) e.Time) := by
  obtain ⟨-, -, hbr⟩ := Step_done h
  have hgen : e1.y = e.normalizeFn (e.corrector E.arith) ∧
      e1.Time = Fl.add E.arith.round64 e.Time e.dt_si ∧
      e1.NSteps = e.NSteps + 1 ∧ e1.undone = e.undone := by
    rcases hbr with ⟨-, rfl⟩ | ⟨hrej, -⟩
    · cases hf : e.Fixdt <;> simp [Heun.accepted]
    · rw [hacc] at hrej
      cases hrej
  refine ⟨hgen, fun hA y0 d1 d2 t a b hy ht ha hb hd1 hd2 => ?_,
    fun _ => rfl, fun _ => rfl, rfl, rfl, rfl⟩
  rw [hA] at hgen
  have hdt : e.stepDt Arith.exact = .fin (a * b) := by
    simp only [Heun.stepDt, ha, hb, Fl.mul_fin_fin, Arith.exact_round64, toFloat32,
      Arith.exact_round32]
  have hd1e : e.d1 = fun i => .fin (d1 i) := by
    rw [Heun.d1, hy, ht, hd1]
  have hp : e.predictor Arith.exact = fun i => .fin (y0 i + a * b * d1 i) := by
    funext i
    simp only [Heun.predictor, Madd2, hdt, hd1e, hy, Fl.mul_fin_fin, Fl.add_fin_fin,
      Arith.exact_round32, one_mul]
  have hd2e : e.d2 Arith.exact = fun i => .fin (d2 i) := by
    rw [Heun.d2, hp, ht, hd2]
  have hc : e.corrector Arith.exact = fun i => .fin (y0 i + a * b / 2 * (d1 i + d2 i)) := by
    funext i
    simp only [Heun.corrector, Madd3, hp, hd2e, hd1e, hdt, Fl.mul_fin_fin, Fl.add_fin_fin,
      Arith.exact_round32]
    congr 1
    ring
  have hT : Fl.add Arith.exact.round64 e.Time e.dt_si = .fin (t + a) := by
    simp only [ht, ha, Fl.add_fin_fin, Arith.exact_round64]
  rw [← hc, ← hT]
  exact ⟨hgen.1, hgen.2.1⟩

/-- C3, amended, at the decay solver with the floor above the step size, in
real-number arithmetic: `Y0 = 1`, `h = 0.1`, `d1 = -1`, `d2 = -0.9`. -/
theorem Step_accept_result_witness :
    (decay Arith.exact (.fin 1)).acceptCond exactEnv.arith = true ∧
    (Step exactEnv (decay Arith.exact (.fin 1))).isDone = true ∧
    (Step exactEnv (decay Arith.exact (.fin 1))).state.NSteps
      = (decay Arith.exact (.fin 1)).NSteps + 1 ∧
    (Step exactEnv (decay Arith.exact (.fin 1))).state.undone
      = (decay Arith.exact (.fin 1)).undone ∧
    (Step exactEnv (decay Arith.exact (.fin 1))).state.y
      = (decay Arith.exact (.fin 1)).normalizeFn
          (fun _ => .fin (1 + 1 / 10 * 1 / 2 * (-1 + -(1 + 1 / 10 * 1 * -1)))) ∧
    (Step exactEnv (decay Arith.exact (.fin 1))).state.Time = .fin (0 + 1 / 10) :=
  (fun key => ⟨by decide!, by decide!, key.1.2.2.1, key.1.2.2.2,
      key.2.1 rfl (fun _ => 1) (fun _ => -1) (fun _ => -(1 + 1 / 10 * 1 * -1)) 0 (1 / 10) 1
        rfl rfl rfl rfl rfl rfl⟩)
    (Step_accept_result exactEnv (decay Arith.exact (.fin 1)) _ (by decide!)
      (Outcome.eq_done_of_isDone (by decide!)))

/-! ### C4: the accept rule -/

/-- C4: once `Step` has passed `util.Assert(dt > 0)` and holds a finite error
estimate `err`, it takes the accept branch (returns with `NSteps` grown by 1 and
the corrected, normalized `y`) if and only if `err < Maxerr` or
`dt_si <= Mindt`; otherwise it takes the undo branch (in adaptive mode it
returns with `undone` grown by 1 and the undone `y`; with `Fixdt` set the
assertion of that branch stops it); in particular `dt_si <= Mindt` is enough
for acceptance, whatever `err` is. -/
theorem Step_accept_iff {n : ℕ} (E : Env) (e : Heun n)
    (hdt : Fl.lt (.fin 0) (e.stepDt E.arith) = true)
    (hfin : (e.stepErr E.arith).isFinite = true) :
    ((∃ e1, Step E e = .done e1 ∧ e1.NSteps = e.NSteps + 1 ∧ e1.undone = e.undone ∧
          e1.y = e.normalizeFn (e.corrector E.arith)) ↔
      (Fl.lt (e.stepErr E.arith) e.Maxerr = true ∨ Fl.le e.dt_si e.Mindt = true)) ∧
    (¬ (Fl.lt (e.stepErr E.arith) e.Maxerr = true ∨ Fl.le e.dt_si e.Mindt = true) →
      (e.Fixdt = false ∧ ∃ e1, Step E e = .done e1 ∧ e1.undone = e.undone + 1 ∧
          e1.NSteps = e.NSteps ∧ e1.y = e.undo E.arith) ∨
      (e.Fixdt = true ∧ Step E e = .fatal .assertNotFixdt (e.afterStage1 E.arith))) ∧
    (Fl.le e.dt_si e.Mindt = true →
      ∃ e1, Step E e = .done e1 ∧ e1.NSteps = e.NSteps + 1) := by
  have hcond : e.acceptCond E.arith = true ↔
      (Fl.lt (e.stepErr E.arith) e.Maxerr = true ∨ Fl.le e.dt_si e.Mindt = true) := by
    simp [Heun.acceptCond]
  have hchk : solverCheckErr (e.stepErr E.arith) = true := hfin
  have hyes : e.acceptCond E.arith = true →
      ∃ e1, Step E e = .done e1 ∧ e1.NSteps = e.NSteps + 1 ∧ e1.undone = e.undone ∧
        e1.y = e.normalizeFn (e.corrector E.arith) := by
    intro hacc
    rw [Step_eq]
    cases hf : e.Fixdt <;> simp [hdt, hchk, hacc, Heun.accepted]
  have hno : e.acceptCond E.arith = false →
      (e.Fixdt = false ∧ ∃ e1, Step E e = .done e1 ∧ e1.undone = e.undone + 1 ∧
          e1.NSteps = e.NSteps ∧ e1.y = e.undo E.arith) ∨
      (e.Fixdt = true ∧ Step E e = .fatal .assertNotFixdt (e.afterStage1 E.arith)) := by
    intro hacc
    rw [Step_eq]
    cases hf : e.Fixdt <;> simp [hdt, hchk, hacc, Heun.rejected]
  refine ⟨⟨fun ⟨e1, h, hN, _, _⟩ => ?_, fun hc => hyes (hcond.mpr hc)⟩,
    fun hc => ?_, fun hle => ?_⟩
  · rw [← hcond]
    by_contra hacc
    rw [Bool.not_eq_true] at hacc
    obtain ⟨-, -, hbr⟩ := Step_done h
    rcases hbr with ⟨hacc2, -⟩ | ⟨-, -, rfl⟩
    · rw [hacc] at hacc2
      cases hacc2
    · simp [Heun.rejected] at hN
  · apply hno
    rw [← Bool.not_eq_true, hcond]
    exact hc
  · obtain ⟨e1, h, hN, -⟩ := hyes (hcond.mpr (Or.inr hle))
    exact ⟨e1, h, hN⟩

/-- C4 at the stiff solver (machine arithmetic): the error estimate is finite
and not below the tolerance, the step size is above the floor, and `Step` takes
the undo branch. -/
theorem Step_accept_iff_witness :
    Fl.lt (.fin 0) (stiff.stepDt ieeeEnv.arith) = true ∧
    (stiff.stepErr ieeeEnv.arith).isFinite = true ∧
    ¬ (Fl.lt (stiff.stepErr ieeeEnv.arith) stiff.Maxerr = true ∨
        Fl.le stiff.dt_si stiff.Mindt = true) ∧
    ¬ ∃ e1, Step ieeeEnv stiff = .done e1 ∧ e1.NSteps = stiff.NSteps + 1 ∧
        e1.undone = stiff.undone ∧ e1.y = stiff.normalizeFn (stiff.corrector ieeeEnv.arith) :=
  ⟨by decide!, by decide!, by decide!,
    fun h => absurd ((Step_accept_iff ieeeEnv stiff (by decide!) (by decide!)).1.mp h)
      (by decide!)⟩

/-! ### Runs of `Advance` -/

theorem eq_some_done_of_runDone {n : ℕ} {r : Option (Outcome n)} (h : runDone r = true)
    (e : Heun n) : r = some (.done (runState r e)) := by
  rcases r with _ | o
  · simp [runDone] at h
  · cases o <;> simp_all [runDone, runState, Outcome.state]

/-- A `Step` that takes the undo branch, as an equation. -/
theorem Step_reject_eq {n : ℕ} (E : Env) (e : Heun n)
    (hdt : Fl.lt (.fin 0) (e.stepDt E.arith) = true) (hfix : e.Fixdt = false)
    (hchk : solverCheckErr (e.stepErr E.arith) = true) (hrej : e.acceptCond E.arith = false) :
    Step E e = .done ((e.rejected E.arith).adaptDt E (e.shrinkFactor E)) := by
  rw [Step_eq]
  simp [hdt, hfix, hchk, hrej]

/-- Across a `Step` that returns the counters do not decrease, and `Time`
stays as it is unless `NSteps` grows. -/
theorem Step_mono {n : ℕ} {E : Env} {e e1 : Heun n} (h : Step E e = .done e1) :
    e.undone ≤ e1.undone ∧ e.NSteps ≤ e1.NSteps ∧
      (e1.NSteps = e.NSteps → e1.Time = e.Time) := by
  obtain ⟨-, -, hbr⟩ := Step_done h
  rcases hbr with ⟨-, rfl⟩ | ⟨-, -, rfl⟩
  · cases hf : e.Fixdt <;> simp [Heun.accepted]
  · simp [Heun.rejected]

/-- A loop of `Advance` that returns ends with `Time < stop` false; the
counters have not decreased, and `Time` has changed only if `NSteps` grew. -/
theorem AdvanceLoop_done {n : ℕ} (E : Env) (stop : Fl) :
    ∀ (fuel : ℕ) (e e1 : Heun n), AdvanceLoop E stop fuel e = some (.done e1) →
      Fl.lt e1.Time stop = false ∧ e.undone ≤ e1.undone ∧ e.NSteps ≤ e1.NSteps ∧
        (e1.NSteps = e.NSteps → e1.Time = e.Time)
  | 0, e, e1, h => by
    rw [AdvanceLoop] at h
    cases ht : Fl.lt e.Time stop <;> simp [ht] at h
    subst h
    exact ⟨ht, le_refl _, le_refl _, fun _ => rfl⟩
  | fuel + 1, e, e1, h => by
    rw [AdvanceLoop] at h
    cases ht : Fl.lt e.Time stop
    · simp [ht] at h
      subst h
      exact ⟨ht, le_refl _, le_refl _, fun _ => rfl⟩
    · simp only [ht, if_true] at h
      cases hs : Step E e with
      | fatal f e2 => simp [hs] at h
      | done e2 =>
        simp only [hs] at h
        obtain ⟨h1, h2, h3, h4⟩ := AdvanceLoop_done E stop fuel e2 e1 h
        obtain ⟨m1, m2, m3⟩ := Step_mono hs
        refine ⟨h1, le_trans m1 h2, le_trans m2 h3, fun hN => ?_⟩
        have h12 : e1.NSteps = e2.NSteps := le_antisymm (hN ▸ m2) h3
        rw [h4 h12, m3 (h12 ▸ hN)]

/-! ### C5: the decay scenario -/

/-- The first `Step` of the decay solver, in real-number and in machine
arithmetic alike: the assertion passes, the error estimate (0.01) is finite
and not below the tolerance (0.001), and the loop of `Advance(1.0)` is
entered. -/
theorem decay_first_step (A : Arith) (hA : A = Arith.exact ∨ A = Arith.ieee) (mindt : Fl) :
    Fl.lt (.fin 0) ((decay A mindt).stepDt A) = true ∧
    solverCheckErr ((decay A mindt).stepErr A) = true ∧
    Fl.lt ((decay A mindt).stepErr A) (decay A mindt).Maxerr = false ∧
    Fl.lt (decay A mindt).Time (Fl.add A.round64 (decay A mindt).Time (.fin 1)) = true := by
  rcases hA with rfl | rfl
  · show Fl.lt (.fin 0) ((decay Arith.exact (.fin 0)).stepDt Arith.exact) = true ∧
      solverCheckErr ((decay Arith.exact (.fin 0)).stepErr Arith.exact) = true ∧
      Fl.lt ((decay Arith.exact (.fin 0)).stepErr Arith.exact)
        (decay Arith.exact (.fin 0)).Maxerr = false ∧
      Fl.lt (decay Arith.exact (.fin 0)).Time
        (Fl.add Arith.exact.round64 (decay Arith.exact (.fin 0)).Time (.fin 1)) = true
    decide!
  · show Fl.lt (.fin 0) ((decay Arith.ieee (.fin 0)).stepDt Arith.ieee) = true ∧
      solverCheckErr ((decay Arith.ieee (.fin 0)).stepErr Arith.ieee) = true ∧
      Fl.lt ((decay Arith.ieee (.fin 0)).stepErr Arith.ieee)
        (decay Arith.ieee (.fin 0)).Maxerr = false ∧
      Fl.lt (decay Arith.ieee (.fin 0)).Time
        (Fl.add Arith.ieee.round64 (decay Arith.ieee (.fin 0)).Time (.fin 1)) = true
    decide!

/-- With a floor below the initial step size, the first `Step` of the decay
solver is undone, so a run of `Advance(1.0)` that returns has `undone >= 1`; it
also has `NSteps > 0`, since `Time` only moves in accepted steps. -/
theorem decay_run (E : Env) (hA : E.arith = Arith.exact ∨ E.arith = Arith.ieee) (mindt : Fl)
    (hm : Fl.le (E.arith.round64 (1 / 10)) mindt = false) :
    Step E (decay E.arith mindt)
        = .done (((decay E.arith mindt).rejected E.arith).adaptDt E
            ((decay E.arith mindt).shrinkFactor E)) ∧
    ∀ fuel e2, Advance E (.fin 1) fuel (decay E.arith mindt) = some (.done e2) →
      1 ≤ e2.undone ∧ 0 < e2.NSteps := by
  obtain ⟨hdt, hchk, herr, htime⟩ := decay_first_step E.arith hA mindt
  have hrej : (decay E.arith mindt).acceptCond E.arith = false := by
    have hm2 : Fl.le (decay E.arith mindt).dt_si (decay E.arith mindt).Mindt = false := hm
    simp [Heun.acceptCond, herr, hm2]
  have hstep := Step_reject_eq E (decay E.arith mindt) hdt rfl hchk hrej
  refine ⟨hstep, fun fuel e2 h => ?_⟩
  rw [Advance] at h
  obtain ⟨hstop, -, hN, hT⟩ := AdvanceLoop_done E _ fuel _ e2 h
  constructor
  · cases fuel with
    | zero => simp [AdvanceLoop, htime] at h
    | succ fuel =>
      rw [AdvanceLoop] at h
      simp only [htime, if_true, hstep] at h
      obtain ⟨-, hu, -⟩ := AdvanceLoop_done E _ fuel _ e2 h
      exact hu
  · rcases lt_or_eq_of_le hN with hlt | heq
    · exact hlt
    · rw [hT heq.symm, htime] at hstop
      cases hstop

theorem NewHeun_eq_some {n : ℕ} (E : Env) (y : Slice n) (f : Slice n → Fl → Slice n)
    (g : Slice n → Slice n) (dt mul : Fl) (hdt : Fl.lt (.fin 0) dt = true)
    (hmul : Fl.lt (.fin 0) mul = true) :
    NewHeun E y f g dt mul
      = some (Heun.mk (newSolverCommon E dt mul) y (fun _ => .fin 0) f g false) := by
  simp [NewHeun, hdt, hmul]

/-- C5, as stated, fails on the code: in the scenario (no step-size floor) the
very first `Step` is undone, because its error estimate
`|d1 - d2| * dt = |-1 + 0.9| * 0.1 = 0.01` is not below `Maxerr = 0.001` (in
real-number arithmetic; in machine arithmetic the same happens).  So `undone`
is 1 after the first `Step`, and no run of `Advance(1.0)` on the machine,
whatever `math.Pow` and the clamp of `adaptDt` are, ends with `undone = 0`. -/
theorem decay_undone_not_zero :
    (decay Arith.exact (.fin 0)).stepErr Arith.exact = .fin (1 / 100) ∧
    (decay Arith.exact (.fin 0)).Maxerr = .fin (1 / 1000) ∧
    Fl.lt ((decay Arith.ieee (.fin 0)).stepErr Arith.ieee) (decay Arith.ieee (.fin 0)).Maxerr
      = false ∧
    Fl.le (decay Arith.ieee (.fin 0)).dt_si (decay Arith.ieee (.fin 0)).Mindt = false ∧
    (Step ieeeEnv (decay Arith.ieee (.fin 0))).isDone = true ∧
    (Step ieeeEnv (decay Arith.ieee (.fin 0))).state.undone = 1 ∧
    (Step ieeeEnv (decay Arith.ieee (.fin 0))).state.NSteps = 0 ∧
    (NewHeun ieeeEnv (fun _ : Fin 1 => .fin 1) (fun y _ i => Fl.neg (y i)) id
        (Arith.ieee.round64 (1 / 10)) (.fin 1)).map
      (fun e : Heun 1 =>
        (Step ieeeEnv { e with Maxerr := Arith.ieee.round64 (1 / 1000) }).state.undone)
      = some 1 ∧
    ¬ ∃ (E : Env) (fuel : ℕ) (e2 : Heun 1), E.arith = Arith.ieee ∧
        Advance E (.fin 1) fuel (decay Arith.ieee (.fin 0)) = some (.done e2) ∧
        e2.undone = 0 := by
  refine ⟨by decide!, by decide!, by decide!, by decide!, by decide!, by decide!,
    by decide!, by decide!, ?_⟩
  rintro ⟨E, fuel, e2, hA, h, hu⟩
  have hm : Fl.le (E.arith.round64 (1 / 10)) (.fin 0) = false := by
    rw [hA]
    decide!
  rw [← hA] at h
  have := ((decay_run E (Or.inr hA) (.fin 0) hm).2 fuel e2 h).1
  omega

/-- C5, amended: in the scenario (solver as `NewHeun` constructs it, then
`Maxerr = 1e-3`), with a step-size floor below the initial step size 0.1, the
first `Step` takes the undo branch (`undone = 1`, `NSteps = 0`, `Time = 0`
after it), so that whenever `Advance(1.0)` returns, `undone >= 1` and
`NSteps > 0`.  In real-number and in machine arithmetic, for every `math.Pow`
and clamp. -/
theorem decay_Advance (E : Env) (hA : E.arith = Arith.exact ∨ E.arith = Arith.ieee) (mindt : Fl)
    (hm : Fl.le (E.arith.round64 (1 / 10)) mindt = false) (e0 : Heun 1)
    (hnew : NewHeun E (fun _ => .fin 1) (fun y _ i => Fl.neg (y i)) id
      (E.arith.round64 (1 / 10)) (.fin 1) = some e0) :
    (∃ e1, Step E { e0 with Maxerr := E.arith.round64 (1 / 1000), Mindt := mindt } = .done e1 ∧
      e1.undone = 1 ∧ e1.NSteps = 0 ∧ e1.Time = .fin 0) ∧
    ∀ fuel e2,
      Advance E (.fin 1) fuel { e0 with Maxerr := E.arith.round64 (1 / 1000), Mindt := mindt }
        = some (.done e2) →
      1 ≤ e2.undone ∧ 0 < e2.NSteps := by
  have hpos : Fl.lt (.fin 0) (E.arith.round64 (1 / 10)) = true := by
    rcases hA with h | h <;> rw [h] <;> decide!
  rw [NewHeun_eq_some E _ _ _ _ _ hpos (by decide)] at hnew
  cases hnew
  obtain ⟨h1, h2⟩ := decay_run E hA mindt hm
  exact ⟨⟨_, h1, rfl, rfl, rfl⟩, h2⟩

/-- C5, amended, in machine arithmetic with no floor: `Advance(1.0)` returns
(here with the stand-in `powStub` for `math.Pow`, so the run follows the code
up to the second `Step` only), with `undone >= 1` and `NSteps > 0`. -/
theorem decay_Advance_witness :
    runDone (Advance ieeeEnv (.fin 1) 50 (decay Arith.ieee (.fin 0))) = true ∧
    1 ≤ (runState (Advance ieeeEnv (.fin 1) 50 (decay Arith.ieee (.fin 0)))
          (decay Arith.ieee (.fin 0))).undone ∧
    0 < (runState (Advance ieeeEnv (.fin 1) 50 (decay Arith.ieee (.fin 0)))
          (decay Arith.ieee (.fin 0))).NSteps :=
  (fun h => ⟨h,
    (decay_Advance ieeeEnv (Or.inr rfl) (.fin 0) (by decide!) _
      (NewHeun_eq_some ieeeEnv _ _ _ _ _ (by decide!) (by decide!))).2 50 _
      (eq_some_done_of_runDone h (decay Arith.ieee (.fin 0)))⟩)
    (by decide!)

/-! ### C6: step accounting -/

/-- A `Step` that returns counts itself once, as accepted or as undone. -/
theorem Step_counts {n : ℕ} {E : Env} {e e1 : Heun n} (h : Step E e = .done e1) :
    (e1.NSteps = e.NSteps + 1 ∧ e1.undone = e.undone) ∨
    (e1.NSteps = e.NSteps ∧ e1.undone = e.undone + 1) := by
  obtain ⟨-, -, hbr⟩ := Step_done h
  rcases hbr with ⟨-, rfl⟩ | ⟨-, -, rfl⟩
  · left
    cases hf : e.Fixdt <;> simp [Heun.accepted]
  · right
    simp [Heun.rejected]

theorem StepsLoop_counts {n : ℕ} (E : Env) :
    ∀ (k : ℕ) (e e1 : Heun n), StepsLoop E k e = .done e1 →
      e1.NSteps + e1.undone = e.NSteps + e.undone + k
  | 0, e, e1, h => by
    simp only [StepsLoop, Outcome.done.injEq] at h
    subst h
    simp
  | k + 1, e, e1, h => by
    rw [StepsLoop] at h
    cases hs : Step E e with
    | fatal f e2 => simp [hs] at h
    | done e2 =>
      simp only [hs] at h
      have ih := StepsLoop_counts E k e2 e1 h
      have hc := Step_counts hs
      push_cast
      omega

/-- C6: every `Step` that returns adds 1 to exactly one of `NSteps` and
`undone` and leaves the other unchanged; so for `steps >= 0` a `Steps(steps)`
that returns has added exactly `steps` to `NSteps + undone`; and for
`steps <= 0`, `Steps(steps)` returns at once with the solver unchanged. -/
theorem Steps_accounting {n : ℕ} (E : Env) :
    (∀ e e1 : Heun n, Step E e = .done e1 →
      (e1.NSteps = e.NSteps + 1 ∧ e1.undone = e.undone) ∨
      (e1.NSteps = e.NSteps ∧ e1.undone = e.undone + 1)) ∧
    (∀ (steps : ℤ) (e e1 : Heun n), 0 ≤ steps → Steps E steps e = .done e1 →
      e1.NSteps + e1.undone = e.NSteps + e.undone + steps) ∧
    (∀ (steps : ℤ) (e : Heun n), steps ≤ 0 → Steps E steps e = .done e) := by
  refine ⟨fun e e1 h => Step_counts h, fun steps e e1 h0 h => ?_, fun steps e h0 => ?_⟩
  · have := StepsLoop_counts E steps.toNat e e1 h
    rw [this, Int.toNat_of_nonneg h0]
  · rw [Steps, Int.toNat_eq_zero.mpr h0]
    rfl

/-- C6 in machine arithmetic: the first two steps of the decay solver (error
estimates 0.01 and 0.0025 against the tolerance 0.001: both undone) add 2 to
`NSteps + undone`. -/
theorem Steps_accounting_witness :
    (Steps ieeeEnv 2 (decay Arith.ieee (.fin 0))).isDone = true ∧
    (Steps ieeeEnv 2 (decay Arith.ieee (.fin 0))).state.NSteps = 0 ∧
    (Steps ieeeEnv 2 (decay Arith.ieee (.fin 0))).state.undone = 2 ∧
    (Steps ieeeEnv 2 (decay Arith.ieee (.fin 0))).state.NSteps
        + (Steps ieeeEnv 2 (decay Arith.ieee (.fin 0))).state.undone
      = (decay Arith.ieee (.fin 0)).NSteps + (decay Arith.ieee (.fin 0)).undone + 2 :=
  ⟨by decide!, by decide!, by decide!,
    (Steps_accounting ieeeEnv).2.1 2 (decay Arith.ieee (.fin 0)) _ (by decide)
      (Outcome.eq_done_of_isDone (by decide!))⟩

/-! ### C7: fixed-step mode -/

/-- C7 fails in the code: with `Fixdt` set, `Maxerr = 0` and no floor, the
error used is 0, the test `0 < Maxerr || dt_si <= Mindt` is false, and the
first `Step` of `Steps(1)` enters the undo branch, where the code's own
`util.Assert(!e.Fixdt)` fails; no step is counted. -/
theorem Steps_fixed_zero_tolerance_asserts :
    (fixedDecay (.fin 0)).Fixdt = true ∧
    (fixedDecay (.fin 0)).stepErr Arith.ieee = .fin 0 ∧
    (fixedDecay (.fin 0)).acceptCond Arith.ieee = false ∧
    (Steps ieeeEnv 1 (fixedDecay (.fin 0))).fault = some Fault.assertNotFixdt ∧
    (Steps ieeeEnv 1 (fixedDecay (.fin 0))).state.NSteps = 0 := by
  decide!

/-- With `Fixdt` set, a passed assertion on `dt` and `0 < Maxerr` or
`dt_si <= Mindt`, a `Step` is the accept branch without `adaptDt`. -/
theorem Step_fixed_eq {n : ℕ} (E : Env) (e : Heun n) (hfix : e.Fixdt = true)
    (hdt : Fl.lt (.fin 0) (e.stepDt E.arith) = true)
    (hcond : Fl.lt (.fin 0) e.Maxerr = true ∨ Fl.le e.dt_si e.Mindt = true) :
    Step E e = .done (e.accepted E.arith) := by
  have herr : e.stepErr E.arith = .fin 0 := by simp [Heun.stepErr, hfix]
  have hacc : e.acceptCond E.arith = true := by
    simpa [Heun.acceptCond, herr] using hcond
  rw [Step_eq]
  simp [hdt, hfix, hacc]

theorem StepsLoop_fixed {n : ℕ} (E : Env) :
    ∀ (k : ℕ) (e : Heun n), e.Fixdt = true → Fl.lt (.fin 0) (e.stepDt E.arith) = true →
      (Fl.lt (.fin 0) e.Maxerr = true ∨ Fl.le e.dt_si e.Mindt = true) →
      ∃ e1, StepsLoop E k e = .done e1 ∧ e1.NSteps = e.NSteps + k ∧ e1.undone = e.undone ∧
        e1.dt_si = e.dt_si ∧ e1.Fixdt = true ∧
        (∀ E2 : Env, E2.arith = E.arith → StepsLoop E2 k e = .done e1) ∧
        (E.arith = Arith.exact → ∀ t a : ℚ, e.Time = .fin t → e.dt_si = .fin a →
          e1.Time = .fin (t + k * a))
  | 0, e, hfix, _, _ =>
    ⟨e, rfl, by simp, rfl, rfl, hfix, fun _ _ => rfl, fun _ t a ht _ => by simp [ht]⟩
  | k + 1, e, hfix, hdt, hcond => by
    obtain ⟨e1, h1, h2, h3, h4, h5, h6, h7⟩ :=
      StepsLoop_fixed E k (e.accepted E.arith) hfix hdt hcond
    refine ⟨e1, ?_, ?_, h3, h4, h5, fun E2 hE => ?_, fun hA t a ht ha => ?_⟩
    · rw [StepsLoop, Step_fixed_eq E e hfix hdt hcond]
      exact h1
    · rw [h2]
      simp only [Heun.accepted]
      push_cast
      ring
    · rw [StepsLoop, Step_fixed_eq E2 e hfix (hE ▸ hdt) hcond, hE]
      exact h6 E2 hE
    · have hT : (e.accepted E.arith).Time = .fin (t + a) := by
        simp only [Heun.accepted, hA, ht, ha, Fl.add_fin_fin, Arith.exact_round64]
      rw [h7 hA (t + a) a hT ha]
      congr 1
      push_cast
      ring

/-- Fixed-step mode where the accept test holds: with `Fixdt` set,
`float32(dt_si*dt_mul) > 0`, and `0 < Maxerr` or `dt_si <= Mindt`, for every
`steps >= 0` the call `Steps(steps)` returns,
never reaching the undo branch: `NSteps` has grown by exactly `steps`, `undone`
and `dt_si` are unchanged, the error used in each step is 0, the result does
not depend on `math.Pow` or the clamp (`adaptDt` is not called), and in
real-number arithmetic `Time` has grown by exactly `steps * dt_si`. -/
theorem Steps_fixed {n : ℕ} (E : Env) (e : Heun n) (hfix : e.Fixdt = true)
    (hdt : Fl.lt (.fin 0) (e.stepDt E.arith) = true)
    (hcond : Fl.lt (.fin 0) e.Maxerr = true ∨ Fl.le e.dt_si e.Mindt = true)
    (steps : ℤ) (h0 : 0 ≤ steps) :
    ∃ e1, Steps E steps e = .done e1 ∧ e1.NSteps = e.NSteps + steps ∧ e1.undone = e.undone ∧
      e1.dt_si = e.dt_si ∧ e1.Fixdt = true ∧ e.stepErr E.arith = .fin 0 ∧
      (∀ E2 : Env, E2.arith = E.arith → Steps E2 steps e = .done e1) ∧
      (E.arith = Arith.exact → ∀ t a : ℚ, e.Time = .fin t → e.dt_si = .fin a →
        e1.Time = .fin (t + steps * a)) := by
  obtain ⟨e1, h1, h2, h3, h4, h5, h6, h7⟩ := StepsLoop_fixed E steps.toNat e hfix hdt hcond
  have hs : ((steps.toNat : ℕ) : ℤ) = steps := Int.toNat_of_nonneg h0
  refine ⟨e1, h1, by rw [h2, hs], h3, h4, h5, by simp [Heun.stepErr, hfix], h6,
    fun hA t a ht ha => ?_⟩
  have hq : ((steps.toNat : ℕ) : ℚ) = (steps : ℚ) := by exact_mod_cast hs
  rw [h7 hA t a ht ha, hq]

/-- Fixed-step mode at the decay solver with tolerance 1, in real-number
arithmetic: three steps of 1/8. -/
theorem Steps_fixed_witness :
    (Steps exactEnv 3 (fixedDecay (.fin 1))).isDone = true ∧
    (Steps exactEnv 3 (fixedDecay (.fin 1))).state.NSteps = 3 ∧
    (Steps exactEnv 3 (fixedDecay (.fin 1))).state.undone = 0 ∧
    (Steps exactEnv 3 (fixedDecay (.fin 1))).state.Time = .fin (3 / 8) ∧
    ∃ e1, Steps exactEnv 3 (fixedDecay (.fin 1)) = .done e1 ∧
      e1.NSteps = (fixedDecay (.fin 1)).NSteps + 3 ∧ e1.Time = .fin (0 + 3 * (1 / 8)) :=
  ⟨by decide!, by decide!, by decide!, by decide!,
    (Steps_fixed exactEnv (fixedDecay (.fin 1)) rfl (by decide!) (Or.inl (by decide!)) 3
      (by decide)).elim
      fun e1 h => ⟨e1, h.1, h.2.1, by exact_mod_cast h.2.2.2.2.2.2.2 rfl 0 (1 / 8) rfl rfl⟩⟩

/-! ### C8: where `Advance` stops -/

/-- C8, as stated, fails on the code, in two ways.  (1) In `float64` the
overshoot can equal the step size: from `Time = 2 - 2^-51` with the fixed step
size `5 * 2^-52`, `Advance(2^-52)` stops at `t0 + duration = 2 - 2^-52` (an
exact sum); its one `Step` is accepted and sets `Time` to the `float64` sum
`(2 - 2^-51) + 5 * 2^-52`, which is `2 + 2^-50` (the exact sum `2 + 3 * 2^-52`
is not a `float64`), so the overshoot is `5 * 2^-52`, the step size itself,
whether it is computed in `float64` or exactly.  (2) For a negative duration
the loop is not entered: `Advance(-2)` on the solver that run left (one step
accepted) returns at once, with overshoot 2. -/
theorem Advance_overshoot_not_below_step :
    (edgeClock.Time = .fin (2 - 1 / 2 ^ 51) ∧
      Fl.lt (.fin 0) (.fin (1 / 2 ^ 52)) = true ∧
      runDone (Advance ieeeEnv (.fin (1 / 2 ^ 52)) 3 edgeClock) = true ∧
      Fl.add Arith.ieee.round64 edgeClock.Time (.fin (1 / 2 ^ 52)) = .fin (2 - 1 / 2 ^ 52) ∧
      Fl.add Arith.exact.round64 edgeClock.Time (.fin (1 / 2 ^ 52)) = .fin (2 - 1 / 2 ^ 52) ∧
      edgeClockRun.NSteps = edgeClock.NSteps + 1 ∧
      edgeClockRun.undone = edgeClock.undone ∧
      edgeClockRun.Time = .fin (2 + 1 / 2 ^ 50) ∧
      edgeClockRun.dt_si = .fin (5 / 2 ^ 52) ∧
      Fl.sub Arith.ieee.round64 edgeClockRun.Time
        (Fl.add Arith.ieee.round64 edgeClock.Time (.fin (1 / 2 ^ 52))) = .fin (5 / 2 ^ 52) ∧
      Fl.sub Arith.exact.round64 edgeClockRun.Time
        (Fl.add Arith.exact.round64 edgeClock.Time (.fin (1 / 2 ^ 52))) = .fin (5 / 2 ^ 52) ∧
      Fl.lt (.fin (5 / 2 ^ 52)) edgeClockRun.dt_si = false) ∧
    (runDone (Advance ieeeEnv (.fin (-2)) 3 edgeClockRun) = true ∧
      (runState (Advance ieeeEnv (.fin (-2)) 3 edgeClockRun) edgeClockRun).Time
        = edgeClockRun.Time ∧
      (runState (Advance ieeeEnv (.fin (-2)) 3 edgeClockRun) edgeClockRun).NSteps = 1 ∧
      Fl.sub Arith.ieee.round64
        (runState (Advance ieeeEnv (.fin (-2)) 3 edgeClockRun) edgeClockRun).Time
        (Fl.add Arith.ieee.round64 edgeClockRun.Time (.fin (-2))) = .fin 2 ∧
      Fl.lt (.fin 2)
        (runState (Advance ieeeEnv (.fin (-2)) 3 edgeClockRun) edgeClockRun).dt_si
        = false) := by
  decide!

/-- A loop of `Advance` that is entered and returns has made a last `Step`,
started with `Time < stop`. -/
theorem AdvanceLoop_last {n : ℕ} (E : Env) (stop : Fl) :
    ∀ (fuel : ℕ) (e e1 : Heun n), AdvanceLoop E stop fuel e = some (.done e1) →
      Fl.lt e.Time stop = true →
      ∃ p, Step E p = .done e1 ∧ Fl.lt p.Time stop = true
  | 0, e, e1, h, ht => by
    simp [AdvanceLoop, ht] at h
  | fuel + 1, e, e1, h, ht => by
    rw [AdvanceLoop] at h
    simp only [ht, if_true] at h
    cases hs : Step E e with
    | fatal f e2 => simp [hs] at h
    | done e2 =>
      simp only [hs] at h
      cases ht2 : Fl.lt e2.Time stop
      · have : e1 = e2 := by
          cases fuel <;> simp [AdvanceLoop, ht2] at h <;> exact h.symm
        exact ⟨e, this ▸ hs, ht⟩
      · exact AdvanceLoop_last E stop fuel e2 e1 h ht2

/-- A loop of `Advance` that is not entered leaves the solver as it is. -/
theorem AdvanceLoop_not_entered {n : ℕ} (E : Env) (stop : Fl) (fuel : ℕ) (e e1 : Heun n)
    (h : AdvanceLoop E stop fuel e = some (.done e1)) (ht : Fl.lt e.Time stop = false) :
    e1 = e := by
  cases fuel <;> simp [AdvanceLoop, ht] at h <;> exact h.symm

theorem Fl.le_of_lt_false {a b : Fl} (h : Fl.lt a b = false) (ha : a.isNaN = false)
    (hb : b.isNaN = false) : Fl.le b a = true := by
  cases a <;> cases b <;> simp_all [Fl.lt, Fl.le, Fl.isNaN]

/-- The last `Step` of a loop of `Advance` that was entered is an accepted
one. -/
theorem AdvanceLoop_last_accepted {n : ℕ} (E : Env) (stop : Fl) (fuel : ℕ) (e e1 : Heun n)
    (h : AdvanceLoop E stop fuel e = some (.done e1)) (ht : Fl.lt e.Time stop = true) :
    ∃ p : Heun n, Step E p = .done e1 ∧ e1.NSteps = p.NSteps + 1 ∧ e1.undone = p.undone ∧
      Fl.lt p.Time stop = true ∧ e1.Time = Fl.add E.arith.round64 p.Time p.dt_si := by
  obtain ⟨hex, -⟩ := AdvanceLoop_done E stop fuel e e1 h
  obtain ⟨p, hs, hp⟩ := AdvanceLoop_last E stop fuel e e1 h ht
  obtain ⟨-, -, hbr⟩ := Step_done hs
  refine ⟨p, hs, ?_⟩
  rcases hbr with ⟨-, rfl⟩ | ⟨-, -, rfl⟩
  · cases hf : p.Fixdt <;> simp [Heun.accepted, hp]
  · have : Fl.lt p.Time stop = false := hex
    rw [hp] at this
    cases this

/-- C8, amended: an `Advance(duration)` that returns has `Time < stop` false
for `stop` the `float64` sum `t0 + duration`, that is `Time >= stop` when
neither is NaN; when `t0 < stop` is false it has made no `Step`, and when
`t0 < stop` its last `Step` is an accepted one that started at a time below
`stop` and set `Time` to the `float64` sum of that time and its step size
`dt_si`.  In real-number arithmetic, from a finite `t0`, for a finite duration
`d` and a finite `Time`, `Time >= t0 + d`, and for `d > 0` the overshoot
`Time - (t0 + d)` is strictly below the step size `dt_si` of that last `Step`. -/
theorem Advance_overshoot {n : ℕ} (E : Env) (e e1 : Heun n) (seconds : Fl) (fuel : ℕ)
    (h : Advance E seconds fuel e = some (.done e1)) :
    Fl.lt e1.Time (Fl.add E.arith.round64 e.Time seconds) = false ∧
    (e1.Time.isNaN = false → (Fl.add E.arith.round64 e.Time seconds).isNaN = false →
      Fl.le (Fl.add E.arith.round64 e.Time seconds) e1.Time = true) ∧
    (Fl.lt e.Time (Fl.add E.arith.round64 e.Time seconds) = false → e1 = e) ∧
    (Fl.lt e.Time (Fl.add E.arith.round64 e.Time seconds) = true →
      ∃ p : Heun n, Step E p = .done e1 ∧ e1.NSteps = p.NSteps + 1 ∧ e1.undone = p.undone ∧
        Fl.lt p.Time (Fl.add E.arith.round64 e.Time seconds) = true ∧
        e1.Time = Fl.add E.arith.round64 p.Time p.dt_si) ∧
    (E.arith = Arith.exact → ∀ t0 d t1 : ℚ, e.Time = .fin t0 → seconds = .fin d →
      e1.Time = .fin t1 →
      t0 + d ≤ t1 ∧
      (0 < d → ∃ (p : Heun n) (tp hp : ℚ), Step E p = .done e1 ∧
        e1.NSteps = p.NSteps + 1 ∧ p.Time = .fin tp ∧ tp < t0 + d ∧ p.dt_si = .fin hp ∧
        t1 = tp + hp ∧ t1 - (t0 + d) < hp)) := by
  rw [Advance] at h
  obtain ⟨hex, -⟩ := AdvanceLoop_done E _ fuel e e1 h
  refine ⟨hex, fun h1 h2 => Fl.le_of_lt_false hex h1 h2,
    fun ht => AdvanceLoop_not_entered E _ fuel e e1 h ht,
    fun ht => AdvanceLoop_last_accepted E _ fuel e e1 h ht,
    fun hA t0 d t1 ht0 hd ht1 => ?_⟩
  have hstop : Fl.add E.arith.round64 e.Time seconds = .fin (t0 + d) := by
    rw [hA, ht0, hd, Fl.add_fin_fin, Arith.exact_round64]
  rw [hstop] at h hex
  have hge : t0 + d ≤ t1 := by
    simpa [ht1, Fl.lt] using hex
  refine ⟨hge, fun hd0 => ?_⟩
  have hin : Fl.lt e.Time (.fin (t0 + d)) = true := by
    simp [ht0, Fl.lt, hd0]
  obtain ⟨p, hs, hN, -, hp, hT⟩ := AdvanceLoop_last_accepted E _ fuel e e1 h hin
  rw [ht1, hA] at hT
  obtain ⟨tp, hq, htp, hhq, hsum⟩ := Fl.add_exact_eq_fin hT.symm
  have hlt : tp < t0 + d := by
    simpa [htp, Fl.lt] using hp
  exact ⟨p, tp, hq, hs, hN, htp, hlt, hhq, hsum, by linarith⟩

/-- C8, amended, at the fixed-step decay solver in machine arithmetic:
`Advance(1/4)` with steps of 1/8 stops at `Time = 1/4 >= stop`, after an accepted
last `Step` that started below `stop`. -/
theorem Advance_overshoot_witness :
    runDone (Advance ieeeEnv (.fin (1 / 4)) 5 (fixedDecay (.fin 1))) = true ∧
    (runState (Advance ieeeEnv (.fin (1 / 4)) 5 (fixedDecay (.fin 1)))
      (fixedDecay (.fin 1))).Time = .fin (1 / 4) ∧
    Fl.lt (runState (Advance ieeeEnv (.fin (1 / 4)) 5 (fixedDecay (.fin 1)))
        (fixedDecay (.fin 1))).Time
      (Fl.add ieeeEnv.arith.round64 (fixedDecay (.fin 1)).Time (.fin (1 / 4))) = false ∧
    ∃ p : Heun 1,
      (runState (Advance ieeeEnv (.fin (1 / 4)) 5 (fixedDecay (.fin 1)))
        (fixedDecay (.fin 1))).NSteps = p.NSteps + 1 ∧
      Fl.lt p.Time (Fl.add ieeeEnv.arith.round64 (fixedDecay (.fin 1)).Time (.fin (1 / 4)))
        = true :=
  (fun (h : runDone (Advance ieeeEnv (.fin (1 / 4)) 5 (fixedDecay (.fin 1))) = true) =>
    have key := Advance_overshoot ieeeEnv (fixedDecay (.fin 1)) _ (.fin (1 / 4)) 5
      (eq_some_done_of_runDone h (fixedDecay (.fin 1)))
    ⟨h, by decide!, key.1,
      (key.2.2.2.1 (by decide!)).elim fun p hp => ⟨p, hp.2.1, hp.2.2.2.1⟩⟩)
    (by decide!)

/-! ### C9: construction -/

theorem Fl.not_lt_zero_iff (x : Fl) :
    Fl.lt (.fin 0) x = false ↔ (Fl.le x (.fin 0) = true ∨ x.isNaN = true) := by
  cases x <;> simp [Fl.lt, Fl.le, Fl.isNaN]

/-- C9, as stated, fails on the code: `NewHeun` with step size NaN fails
(`NaN > 0` is false), although neither `dt <= 0` nor `multiplier <= 0` holds. -/
theorem NewHeun_nan_fails :
    (NewHeun ieeeEnv (fun _ : Fin 1 => .fin 1) (fun y _ i => Fl.neg (y i)) id
      .nan (.fin 1)).isSome = false ∧
    Fl.le .nan (.fin 0) = false ∧ Fl.le (.fin 1) (.fin 0) = false := by
  decide!

/-- C9, amended: `NewHeun` fails if and only if `dt > 0 && multiplier > 0` is
false, that is if and only if `dt <= 0`, `multiplier <= 0`, or one of the two
is NaN; when it succeeds the solver holds the given state `y`, callbacks, step
size `dt` and multiplier, and is in adaptive mode. -/
theorem NewHeun_fails_iff {n : ℕ} (E : Env) (y : Slice n) (f : Slice n → Fl → Slice n)
    (g : Slice n → Slice n) (dt mul : Fl) :
    (NewHeun E y f g dt mul = none ↔
      ¬ (Fl.lt (.fin 0) dt = true ∧ Fl.lt (.fin 0) mul = true)) ∧
    (NewHeun E y f g dt mul = none ↔
      (Fl.le dt (.fin 0) = true ∨ Fl.le mul (.fin 0) = true ∨
        dt.isNaN = true ∨ mul.isNaN = true)) ∧
    (∀ e, NewHeun E y f g dt mul = some e →
      e.y = y ∧ e.torqueFn = f ∧ e.normalizeFn = g ∧ e.dt_si = dt ∧ e.dt_mul = mul ∧
        e.Fixdt = false) := by
  have h1 : NewHeun E y f g dt mul = none ↔
      ¬ (Fl.lt (.fin 0) dt = true ∧ Fl.lt (.fin 0) mul = true) := by
    cases hd : Fl.lt (.fin 0) dt <;> cases hm : Fl.lt (.fin 0) mul <;> simp [NewHeun, hd, hm]
  refine ⟨h1, ?_, fun e he => ?_⟩
  · rw [h1, not_and_or, Bool.not_eq_true, Bool.not_eq_true, Fl.not_lt_zero_iff,
      Fl.not_lt_zero_iff]
    tauto
  · cases hd : Fl.lt (.fin 0) dt <;> cases hm : Fl.lt (.fin 0) mul <;>
      simp [NewHeun, hd, hm] at he
    subst he
    exact ⟨rfl, rfl, rfl, rfl, rfl, rfl⟩

/-- C9, amended, at step size 1/8 and multiplier 1. -/
theorem NewHeun_fails_iff_witness :
    ∃ e : Heun 1, NewHeun ieeeEnv (fun _ => .fin 1) (fun y _ i => Fl.neg (y i)) id
        (.fin (1 / 8)) (.fin 1) = some e ∧
      e.dt_si = .fin (1 / 8) ∧ e.dt_mul = .fin 1 ∧ e.Fixdt = false :=
  ⟨_, NewHeun_eq_some ieeeEnv _ _ _ _ _ (by decide!) (by decide!),
    ((NewHeun_fails_iff ieeeEnv (fun _ : Fin 1 => .fin 1) (fun y _ i => Fl.neg (y i)) id
      (.fin (1 / 8)) (.fin 1)).2.2 _
      (NewHeun_eq_some ieeeEnv _ _ _ _ _ (by decide!) (by decide!))).2.2.2⟩

/-! ### C10: the step size stays positive -/

/-- C10 fails in the code: `NewHeun` accepts the step size `2^-100` with
multiplier `2^-100`; `dt_si > 0` and `dt_si*dt_mul = 2^-200 > 0` hold in
`float64`, but `float32(dt_si*dt_mul)` underflows to 0 and the first `Step`
fails the code's own `util.Assert(dt > 0)`. -/
theorem Step_assert_fails_on_underflow :
    tinyHeun.isSome = true ∧
    tinyHeun.map (fun e => Fl.lt (.fin 0) e.dt_si) = some true ∧
    tinyHeun.map (fun e => Fl.mul Arith.ieee.round64 e.dt_si e.dt_mul)
      = some (.fin (1 / 2 ^ 200)) ∧
    tinyHeun.map (fun e => e.stepDt Arith.ieee) = some (.fin 0) ∧
    tinyHeun.map (fun e => (Step ieeeEnv e).fault) = some (some Fault.assertDt) := by
  decide!

theorem Fl.mul_exact_pos {x y : Fl} (hx : Fl.lt (.fin 0) x = true) (hy : Fl.lt (.fin 0) y = true) :
    Fl.lt (.fin 0) (Fl.mul Fl.fin x y) = true := by
  cases x <;> cases y <;> simp_all [Fl.lt, Fl.mul, Fl.infTimes]
  · rw [if_neg (ne_of_gt hy)]
  · rw [if_neg (ne_of_gt hx)]

theorem Fl.lt_chain {x y z : Fl} (h1 : Fl.lt x y = true) (h2 : Fl.lt y z = true) :
    Fl.lt x z = true := by
  cases x <;> cases y <;> cases z <;> simp_all [Fl.lt]
  linarith

/-- In real-number arithmetic `float32(x)` is `x`. -/
theorem toFloat32_exact (x : Fl) : toFloat32 Arith.exact x = x := by
  cases x <;> rfl

/-- `adaptDt` keeps a positive step size positive: in real-number arithmetic,
with a positive lower clamp and a factor that is not NaN. -/
theorem adaptDt_pos (E : Env) (hA : E.arith = Arith.exact) (lo hi : ℚ)
    (hlo : E.clampLo = .fin lo) (hhi : E.clampHi = .fin hi) (h0 : 0 < lo) (hle : lo ≤ hi)
    (s : solverCommon) (corr : Fl) (hc : corr ≠ .nan) (hs : Fl.lt (.fin 0) s.dt_si = true) :
    Fl.lt (.fin 0) (s.adaptDt E corr).dt_si = true := by
  have hcl : Fl.lt (.fin 0)
      (if Fl.lt E.clampHi corr then E.clampHi
        else if Fl.lt corr E.clampLo then E.clampLo else corr) = true := by
    rw [hlo, hhi]
    cases corr with
    | nan => exact absurd rfl hc
    | pinf => simp [Fl.lt]; linarith
    | ninf => simp [Fl.lt]; linarith
    | fin q =>
      simp only [Fl.lt]
      split_ifs with h1 h2
      · simp; linarith
      · simp; linarith
      · simp at h2 ⊢; linarith
  have key : ∀ c, Fl.lt (.fin 0) c = true →
      Fl.lt (.fin 0)
        (if Fl.lt (Fl.mul Fl.fin s.dt_si c) s.Mindt then s.Mindt
          else Fl.mul Fl.fin s.dt_si c) = true := by
    intro c hc0
    have hdt := Fl.mul_exact_pos hs hc0
    split_ifs with hfl
    · exact Fl.lt_chain hdt hfl
    · exact hdt
  have hdef : (s.adaptDt E corr).dt_si
      = if Fl.lt (Fl.mul E.arith.round64 s.dt_si
            (if Fl.lt E.clampHi corr then E.clampHi
              else if Fl.lt corr E.clampLo then E.clampLo else corr)) s.Mindt then s.Mindt
        else Fl.mul E.arith.round64 s.dt_si
            (if Fl.lt E.clampHi corr then E.clampHi
              else if Fl.lt corr E.clampLo then E.clampLo else corr) := rfl
  rw [hdef, hA]
  exact key _ hcl

/-- A `Step` that returns keeps the step size and the multiplier positive (in
real-number arithmetic, with a positive lower clamp and factors that are not
NaN). -/
theorem Step_keeps_pos {n : ℕ} (E : Env) (hA : E.arith = Arith.exact) (lo hi : ℚ)
    (hlo : E.clampLo = .fin lo) (hhi : E.clampHi = .fin hi) (h0 : 0 < lo) (hle : lo ≤ hi)
    (hpow : ∀ x y, E.pow x y ≠ .nan) (e e1 : Heun n) (h : Step E e = .done e1)
    (hs : Fl.lt (.fin 0) e.dt_si = true) (hm : Fl.lt (.fin 0) e.dt_mul = true) :
    Fl.lt (.fin 0) e1.dt_si = true ∧ Fl.lt (.fin 0) e1.dt_mul = true := by
  obtain ⟨-, -, hbr⟩ := Step_done h
  rcases hbr with ⟨-, rfl⟩ | ⟨-, -, rfl⟩
  · cases hf : e.Fixdt
    · exact ⟨adaptDt_pos E hA lo hi hlo hhi h0 hle _ _ (hpow _ _) hs, hm⟩
    · exact ⟨hs, hm⟩
  · exact ⟨adaptDt_pos E hA lo hi hlo hhi h0 hle _ _ (hpow _ _) hs, hm⟩

/-- The step size stays positive in real-number arithmetic (where
`float32(dt_si*dt_mul)` does not underflow), with a positive lower clamp in
`adaptDt` and a `math.Pow` that never returns NaN: every state reachable from
a successful `NewHeun` by `Step` calls and changes of `Maxerr`, `Mindt` and
`Fixdt` has `dt_si > 0` and `dt_si*dt_mul > 0`, and `util.Assert(dt > 0)` at
the start of `Step` does not fail in it. -/
theorem Reachable_dt_pos {n : ℕ} (E : Env) (hA : E.arith = Arith.exact) (lo hi : ℚ)
    (hlo : E.clampLo = .fin lo) (hhi : E.clampHi = .fin hi) (h0 : 0 < lo) (hle : lo ≤ hi)
    (hpow : ∀ x y, E.pow x y ≠ .nan) (e : Heun n) (hr : Reachable E e) :
    Fl.lt (.fin 0) e.dt_si = true ∧
    Fl.lt (.fin 0) (Fl.mul E.arith.round64 e.dt_si e.dt_mul) = true ∧
    Fl.lt (.fin 0) (e.stepDt E.arith) = true ∧
    (Step E e).fault ≠ some Fault.assertDt := by
  have inv : Fl.lt (.fin 0) e.dt_si = true ∧ Fl.lt (.fin 0) e.dt_mul = true := by
    induction hr with
    | new y f g dt mul e hnew =>
      cases hd : Fl.lt (.fin 0) dt <;> cases hm : Fl.lt (.fin 0) mul <;>
        simp [NewHeun, hd, hm] at hnew
      subst hnew
      exact ⟨hd, hm⟩
    | step e e1 _ hstep ih =>
      exact Step_keeps_pos E hA lo hi hlo hhi h0 hle hpow e e1 hstep ih.1 ih.2
    | setMaxerr e m _ ih => exact ih
    | setMindt e m _ ih => exact ih
    | setFixdt e b _ ih => exact ih
  have hmul : Fl.lt (.fin 0) (Fl.mul E.arith.round64 e.dt_si e.dt_mul) = true := by
    rw [hA]
    exact Fl.mul_exact_pos inv.1 inv.2
  have hdt : Fl.lt (.fin 0) (e.stepDt E.arith) = true := by
    rw [Heun.stepDt, hA, toFloat32_exact, ← hA]
    exact hmul
  refine ⟨inv.1, hmul, hdt, ?_⟩
  rw [Step_eq]
  cases hf : e.Fixdt <;>
    cases hc : solverCheckErr (e.stepErr E.arith) <;>
    cases ha : e.acceptCond E.arith <;>
    simp [hdt, Outcome.fault]

/-- The step size stays positive, in real-number arithmetic: the solver
`NewHeun` builds with step size 1/8 and multiplier 1, after one `Step`. -/
theorem Reachable_dt_pos_witness :
    (Step exactEnvOne
      (Heun.mk (newSolverCommon exactEnvOne (.fin (1 / 8)) (.fin 1)) (fun _ : Fin 1 => .fin 1)
        (fun _ => .fin 0) (fun y _ i => Fl.neg (y i)) id false)).isDone = true ∧
    Fl.lt (.fin 0) (Step exactEnvOne
      (Heun.mk (newSolverCommon exactEnvOne (.fin (1 / 8)) (.fin 1)) (fun _ : Fin 1 => .fin 1)
        (fun _ => .fin 0) (fun y _ i => Fl.neg (y i)) id false)).state.dt_si = true :=
  (fun h => ⟨h,
    (Reachable_dt_pos exactEnvOne rfl (1 / 2) 2 rfl rfl (by norm_num) (by norm_num)
      (fun _ _ => by simp [exactEnvOne]) _
      (Reachable.step _ _
        (Reachable.new _ _ _ _ _ _
          (NewHeun_eq_some exactEnvOne (fun _ : Fin 1 => .fin 1) (fun y _ i => Fl.neg (y i)) id
            (.fin (1 / 8)) (.fin 1) (by decide!) (by decide!)))
        (Outcome.eq_done_of_isDone h))).1⟩)
    (by decide!)

/-! ### C11: a rejected step and the step size -/

/-- C11, as stated, fails on the code, in three ways.  (1) A step whose error
estimate equals the tolerance is rejected (`err < Maxerr` is false), and then
`Maxerr/err = 1`, so the factor passed to `adaptDt` is `math.Pow(1, 1/3) = 1`,
not below 1, and the step size stays 1/8 (decay solver with step size 1/8 and
`Maxerr = 1/64`).  (2) For `Maxerr = 0` and `err = 0` (cell at rest) the step is
rejected too, `Maxerr/err = 0/0` is NaN and so is the factor.  (3) With
`Maxerr = 48 < err = 64` the factor `math.Pow(0.75, 1/3) = 0.9085...` is below 1,
but the step size `2^-1074`, the smallest positive `float64`, times that factor
rounds to `2^-1074` again: the step size is not smaller after the step. -/
theorem Step_reject_not_smaller :
    ((decayEighth (.fin (1 / 64)) (.fin 0)).Fixdt = false ∧
      (decayEighth (.fin (1 / 64)) (.fin 0)).stepErr Arith.ieee = .fin (1 / 64) ∧
      Fl.le (decayEighth (.fin (1 / 64)) (.fin 0)).Maxerr
        ((decayEighth (.fin (1 / 64)) (.fin 0)).stepErr Arith.ieee) = true ∧
      Fl.lt (decayEighth (.fin (1 / 64)) (.fin 0)).Mindt
        (decayEighth (.fin (1 / 64)) (.fin 0)).dt_si = true ∧
      (Step ieeeEnv (decayEighth (.fin (1 / 64)) (.fin 0))).isDone = true ∧
      (Step ieeeEnv (decayEighth (.fin (1 / 64)) (.fin 0))).state.undone = 1 ∧
      Fl.div Arith.ieee.round64 (decayEighth (.fin (1 / 64)) (.fin 0)).Maxerr
        ((decayEighth (.fin (1 / 64)) (.fin 0)).stepErr Arith.ieee) = .fin 1 ∧
      (decayEighth (.fin (1 / 64)) (.fin 0)).shrinkFactor ieeeEnv = .fin 1 ∧
      Fl.lt ((decayEighth (.fin (1 / 64)) (.fin 0)).shrinkFactor ieeeEnv) (.fin 1) = false ∧
      (Step ieeeEnv (decayEighth (.fin (1 / 64)) (.fin 0))).state.dt_si = .fin (1 / 8)) ∧
    (({ still with Maxerr := .fin 0 } : Heun 1).stepErr Arith.ieee = .fin 0 ∧
      Fl.le ({ still with Maxerr := .fin 0 } : Heun 1).Maxerr
        (({ still with Maxerr := .fin 0 } : Heun 1).stepErr Arith.ieee) = true ∧
      (Step ieeeEnv ({ still with Maxerr := .fin 0 } : Heun 1)).isDone = true ∧
      (Step ieeeEnv ({ still with Maxerr := .fin 0 } : Heun 1)).state.undone = 1 ∧
      ({ still with Maxerr := .fin 0 } : Heun 1).shrinkFactor ieeeEnv = .nan ∧
      Fl.lt (({ still with Maxerr := .fin 0 } : Heun 1).shrinkFactor ieeeEnv) (.fin 1)
        = false) ∧
    (subnormalDecay.Fixdt = false ∧
      subnormalDecay.stepErr Arith.ieee = .fin 64 ∧
      Fl.lt subnormalDecay.Maxerr (subnormalDecay.stepErr Arith.ieee) = true ∧
      Fl.lt subnormalDecay.Mindt subnormalDecay.dt_si = true ∧
      (Step cbrtEnv subnormalDecay).isDone = true ∧
      (Step cbrtEnv subnormalDecay).state.undone = 1 ∧
      Fl.div Arith.ieee.round64 subnormalDecay.Maxerr (subnormalDecay.stepErr Arith.ieee)
        = .fin (3 / 4) ∧
      Fl.lt (subnormalDecay.shrinkFactor cbrtEnv) (.fin 1) = true ∧
      (Step cbrtEnv subnormalDecay).state.dt_si = subnormalDecay.dt_si ∧
      Fl.lt (Step cbrtEnv subnormalDecay).state.dt_si subnormalDecay.dt_si = false) := by
  decide!

/-- In real-number arithmetic, for `0 <= Maxerr < err` with `err` finite, the
ratio `Maxerr/err` lies in `[0, 1)`. -/
theorem ratio_lt_one {m err : Fl} (hm : Fl.le (.fin 0) m = true) (herr : Fl.lt m err = true)
    (hfin : err.isFinite = true) :
    Fl.le (.fin 0) (Fl.div Fl.fin m err) = true ∧
      Fl.lt (Fl.div Fl.fin m err) (.fin 1) = true := by
  cases m <;> cases err <;> simp_all [Fl.le, Fl.lt, Fl.isFinite, Fl.div]
  rename_i a b
  have hb : 0 < b := lt_of_le_of_lt hm herr
  rw [if_neg (ne_of_gt hb)]
  simp only [Fl.le, Fl.lt, decide_eq_true_eq]
  exact ⟨div_nonneg hm hb.le, (div_lt_one hb).mpr herr⟩

theorem Fl.mul_lt_self {d : ℚ} (hd0 : 0 < d) {c : Fl} (hc : Fl.lt c (.fin 1) = true) :
    Fl.lt (Fl.mul Fl.fin (.fin d) c) (.fin d) = true := by
  cases c <;> simp_all [Fl.lt, Fl.mul, Fl.infTimes]
  rw [if_neg (ne_of_gt hd0)]

/-- `adaptDt` with a factor below 1 makes a positive finite step size above
the floor strictly smaller (real-number arithmetic, lower clamp below 1). -/
theorem adaptDt_shrinks (E : Env) (hA : E.arith = Arith.exact) (lo : ℚ)
    (hlo : E.clampLo = .fin lo) (hlo1 : lo < 1) (s : solverCommon) (corr : Fl) (d : ℚ)
    (hd : s.dt_si = .fin d) (hd0 : 0 < d) (hmin : Fl.le s.dt_si s.Mindt = false)
    (hc : Fl.lt corr (.fin 1) = true) :
    Fl.lt (s.adaptDt E corr).dt_si s.dt_si = true := by
  have hcl : Fl.lt (if Fl.lt E.clampHi corr then E.clampHi
      else if Fl.lt corr E.clampLo then E.clampLo else corr) (.fin 1) = true := by
    split_ifs with h1 h2
    · exact Fl.lt_chain h1 hc
    · rw [hlo]
      simpa [Fl.lt] using hlo1
    · exact hc
  have key : ∀ c, Fl.lt c (.fin 1) = true →
      Fl.lt (if Fl.lt (Fl.mul Fl.fin s.dt_si c) s.Mindt then s.Mindt
        else Fl.mul Fl.fin s.dt_si c) s.dt_si = true := by
    intro c hc1
    rw [hd] at hmin ⊢
    have hdt : Fl.lt (Fl.mul Fl.fin (.fin d) c) (.fin d) = true := Fl.mul_lt_self hd0 hc1
    split_ifs with hfl
    · revert hmin hfl
      cases s.Mindt <;> cases Fl.mul Fl.fin (.fin d) c <;> simp [Fl.lt, Fl.le]
      intro h _
      exact h
    · exact hdt
  have hdef : (s.adaptDt E corr).dt_si
      = if Fl.lt (Fl.mul E.arith.round64 s.dt_si
            (if Fl.lt E.clampHi corr then E.clampHi
              else if Fl.lt corr E.clampLo then E.clampLo else corr)) s.Mindt then s.Mindt
        else Fl.mul E.arith.round64 s.dt_si
            (if Fl.lt E.clampHi corr then E.clampHi
              else if Fl.lt corr E.clampLo then E.clampLo else corr) := rfl
  rw [hdef, hA]
  exact key _ hcl

/-- `adaptDt` with a factor of at most 1 does not make a positive step size
above the floor larger: for any rounding that keeps the order, a lower clamp of
at most 1 and a step size that is a `float64` value. -/
theorem adaptDt_not_larger (E : Env) (hS : E.arith.Monotone64) (lo : ℚ)
    (hlo : E.clampLo = .fin lo) (hlo1 : lo ≤ 1) (s : solverCommon) (corr : Fl) (d : ℚ)
    (hd : s.dt_si = .fin d) (hd0 : 0 < d) (hrep : E.arith.round64 d = .fin d)
    (hmin : Fl.le s.dt_si s.Mindt = false) (hc : Fl.le corr (.fin 1) = true) :
    Fl.le (s.adaptDt E corr).dt_si s.dt_si = true := by
  have key : ∀ c, Fl.le c (.fin 1) = true →
      Fl.le (if Fl.lt (Fl.mul E.arith.round64 s.dt_si c) s.Mindt then s.Mindt
        else Fl.mul E.arith.round64 s.dt_si c) s.dt_si = true := by
    intro c hc1
    rw [hd] at hmin ⊢
    have hdt := Fl.mul_le_self_of_le_one hS.mono hd0 hrep hc1
    split_ifs with hfl
    · revert hmin hfl
      cases s.Mindt <;> cases Fl.mul E.arith.round64 (.fin d) c <;> simp [Fl.lt, Fl.le]
      · intro h
        exact le_of_lt h
      · intro h _
        exact le_of_lt h
    · exact hdt
  have hdef : (s.adaptDt E corr).dt_si
      = if Fl.lt (Fl.mul E.arith.round64 s.dt_si
            (if Fl.lt E.clampHi corr then E.clampHi
              else if Fl.lt corr E.clampLo then E.clampLo else corr)) s.Mindt then s.Mindt
        else Fl.mul E.arith.round64 s.dt_si
            (if Fl.lt E.clampHi corr then E.clampHi
              else if Fl.lt corr E.clampLo then E.clampLo else corr) := rfl
  rw [hdef]
  exact key _ (clamp_le_one E lo hlo hlo1 _ hc)

theorem Fl.lt_asymm_false {a b : Fl} (h : Fl.lt a b = true) : Fl.lt b a = false := by
  cases a <;> cases b <;> simp_all [Fl.lt]
  exact le_of_lt h

theorem Fl.lt_false_of_le {a b : Fl} (h : Fl.le a b = true) : Fl.lt b a = false := by
  cases a <;> cases b <;> simp_all [Fl.lt, Fl.le]

/-- C11, amended: for every rejected `Step` in adaptive mode with
`0 <= Maxerr <= err`, `err > 0` and `dt_si > Mindt`, the factor passed to
`adaptDt` is `math.Pow(Maxerr/err, 1/3)` with the quotient (rounded to
`float64`) in `[0, 1]`; the factor is at most 1 and the step size after the step
is not larger than before it, for every arithmetic whose rounding keeps the
order of numbers (machine arithmetic included), a step size that is a positive
`float64` value, a lower clamp of at most 1 and `math.Pow(x, 1/3)` at most 1 on
`[0, 1]`.  In real-number arithmetic, for `Maxerr < err`, a lower clamp below 1
and a cube root that is below 1 on `[0, 1)`, the quotient and the factor are
strictly less than 1 and the step size after the step is strictly smaller than
before it. -/
theorem Step_reject_shrinks {n : ℕ} (E : Env) (hS : E.arith.Monotone64) (lo : ℚ)
    (hlo : E.clampLo = .fin lo) (hlo1 : lo ≤ 1)
    (hpow : ∀ x, Fl.le (.fin 0) x = true → Fl.le x (.fin 1) = true →
      Fl.le (E.pow x (E.arith.round64 (1 / 3))) (.fin 1) = true)
    (e e1 : Heun n) (hfix : e.Fixdt = false) (d : ℚ) (hd : e.dt_si = .fin d) (hd0 : 0 < d)
    (hrep : E.arith.round64 d = .fin d)
    (hM : Fl.le (.fin 0) e.Maxerr = true)
    (herr : Fl.le e.Maxerr (e.stepErr E.arith) = true)
    (hpos : Fl.lt (.fin 0) (e.stepErr E.arith) = true)
    (hmin : Fl.le e.dt_si e.Mindt = false) (h : Step E e = .done e1) :
    e1 = (e.rejected E.arith).adaptDt E (e.shrinkFactor E) ∧
    e1.undone = e.undone + 1 ∧
    e.shrinkFactor E
      = E.pow (Fl.div E.arith.round64 e.Maxerr (e.stepErr E.arith)) (E.arith.round64 (1 / 3)) ∧
    Fl.le (.fin 0) (Fl.div E.arith.round64 e.Maxerr (e.stepErr E.arith)) = true ∧
    Fl.le (Fl.div E.arith.round64 e.Maxerr (e.stepErr E.arith)) (.fin 1) = true ∧
    Fl.le (e.shrinkFactor E) (.fin 1) = true ∧
    Fl.le e1.dt_si e.dt_si = true ∧
    (E.arith = Arith.exact → Fl.lt e.Maxerr (e.stepErr E.arith) = true → lo < 1 →
      (∀ x, Fl.le (.fin 0) x = true → Fl.lt x (.fin 1) = true →
        Fl.lt (E.pow x (E.arith.round64 (1 / 3))) (.fin 1) = true) →
      Fl.lt (Fl.div E.arith.round64 e.Maxerr (e.stepErr E.arith)) (.fin 1) = true ∧
      Fl.lt (e.shrinkFactor E) (.fin 1) = true ∧
      Fl.lt e1.dt_si e.dt_si = true) := by
  obtain ⟨-, hchk, hbr⟩ := Step_done h
  have hrej : e.acceptCond E.arith = false := by
    simp [Heun.acceptCond, Fl.lt_false_of_le herr, hmin]
  have hratio := ratio_le_one hS hM herr hpos (hchk hfix)
  have hf : Fl.le (e.shrinkFactor E) (.fin 1) = true := hpow _ hratio.1 hratio.2
  rcases hbr with ⟨hacc, -⟩ | ⟨-, -, rfl⟩
  · rw [hrej] at hacc
    cases hacc
  · refine ⟨rfl, rfl, rfl, hratio.1, hratio.2, hf,
      adaptDt_not_larger E hS lo hlo hlo1 (e.rejected E.arith).tosolverCommon _ d hd hd0 hrep
        hmin hf, fun hA hlt hlo2 hpow2 => ?_⟩
    have hr := ratio_lt_one hM hlt (hchk hfix)
    have hr2 : Fl.le (.fin 0) (Fl.div E.arith.round64 e.Maxerr (e.stepErr E.arith)) = true ∧
        Fl.lt (Fl.div E.arith.round64 e.Maxerr (e.stepErr E.arith)) (.fin 1) = true := by
      rw [hA] at hr ⊢
      exact hr
    have hf2 : Fl.lt (e.shrinkFactor E) (.fin 1) = true := hpow2 _ hr2.1 hr2.2
    exact ⟨hr2.2, hf2,
      adaptDt_shrinks E hA lo hlo hlo2 (e.rejected E.arith).tosolverCommon _ d hd hd0 hmin hf2⟩

/-- C11, amended, in machine arithmetic at the decay solver with step size 1/8
and `Maxerr = 2^-10` (error estimate 1/64): the step is rejected, the quotient
is 1/16, the factor is clamped to 1/2 and the step size after the step is
1/16. -/
theorem Step_reject_shrinks_witness :
    Fl.le (decayEighth (.fin (1 / 1024)) (.fin 0)).Maxerr
      ((decayEighth (.fin (1 / 1024)) (.fin 0)).stepErr ieeeEnv.arith) = true ∧
    (Step ieeeEnv (decayEighth (.fin (1 / 1024)) (.fin 0))).isDone = true ∧
    Fl.div Arith.ieee.round64 (decayEighth (.fin (1 / 1024)) (.fin 0)).Maxerr
      ((decayEighth (.fin (1 / 1024)) (.fin 0)).stepErr Arith.ieee) = .fin (1 / 16) ∧
    (Step ieeeEnv (decayEighth (.fin (1 / 1024)) (.fin 0))).state.dt_si = .fin (1 / 16) ∧
    Fl.le ((decayEighth (.fin (1 / 1024)) (.fin 0)).shrinkFactor ieeeEnv) (.fin 1) = true ∧
    Fl.le (Step ieeeEnv (decayEighth (.fin (1 / 1024)) (.fin 0))).state.dt_si
      (decayEighth (.fin (1 / 1024)) (.fin 0)).dt_si = true :=
  (fun herr hdone =>
    have key := Step_reject_shrinks ieeeEnv Arith.ieee_monotone64 (1 / 2) rfl (by norm_num)
      (fun _ _ hx => hx) (decayEighth (.fin (1 / 1024)) (.fin 0)) _ rfl (1 / 8) rfl
      (by norm_num) (by decide!) (by decide!) herr (by decide!) (by decide!)
      (Outcome.eq_done_of_isDone hdone)
    ⟨herr, hdone, by decide!, by decide!, key.2.2.2.2.2.1, key.2.2.2.2.2.2.1⟩)
    (by decide!) (by decide!)

/-! ### C12: an accepted step does not shrink the step size -/

/-- `adaptDt` with a factor of at least 1 does not make a positive step size
smaller: for any rounding that keeps the order, an upper clamp of at least 1
and a step size that is a `float64` value. -/
theorem adaptDt_not_smaller (E : Env) (hS : E.arith.Monotone64) (hi : ℚ)
    (hhi : E.clampHi = .fin hi) (hhi1 : 1 ≤ hi) (s : solverCommon) (corr : Fl) (d : ℚ)
    (hd : s.dt_si = .fin d) (hd0 : 0 < d) (hrep : E.arith.round64 d = .fin d)
    (hc : Fl.le (.fin 1) corr = true) :
    Fl.le s.dt_si (s.adaptDt E corr).dt_si = true := by
  have hcl : Fl.le (.fin 1) (if Fl.lt E.clampHi corr then E.clampHi
      else if Fl.lt corr E.clampLo then E.clampLo else corr) = true := by
    split_ifs with h1 h2
    · rw [hhi]
      simpa [Fl.le] using hhi1
    · exact Fl.le_of_le_of_lt hc h2
    · exact hc
  have key : ∀ c, Fl.le (.fin 1) c = true →
      Fl.le s.dt_si (if Fl.lt (Fl.mul E.arith.round64 s.dt_si c) s.Mindt then s.Mindt
        else Fl.mul E.arith.round64 s.dt_si c) = true := by
    intro c hc1
    rw [hd]
    have hdt := Fl.le_mul_self_of_one_le hS.mono hd0 hrep hc1
    split_ifs with hfl
    · exact Fl.le_of_le_of_lt hdt hfl
    · exact hdt
  have hdef : (s.adaptDt E corr).dt_si
      = if Fl.lt (Fl.mul E.arith.round64 s.dt_si
            (if Fl.lt E.clampHi corr then E.clampHi
              else if Fl.lt corr E.clampLo then E.clampLo else corr)) s.Mindt then s.Mindt
        else Fl.mul E.arith.round64 s.dt_si
            (if Fl.lt E.clampHi corr then E.clampHi
              else if Fl.lt corr E.clampLo then E.clampLo else corr) := rfl
  rw [hdef]
  exact key _ hcl

/-- C12: for every accepted `Step` in adaptive mode with `0 <= err < Maxerr`
(`err = 0` included), the factor passed to `adaptDt` is
`math.Pow(Maxerr/err, 1/2)` with `Maxerr/err` at least 1 (`+Inf` for `err = 0`);
it is not NaN and at least 1 (as the square root of such a number is), and the
step size after the step is not smaller than before it.  For every arithmetic
whose rounding keeps the order of numbers (machine arithmetic included), a step
size that is a positive `float64` value and an upper clamp of at least 1. -/
theorem Step_accept_grows {n : ℕ} (E : Env) (hS : E.arith.Monotone64) (hi : ℚ)
    (hhi : E.clampHi = .fin hi) (hhi1 : 1 ≤ hi)
    (hpow : ∀ x, Fl.le (.fin 1) x = true → Fl.le (.fin 1) (E.pow x (.fin (1 / 2))) = true)
    (e e1 : Heun n) (hfix : e.Fixdt = false) (d : ℚ) (hd : e.dt_si = .fin d) (hd0 : 0 < d)
    (hrep : E.arith.round64 d = .fin d)
    (h0 : Fl.le (.fin 0) (e.stepErr E.arith) = true)
    (herr : Fl.lt (e.stepErr E.arith) e.Maxerr = true) (h : Step E e = .done e1) :
    e1 = (e.accepted E.arith).adaptDt E (e.growFactor E) ∧
    e1.NSteps = e.NSteps + 1 ∧
    e.growFactor E
      = E.pow (Fl.div E.arith.round64 e.Maxerr (e.stepErr E.arith)) (.fin (1 / 2)) ∧
    Fl.le (.fin 1) (Fl.div E.arith.round64 e.Maxerr (e.stepErr E.arith)) = true ∧
    Fl.le (.fin 1) (e.growFactor E) = true ∧
    (e.growFactor E).isNaN = false ∧
    Fl.le e.dt_si e1.dt_si = true := by
  obtain ⟨-, -, hbr⟩ := Step_done h
  have hacc : e.acceptCond E.arith = true := by
    simp [Heun.acceptCond, herr]
  have hratio : Fl.le (.fin 1) (Fl.div E.arith.round64 e.Maxerr (e.stepErr E.arith)) = true :=
    ratio_ge_one hS h0 herr
  have hf : Fl.le (.fin 1) (e.growFactor E) = true := hpow _ hratio
  have hnan : (e.growFactor E).isNaN = false := by
    revert hf
    cases e.growFactor E <;> simp [Fl.le, Fl.isNaN]
  rcases hbr with ⟨-, he1⟩ | ⟨hrej, -⟩
  · simp only [hfix, Bool.false_eq_true, if_false] at he1
    subst he1
    exact ⟨rfl, rfl, rfl, hratio, hf, hnan,
      adaptDt_not_smaller E hS hi hhi hhi1 (e.accepted E.arith).tosolverCommon _ d hd hd0
        hrep hf⟩
  · rw [hacc] at hrej
    cases hrej

/-- C12 in machine arithmetic at the cell at rest (`RHS = 0`, so `err = 0`):
the quotient `Maxerr/err` is `+Inf`, so is its square root, and the step size
grows from 1/8 to 1/4 (the factor is clamped to 2). -/
theorem Step_accept_grows_witness :
    still.stepErr ieeeEnv.arith = .fin 0 ∧
    (Step ieeeEnv still).isDone = true ∧
    still.growFactor ieeeEnv = .pinf ∧
    (Step ieeeEnv still).state.dt_si = .fin (1 / 4) ∧
    Fl.le still.dt_si (Step ieeeEnv still).state.dt_si = true :=
  (fun hdone =>
    have key := Step_accept_grows ieeeEnv Arith.ieee_monotone64 2 rfl (by norm_num)
      (fun _ hx => hx) still _ rfl (1 / 8) rfl (by norm_num) (by decide!) (by decide!)
      (by decide!) (Outcome.eq_done_of_isDone hdone)
    ⟨by decide!, hdone, by decide!, by decide!, key.2.2.2.2.2.2⟩)
    (by decide!)

/-! ### C13: at the floor every step is accepted -/

theorem Fl.eq_of_squeezed {x d m : Fl} (h1 : Fl.le x d = true) (h2 : Fl.le d m = true)
    (h3 : Fl.lt x m = false) : x = m := by
  cases x <;> cases d <;> cases m <;> simp_all [Fl.lt, Fl.le]
  linarith

/-- C13, as stated, fails on the code: an infinite error estimate exceeds every
tolerance, yet a `Step` at the floor is not accepted then.  For
`dy/dt = 1/(1 - y)` from `y = 0` with step size 1 at the floor `Mindt = 1` and
`Maxerr = 1 > 0`, the error estimate is `+Inf > Maxerr`, and `Step` is aborted
by `solverCheckErr`: `NSteps` does not grow. -/
theorem Step_at_floor_aborts :
    ({ blowup with Mindt := .fin 1 } : Heun 1).Fixdt = false ∧
    Fl.lt (.fin 0) ({ blowup with Mindt := .fin 1 } : Heun 1).Maxerr = true ∧
    Fl.le ({ blowup with Mindt := .fin 1 } : Heun 1).dt_si
      ({ blowup with Mindt := .fin 1 } : Heun 1).Mindt = true ∧
    ({ blowup with Mindt := .fin 1 } : Heun 1).stepErr Arith.ieee = .pinf ∧
    Fl.lt ({ blowup with Mindt := .fin 1 } : Heun 1).Maxerr
      (({ blowup with Mindt := .fin 1 } : Heun 1).stepErr Arith.ieee) = true ∧
    (Step ieeeEnv ({ blowup with Mindt := .fin 1 } : Heun 1)).fault
      = some Fault.nonFiniteErr ∧
    (Step ieeeEnv ({ blowup with Mindt := .fin 1 } : Heun 1)).state.NSteps = 0 := by
  decide!

/-- The value of `MaxVecDiff` is never negative. -/
theorem MaxVecDiff_nonneg (A : Arith) : ∀ {n : ℕ} (a b : Slice n),
    Fl.lt (MaxVecDiff A a b) (.fin 0) = false
  | 0, _, _ => by simp [MaxVecDiff, Fl.lt]
  | n + 1, a, b => by
    rw [MaxVecDiff]
    have ih := MaxVecDiff_nonneg A (fun i => a i.succ) (fun i => b i.succ)
    have habs : Fl.lt (Fl.abs (Fl.sub A.round32 (a 0) (b 0))) (.fin 0) = false := by
      cases Fl.sub A.round32 (a 0) (b 0) <;> simp [Fl.abs, Fl.lt]
    revert ih habs
    generalize Fl.abs (Fl.sub A.round32 (a 0) (b 0)) = x
    generalize MaxVecDiff A (fun i => a i.succ) (fun i => b i.succ) = y
    intro ih habs
    cases x <;> cases y <;> simp_all [Fl.max, Fl.lt]
    split_ifs <;> simp_all [Fl.lt]

/-- With rounding that keeps the order, a product that is positive has a
positive second factor when the first one is not negative. -/
theorem Fl.pos_of_mul_pos {A : Arith} (hS : A.Monotone64) {m t : Fl}
    (hm : Fl.lt m (.fin 0) = false) (h : Fl.lt (.fin 0) (Fl.mul A.round64 m t) = true) :
    Fl.lt (.fin 0) t = true := by
  cases m with
  | nan => simp [Fl.mul, Fl.lt] at h
  | ninf => simp [Fl.lt] at hm
  | pinf =>
    cases t with
    | nan => simp [Fl.mul, Fl.lt] at h
    | pinf => rfl
    | ninf => simp [Fl.mul, Fl.lt] at h
    | fin t =>
      simp only [Fl.mul, Fl.infTimes] at h
      simp only [Fl.lt, decide_eq_true_eq]
      by_contra hneg
      split_ifs at h with h1 h2 <;> simp_all [Fl.lt]
  | fin v =>
    have hv : 0 ≤ v := by simpa [Fl.lt] using hm
    cases t with
    | nan => simp [Fl.mul, Fl.lt] at h
    | pinf => rfl
    | ninf =>
      simp only [Fl.mul, Fl.infTimes] at h
      split_ifs at h with h1 h2 <;> simp_all [Fl.lt]
      exact absurd h2 (not_le.mpr (lt_of_le_of_ne hv (Ne.symm h1)))
    | fin t =>
      simp only [Fl.lt, decide_eq_true_eq]
      by_contra hneg
      have hle : v * t ≤ 0 := mul_nonpos_of_nonneg_of_nonpos hv (not_lt.mp hneg)
      have h0 := hS.mono (v * t) 0 hle
      rw [hS.zero] at h0
      simp only [Fl.mul] at h
      revert h h0
      cases A.round64 (v * t) <;> simp [Fl.lt, Fl.le]

/-- In adaptive mode a positive error estimate means that `Step` has passed
`util.Assert(dt > 0)`: the estimate is `MaxVecDiff(dy0, dy) * dt`. -/
theorem stepDt_pos_of_stepErr_pos {n : ℕ} {A : Arith} (hS : A.Monotone64) (e : Heun n)
    (hfix : e.Fixdt = false) (h : Fl.lt (.fin 0) (e.stepErr A) = true) :
    Fl.lt (.fin 0) (e.stepDt A) = true := by
  simp only [Heun.stepErr, hfix, Bool.not_false, if_true] at h
  exact Fl.pos_of_mul_pos hS (MaxVecDiff_nonneg A _ _) h

/-- At the floor (`dt_si <= Mindt`), `adaptDt` with a factor of at most 1
leaves the step size at `Mindt`: for any rounding that keeps the order and a
step size that is a positive `float64` value. -/
theorem adaptDt_at_floor (E : Env) (hS : E.arith.Monotone64) (s : solverCommon)
    (corr : Fl) (d : ℚ) (hd : s.dt_si = .fin d) (hd0 : 0 < d)
    (hrep : E.arith.round64 d = .fin d) (hfl : Fl.le s.dt_si s.Mindt = true)
    (hc : Fl.le (if Fl.lt E.clampHi corr then E.clampHi
      else if Fl.lt corr E.clampLo then E.clampLo else corr) (.fin 1) = true) :
    (s.adaptDt E corr).dt_si = s.Mindt := by
  have key : ∀ c, Fl.le c (.fin 1) = true →
      (if Fl.lt (Fl.mul E.arith.round64 s.dt_si c) s.Mindt then s.Mindt
        else Fl.mul E.arith.round64 s.dt_si c) = s.Mindt := by
    intro c hc1
    split_ifs with h
    · rfl
    · rw [hd] at hfl h ⊢
      exact Fl.eq_of_squeezed (Fl.mul_le_self_of_le_one hS.mono hd0 hrep hc1) hfl
        (by simpa using h)
  have hdef : (s.adaptDt E corr).dt_si
      = if Fl.lt (Fl.mul E.arith.round64 s.dt_si
            (if Fl.lt E.clampHi corr then E.clampHi
              else if Fl.lt corr E.clampLo then E.clampLo else corr)) s.Mindt then s.Mindt
        else Fl.mul E.arith.round64 s.dt_si
            (if Fl.lt E.clampHi corr then E.clampHi
              else if Fl.lt corr E.clampLo then E.clampLo else corr) := rfl
  rw [hdef]
  exact key _ hc

/-- One `Step` at the floor with a finite error estimate above a positive
tolerance: it is accepted and leaves the step size at `Mindt`. -/
theorem Step_at_floor {n : ℕ} (E : Env) (hS : E.arith.Monotone64) (lo : ℚ)
    (hlo : E.clampLo = .fin lo) (hlo1 : lo ≤ 1)
    (hpow : ∀ x, Fl.le (.fin 0) x = true → Fl.le x (.fin 1) = true →
      Fl.le (E.pow x (.fin (1 / 2))) (.fin 1) = true)
    (e : Heun n) (hfix : e.Fixdt = false) (d : ℚ) (hd : e.dt_si = .fin d) (hd0 : 0 < d)
    (hrep : E.arith.round64 d = .fin d) (hfl : Fl.le e.dt_si e.Mindt = true)
    (hM : Fl.lt (.fin 0) e.Maxerr = true)
    (hfin : (e.stepErr E.arith).isFinite = true)
    (herr : Fl.lt e.Maxerr (e.stepErr E.arith) = true) :
    Step E e = .done ((e.accepted E.arith).adaptDt E (e.growFactor E)) ∧
    ((e.accepted E.arith).adaptDt E (e.growFactor E)).dt_si = e.Mindt := by
  have hdt : Fl.lt (.fin 0) (e.stepDt E.arith) = true :=
    stepDt_pos_of_stepErr_pos hS e hfix (Fl.lt_chain hM herr)
  have hacc : e.acceptCond E.arith = true := by
    simp [Heun.acceptCond, hfl]
  have hstep : Step E e = .done ((e.accepted E.arith).adaptDt E (e.growFactor E)) := by
    have hchk : solverCheckErr (e.stepErr E.arith) = true := hfin
    rw [Step_eq]
    simp [hdt, hfix, hchk, hacc]
  refine ⟨hstep, ?_⟩
  have hratio := ratio_le_one hS (Fl.le_of_lt_true hM) (Fl.le_of_lt_true herr)
    (Fl.lt_chain hM herr) hfin
  have hf : Fl.le (e.growFactor E) (.fin 1) = true := hpow _ hratio.1 hratio.2
  exact adaptDt_at_floor E hS (e.accepted E.arith).tosolverCommon _ d hd hd0 hrep hfl
    (clamp_le_one E lo hlo hlo1 _ hf)

theorem Fl.lt_le_chain {a b c : Fl} (h1 : Fl.lt a b = true) (h2 : Fl.le b c = true) :
    Fl.lt a c = true := by
  cases a <;> cases b <;> cases c <;> simp_all [Fl.lt, Fl.le]
  linarith

theorem Fl.le_self_of_le {a b : Fl} (h : Fl.le a b = true) : Fl.le b b = true := by
  cases a <;> cases b <;> simp_all [Fl.le]

theorem Steps_natCast {n : ℕ} (E : Env) (k : ℕ) (e : Heun n) :
    Steps E (k : ℤ) e = StepsLoop E k e := by
  simp [Steps]

theorem StepsLoop_at_floor {n : ℕ} (E : Env) (hS : E.arith.Monotone64) (lo : ℚ)
    (hlo : E.clampLo = .fin lo) (hlo1 : lo ≤ 1)
    (hpow : ∀ x, Fl.le (.fin 0) x = true → Fl.le x (.fin 1) = true →
      Fl.le (E.pow x (.fin (1 / 2))) (.fin 1) = true)
    (m : ℚ) (hrepm : E.arith.round64 m = .fin m) :
    ∀ (k : ℕ) (e : Heun n) (d : ℚ), e.Fixdt = false → e.dt_si = .fin d → 0 < d →
      E.arith.round64 d = .fin d → e.Mindt = .fin m → d ≤ m →
      Fl.lt (.fin 0) e.Maxerr = true →
      (∀ j : ℕ, j < k → ((StepsLoop E j e).state.stepErr E.arith).isFinite = true ∧
        Fl.lt (StepsLoop E j e).state.Maxerr ((StepsLoop E j e).state.stepErr E.arith) = true) →
      ∃ e1, StepsLoop E k e = .done e1 ∧ e1.NSteps = e.NSteps + k ∧ e1.undone = e.undone ∧
        Fl.le e1.dt_si e1.Mindt = true ∧ e1.Mindt = e.Mindt
  | 0, e, d, _, hd, _, _, hm, hdm, _, _ =>
    ⟨e, rfl, by simp, rfl, by rw [hd, hm]; simpa [Fl.le] using hdm, rfl⟩
  | k + 1, e, d, hfix, hd, hd0, hrep, hm, hdm, hM, herr => by
    obtain ⟨hfin, hgt⟩ := herr 0 (Nat.succ_pos k)
    have hfl : Fl.le e.dt_si e.Mindt = true := by
      rw [hd, hm]
      simpa [Fl.le] using hdm
    obtain ⟨hstep, hnew⟩ := Step_at_floor E hS lo hlo hlo1 hpow e hfix d hd hd0 hrep hfl hM
      hfin hgt
    have hloop : ∀ j, StepsLoop E (j + 1) e
        = StepsLoop E j ((e.accepted E.arith).adaptDt E (e.growFactor E)) := by
      intro j
      rw [StepsLoop, hstep]
    obtain ⟨e1, h1, h2, h3, h4, h5⟩ :=
      StepsLoop_at_floor E hS lo hlo hlo1 hpow m hrepm k
        ((e.accepted E.arith).adaptDt E (e.growFactor E)) m hfix (by rw [hnew, hm])
        (lt_of_lt_of_le hd0 hdm) hrepm hm le_rfl hM
        (fun j hj => by
          have := herr (j + 1) (Nat.succ_lt_succ hj)
          rw [hloop j] at this
          exact this)
    refine ⟨e1, by rw [hloop k]; exact h1, ?_, h3, h4, h5⟩
    rw [h2]
    simp only [Heun.adaptDt_NSteps, Heun.accepted]
    push_cast
    ring

/-- C13, amended: in adaptive mode with `Maxerr > 0`, from a state at the floor
(`0 < dt_si <= Mindt`) and as long as the error estimate is finite and exceeds
`Maxerr`, every `Step` is accepted: `Steps(k)` returns with `NSteps` grown by
`k`, `undone` unchanged and `dt_si <= Mindt` again (the factor is at most 1 and
the floor puts the step size back to `Mindt`).  For every arithmetic whose
rounding keeps the order of numbers (machine arithmetic included), with
`dt_si` and `Mindt` `float64` values, a lower clamp of at most 1, and
`math.Pow(x, 1/2)` at most 1 on `[0, 1]`. -/
theorem Steps_at_floor {n : ℕ} (E : Env) (hS : E.arith.Monotone64) (lo : ℚ)
    (hlo : E.clampLo = .fin lo) (hlo1 : lo ≤ 1)
    (hpow : ∀ x, Fl.le (.fin 0) x = true → Fl.le x (.fin 1) = true →
      Fl.le (E.pow x (.fin (1 / 2))) (.fin 1) = true)
    (k : ℕ) (e : Heun n) (d m : ℚ) (hfix : e.Fixdt = false) (hd : e.dt_si = .fin d)
    (hd0 : 0 < d) (hrep : E.arith.round64 d = .fin d) (hm : e.Mindt = .fin m)
    (hrepm : E.arith.round64 m = .fin m) (hdm : d ≤ m)
    (hM : Fl.lt (.fin 0) e.Maxerr = true)
    (herr : ∀ j : ℕ, j < k → ((Steps E j e).state.stepErr E.arith).isFinite = true ∧
      Fl.lt (Steps E j e).state.Maxerr ((Steps E j e).state.stepErr E.arith) = true) :
    ∃ e1, Steps E k e = .done e1 ∧ e1.NSteps = e.NSteps + k ∧ e1.undone = e.undone ∧
      Fl.le e1.dt_si e1.Mindt = true := by
  obtain ⟨e1, h1, h2, h3, h4, -⟩ :=
    StepsLoop_at_floor E hS lo hlo hlo1 hpow m hrepm k e d hfix hd hd0 hrep hm hdm hM
      (fun j hj => by
        have := herr j hj
        rw [Steps_natCast] at this
        exact this)
  exact ⟨e1, by rw [Steps_natCast]; exact h1, h2, h3, h4⟩

/-- C13, amended, in machine arithmetic at the decay solver with step size 1/8
at the floor `Mindt = 1/8` and tolerance `2^-10` (error estimates 1/64 and
113/8192): two steps, both accepted, and the step size is 1/8 again. -/
theorem Steps_at_floor_witness :
    (decayEighth (.fin (1 / 1024)) (.fin (1 / 8))).stepErr ieeeEnv.arith = .fin (1 / 64) ∧
    (Steps ieeeEnv 1 (decayEighth (.fin (1 / 1024)) (.fin (1 / 8)))).state.stepErr ieeeEnv.arith
      = .fin (113 / 8192) ∧
    (Steps ieeeEnv 2 (decayEighth (.fin (1 / 1024)) (.fin (1 / 8)))).state.NSteps = 2 ∧
    (Steps ieeeEnv 2 (decayEighth (.fin (1 / 1024)) (.fin (1 / 8)))).state.dt_si
      = .fin (1 / 8) ∧
    ∃ e1, Steps ieeeEnv (2 : ℕ) (decayEighth (.fin (1 / 1024)) (.fin (1 / 8))) = .done e1 ∧
      e1.NSteps = (decayEighth (.fin (1 / 1024)) (.fin (1 / 8))).NSteps + (2 : ℕ) ∧
      e1.undone = (decayEighth (.fin (1 / 1024)) (.fin (1 / 8))).undone ∧
      Fl.le e1.dt_si e1.Mindt = true :=
  ⟨by decide!, by decide!, by decide!, by decide!,
    Steps_at_floor ieeeEnv Arith.ieee_monotone64 (1 / 2) rfl (by norm_num)
      (fun _ _ hx => hx) 2
      (decayEighth (.fin (1 / 1024)) (.fin (1 / 8))) (1 / 8) (1 / 8) rfl rfl (by norm_num)
      (by decide!) rfl (by decide!) le_rfl (by decide!)
      (fun j hj => by
        interval_cases j
        · decide!
        · decide!)⟩

/-! ## Shapes and `Expect` -/

theorem range_split (a b c t : Fl) (hab : Fl.le a b = true) (hbc : Fl.le b c = true) :
    ¬ ((Fl.le a t && Fl.lt t b) = true ∧ (Fl.le b t && Fl.lt t c) = true) ∧
    ((Fl.le a t && Fl.lt t b) || (Fl.le b t && Fl.lt t c)) = (Fl.le a t && Fl.lt t c) := by
  refine ⟨?_, Bool.eq_iff_iff.mpr ?_⟩ <;>
  rcases a with _ | _ | _ | qa <;> rcases b with _ | _ | _ | qb <;>
  rcases c with _ | _ | _ | qc <;> rcases t with _ | _ | _ | qt <;>
  simp_all [Fl.le, Fl.lt] <;>
  first
    | exact lt_or_le _ _
    | (constructor
       · rintro (h | h)
         · first | linarith | exact ⟨h.1, by linarith [h.2]⟩
         · first | linarith | exact ⟨by linarith [h.1], h.2⟩
       · intro h
         rcases lt_or_le qt qb with h1 | h1
         · first | exact Or.inl h1 | exact Or.inl ⟨h.1, h1⟩ | exact Or.inl ⟨h, h1⟩
         · first | exact Or.inr h1 | exact Or.inr ⟨h1, h.2⟩ | exact Or.inr ⟨h1, h⟩)

theorem range_empty (a b t : Fl) (h : Fl.le b a = true) :
    (Fl.le a t && Fl.lt t b) = false := by
  rcases a with _ | _ | _ | qa <;> rcases b with _ | _ | _ | qb <;>
  rcases t with _ | _ | _ | qt <;> simp_all [Fl.le, Fl.lt]
  intros
  linarith

/-- C19: coordinate ranges are half-open and tile without gap or overlap.  For
all floating-point values with `a <= b` and `b <= c` no point lies in both
`XRange(a, b)` and `XRange(b, c)`, and the union `XRange(a, b).Add(XRange(b, c))`
contains a point exactly when `XRange(a, c)` does; the same holds for `YRange`
and `ZRange`; and for `b <= a` the ranges from `a` to `b` contain no point. -/
theorem Range_tiling (a b c x y z : Fl) :
    (Fl.le a b = true → Fl.le b c = true →
      (¬ (XRange a b x y z = true ∧ XRange b c x y z = true) ∧
        Shape.Add (XRange a b) (XRange b c) x y z = XRange a c x y z) ∧
      (¬ (YRange a b x y z = true ∧ YRange b c x y z = true) ∧
        Shape.Add (YRange a b) (YRange b c) x y z = YRange a c x y z) ∧
      (¬ (ZRange a b x y z = true ∧ ZRange b c x y z = true) ∧
        Shape.Add (ZRange a b) (ZRange b c) x y z = ZRange a c x y z)) ∧
    (Fl.le b a = true →
      XRange a b x y z = false ∧ YRange a b x y z = false ∧ ZRange a b x y z = false) :=
  ⟨fun hab hbc => ⟨range_split a b c x hab hbc, range_split a b c y hab hbc,
      range_split a b c z hab hbc⟩,
    fun hba => ⟨range_empty a b x hba, range_empty a b y hba, range_empty a b z hba⟩⟩

/-- Ranges of C19 at the bounds 0, 1, 2: the point with all coordinates 1 is in
the upper range only, and the range from 1 to 0 is empty. -/
theorem Range_tiling_witness :
    (Fl.le (.fin 0) (.fin 1) = true ∧ Fl.le (.fin 1) (.fin 2) = true ∧
      XRange (.fin 0) (.fin 1) (.fin 1) (.fin 1) (.fin 1) = false ∧
      XRange (.fin 1) (.fin 2) (.fin 1) (.fin 1) (.fin 1) = true ∧
      Shape.Add (XRange (.fin 0) (.fin 1)) (XRange (.fin 1) (.fin 2)) (.fin 1) (.fin 1) (.fin 1)
        = XRange (.fin 0) (.fin 2) (.fin 1) (.fin 1) (.fin 1)) ∧
    XRange (.fin 1) (.fin 0) (.fin 1) (.fin 1) (.fin 1) = false :=
  ⟨⟨by decide!, by decide!, by decide!, by decide!,
    ((Range_tiling (.fin 0) (.fin 1) (.fin 2) (.fin 1) (.fin 1) (.fin 1)).1
      (by decide!) (by decide!)).1.2⟩,
    ((Range_tiling (.fin 1) (.fin 0) (.fin 2) (.fin 1) (.fin 1) (.fin 1)).2 (by decide!)).1⟩

/-- C16: the CSG algebra.  At every point `a.Sub(b)` agrees with
`a.Intersect(b.Inverse())`; `a.Xor(b)` contains the point exactly when exactly
one of `a` and `b` contains it, agrees with `a.Sub(b).Add(b.Sub(a))` and with
`b.Xor(a)`. -/
theorem csg_algebra (a b : Shape) (x y z : Fl) :
    Shape.Sub a b x y z = Shape.Intersect a (Shape.Inverse b) x y z ∧
    (Shape.Xor a b x y z = true ↔
      (a x y z = true ∧ b x y z = false) ∨ (a x y z = false ∧ b x y z = true)) ∧
    Shape.Xor a b x y z = Shape.Add (Shape.Sub a b) (Shape.Sub b a) x y z ∧
    Shape.Xor a b x y z = Shape.Xor b a x y z := by
  simp only [Shape.Sub, Shape.Intersect, Shape.Inverse, Shape.Xor, Shape.Add]
  cases a x y z <;> cases b x y z <;> simp

theorem Fl.abs_isNaN (x : Fl) : (Fl.abs x).isNaN = x.isNaN := by
  cases x <;> rfl

theorem Fl.lt_eq_false_iff_le (x m : Fl) (hx : x.isNaN = false) (hm : m.isNaN = false) :
    Fl.lt m x = false ↔ Fl.le x m = true := by
  cases x <;> cases m <;> simp_all [Fl.lt, Fl.le, Fl.isNaN]

theorem Expect_eq_true_iff (A : Arith) (hav want maxError : Fl) :
    Expect A hav want maxError = true ↔
      hav.isNaN = false ∧ want.isNaN = false ∧
        Fl.lt maxError (Fl.abs (Fl.sub A.round64 hav want)) = false := by
  unfold Expect
  cases hav.isNaN <;> cases want.isNaN <;>
    cases Fl.lt maxError (Fl.abs (Fl.sub A.round64 hav want)) <;> simp

/-- C17 as stated fails: with `have = want = +Inf` and `maxError = 0` the
difference `have - want` is NaN, the test `|have - want| > maxError` is false and
`Expect` passes, although `|have - want| <= maxError` does not hold; in the same
way `Expect` passes for `have = 1`, `want = 100` when `maxError` is NaN. -/
theorem Expect_passes_without_le :
    Expect Arith.ieee .pinf .pinf (.fin 0) = true ∧
    Fl.isNaN .pinf = false ∧
    Fl.le (Fl.abs (Fl.sub Arith.ieee.round64 .pinf .pinf)) (.fin 0) = false ∧
    Expect Arith.ieee (.fin 1) (.fin 100) .nan = true ∧
    Fl.le (Fl.abs (Fl.sub Arith.ieee.round64 (.fin 1) (.fin 100))) .nan = false := by
  decide!

/-- C17, amended: `Expect` passes exactly when neither `have` nor `want` is NaN
and the test `|have - want| > maxError` is false; when moreover `maxError` and
the difference `have - want` are not NaN, that is exactly when neither is NaN
and `|have - want| <= maxError`.  `ExpectV` passes exactly when `Expect` passes
for each of the three components. -/
theorem Expect_passes_iff (A : Arith) (hav want maxError : Fl) (hv wv : Fin 3 → Fl) :
    (Expect A hav want maxError = true ↔
      hav.isNaN = false ∧ want.isNaN = false ∧
        Fl.lt maxError (Fl.abs (Fl.sub A.round64 hav want)) = false) ∧
    (maxError.isNaN = false → (Fl.sub A.round64 hav want).isNaN = false →
      (Expect A hav want maxError = true ↔
        hav.isNaN = false ∧ want.isNaN = false ∧
          Fl.le (Fl.abs (Fl.sub A.round64 hav want)) maxError = true)) ∧
    (ExpectV A hv wv maxError = true ↔
      ∀ c : Fin 3, Expect A (hv c) (wv c) maxError = true) := by
  refine ⟨Expect_eq_true_iff A hav want maxError, fun hm hs => ?_, ?_⟩
  · rw [Expect_eq_true_iff,
      Fl.lt_eq_false_iff_le _ _ ((Fl.abs_isNaN _).trans hs) hm]
  · unfold ExpectV
    simp only [Bool.and_eq_true]
    constructor
    · rintro ⟨⟨h0, h1⟩, h2⟩ c
      fin_cases c
      · exact h0
      · exact h1
      · exact h2
    · intro h
      exact ⟨⟨h 0, h 1⟩, h 2⟩

/-- The three parts of C17 on the machine: `have = 1`, `want = 3/2` passes with
`maxError = 1` and fails with `maxError = 1/4`, and a vector passes when its
three components do. -/
theorem Expect_passes_iff_witness :
    (Fl.isNaN (.fin 1) = false ∧
      (Fl.sub Arith.ieee.round64 (.fin 1) (.fin (3 / 2))).isNaN = false) ∧
    (Expect Arith.ieee (.fin 1) (.fin (3 / 2)) (.fin 1) = true ↔
      Fl.isNaN (.fin 1) = false ∧ Fl.isNaN (.fin (3 / 2)) = false ∧
        Fl.le (Fl.abs (Fl.sub Arith.ieee.round64 (.fin 1) (.fin (3 / 2)))) (.fin 1) = true) ∧
    Expect Arith.ieee (.fin 1) (.fin (3 / 2)) (.fin 1) = true ∧
    Expect Arith.ieee (.fin 1) (.fin (3 / 2)) (.fin (1 / 4)) = false :=
  ⟨⟨by decide!, by decide!⟩,
    (Expect_passes_iff Arith.ieee (.fin 1) (.fin (3 / 2)) (.fin 1)
      (fun _ => .fin 0) (fun _ => .fin 0)).2.1 (by decide!) (by decide!),
    by decide!, by decide!⟩

theorem Rot_zero_exact (T : Trig) (hc : T.cos (.fin 0) = .fin 1) (hs : T.sin (.fin 0) = .fin 0)
    (s : Shape) (x y z : ℚ) :
    Shape.RotX Arith.exact T s (.fin 0) (.fin x) (.fin y) (.fin z)
      = s (.fin x) (.fin z) (.fin y) ∧
    Shape.RotY Arith.exact T s (.fin 0) (.fin x) (.fin y) (.fin z)
      = s (.fin x) (.fin y) (.fin z) ∧
    Shape.RotZ Arith.exact T s (.fin 0) (.fin x) (.fin y) (.fin z)
      = s (.fin x) (.fin y) (.fin z) := by
  simp [Shape.RotX, Shape.RotY, Shape.RotZ, hc, hs, Fl.mul, Fl.add, Fl.neg, Arith.exact]

/-- C14 fails in the code: `RotX(0)` exchanges the y and z coordinates.  The
shape `ZRange(0, 1)` does not contain the point (0, 1/2, -1), its image under
`RotX(0)` does, and its images under `RotY(0)` and `RotZ(0)` do not. -/
theorem RotX_zero_swaps_y_z :
    ZRange (.fin 0) (.fin 1) (.fin 0) (.fin (1 / 2)) (.fin (-1)) = false ∧
    Shape.RotX Arith.ieee trigAtZero (ZRange (.fin 0) (.fin 1)) (.fin 0)
      (.fin 0) (.fin (1 / 2)) (.fin (-1)) = true ∧
    Shape.RotY Arith.ieee trigAtZero (ZRange (.fin 0) (.fin 1)) (.fin 0)
      (.fin 0) (.fin (1 / 2)) (.fin (-1)) = false ∧
    Shape.RotZ Arith.ieee trigAtZero (ZRange (.fin 0) (.fin 1)) (.fin 0)
      (.fin 0) (.fin (1 / 2)) (.fin (-1)) = false := by
  decide!

theorem Layers_eq_none_iff (A : Arith) (m : Mesh) (a b : ℤ) :
    Layers A m a b = none ↔ a < 0 ∨ m.Size 0 < a ∨ b < 0 ∨ m.Size 0 < b := by
  unfold Layers
  by_cases h : a < 0 ∨ m.Size 0 < a ∨ b < 0 ∨ m.Size 0 < b
  · simp only [h, iff_true]
    rw [if_pos]
    simpa [or_assoc] using h
  · simp only [h, iff_false]
    rw [if_neg]
    · simp
    · simpa [or_assoc] using h

theorem Index2Coord_exact_Z (m : Mesh) (c : ℚ) (hcZ : m.CellSize Z = .fin c) (sh : Fl)
    (ix iy iz : ℤ) :
    Index2Coord Arith.exact m sh ix iy iz Z
      = .fin (c * ((iz : ℚ) - 1 / 2 * ((m.Size Z - 1 : ℤ) : ℚ))) := by
  have h : Index2Coord Arith.exact m sh ix iy iz Z
      = Fl.mul Fl.fin (m.CellSize Z)
          (.fin ((iz : ℚ) + -(1 / 2 * ((m.Size Z - 1 : ℤ) : ℚ)))) := rfl
  rw [h, hcZ]
  simp [Fl.mul, sub_eq_add_neg]

theorem Layers_exact (m : Mesh) (c : ℚ) (hc0 : m.CellSize 0 = .fin c) (a b : ℤ)
    (ha : 0 ≤ a) (ha2 : a ≤ m.Size 0) (hb : 0 ≤ b) (hb2 : b ≤ m.Size 0) :
    Layers Arith.exact m a b
      = some (ZRange (.fin (((a : ℚ) - (m.Size 0 : ℚ) / 2 - 1 / 2) * c))
          (.fin ((((b - 1 : ℤ) : ℚ) - (m.Size 0 : ℚ) / 2 + 1 / 2) * c))) := by
  have hne : ¬ (a < 0 ∨ m.Size 0 < a ∨ b < 0 ∨ m.Size 0 < b) := by omega
  unfold Layers
  rw [if_neg (by simpa [or_assoc] using hne), hc0]
  simp [intToFloat64, Arith.exact, Fl.sub, Fl.add, Fl.mul, Fl.div, Fl.neg, sub_eq_add_neg]

theorem Layers_exact_contains (m : Mesh) (c : ℚ) (hc : 0 < c) (hN : m.Size Z = m.Size 0)
    (hc0 : m.CellSize 0 = .fin c) (hcZ : m.CellSize Z = .fin c) (a b i : ℤ)
    (ha : 0 ≤ a) (ha2 : a ≤ m.Size 0) (hb : 0 ≤ b) (hb2 : b ≤ m.Size 0) :
    ∃ s, Layers Arith.exact m a b = some s ∧
      (containsLayer Arith.exact m s i = true ↔ a ≤ i + 1 ∧ i + 1 < b) := by
  refine ⟨_, Layers_exact m c hc0 a b ha ha2 hb hb2, ?_⟩
  have hz := Index2Coord_exact_Z m c hcZ (.fin 0) 0 0 i
  simp only [containsLayer, ZRange, hz, hN, Fl.le, Fl.lt, Bool.and_eq_true, decide_eq_true_eq]
  have h1 : c * ((i : ℚ) - 1 / 2 * ((m.Size 0 - 1 : ℤ) : ℚ))
      - ((a : ℚ) - (m.Size 0 : ℚ) / 2 - 1 / 2) * c = c * (((i + 1 - a : ℤ) : ℚ)) := by
    push_cast
    ring
  have h2 : (((b - 1 : ℤ) : ℚ) - (m.Size 0 : ℚ) / 2 + 1 / 2) * c
      - c * ((i : ℚ) - 1 / 2 * ((m.Size 0 - 1 : ℤ) : ℚ))
        = c * (((b - (i + 1) : ℤ) : ℚ)) := by
    push_cast
    ring
  rw [← sub_nonneg, h1, ← sub_pos, h2, mul_nonneg_iff_of_pos_left hc,
    mul_pos_iff_of_pos_left hc, Int.cast_nonneg, Int.cast_pos]
  omega

/-- C15 fails in the code: the range of `Layers(a, b)` starts at the centre of
layer `a - 1` and ends at the centre of layer `b - 1`.  On a mesh of 4 x 4 x 4
cells of size 1, `Layers(0, 4)` does not contain the centre of the top layer 3
(z = 3/2), and `Layers(1, 3)` contains the centre of layer 0 and not that of
layer 2. -/
theorem Layers_shifted_by_one :
    (Layers Arith.ieee cube4 0 4).map (fun s => containsLayer Arith.ieee cube4 s 3)
      = some false ∧
    Index2Coord Arith.ieee cube4 (.fin 0) 0 0 3 Z = .fin (3 / 2) ∧
    (Layers Arith.ieee cube4 1 3).map (fun s => containsLayer Arith.ieee cube4 s 0)
      = some true ∧
    (Layers Arith.ieee cube4 1 3).map (fun s => containsLayer Arith.ieee cube4 s 1)
      = some true ∧
    (Layers Arith.ieee cube4 1 3).map (fun s => containsLayer Arith.ieee cube4 s 2)
      = some false := by
  decide!

/-- Rotation over the angle 0 leaves a point with `float64` coordinates where
it is, for any arithmetic in which 0 is a `float64` value. -/
theorem RotZ_zero (A : Arith) (T : Trig) (hc : T.cos (.fin 0) = .fin 1)
    (hs : T.sin (.fin 0) = .fin 0) (hr0 : A.round64 0 = .fin 0) (s : Shape) (x y : ℚ) (z : Fl)
    (hrx : A.round64 x = .fin x) (hry : A.round64 y = .fin y) :
    Shape.RotZ A T s (.fin 0) (.fin x) (.fin y) z = s (.fin x) (.fin y) z := by
  simp [Shape.RotZ, hc, hs, Fl.mul, Fl.add, Fl.neg, hr0, hrx, hry]

/-- C18, as stated, fails on the code: in `float64` a rotation over 3 followed
by a rotation over -3 is neither the rotation over `3 + (-3) = 0` nor the
identity.  The shape `XRange(1, 1 + 2^-52)` contains the point (1, 0, 0), and so
does its rotation over 0, but `s.RotZ(3).RotZ(-3)` tests the point
`(cos² 3 + sin² 3, 0, 0)` computed in `float64`, whose first coordinate is not 1:
it is `0.9999999999999999` for the `float64` values nearest to cos 3 and sin 3,
and differs from 1 also when these are off by one unit in the last place (the
nine values of `roundTripThree`). -/
theorem RotZ_roundtrip_not_identity_float64 :
    Fl.add Arith.ieee.round64 (.fin 3) (.fin (-3)) = .fin 0 ∧
    XRange (.fin 1) (.fin (1 + 1 / 2 ^ 52)) (.fin 1) (.fin 0) (.fin 0) = true ∧
    Shape.RotZ Arith.ieee (trigNearThree 0 0) (XRange (.fin 1) (.fin (1 + 1 / 2 ^ 52)))
      (Fl.add Arith.ieee.round64 (.fin 3) (.fin (-3))) (.fin 1) (.fin 0) (.fin 0) = true ∧
    Shape.RotZ Arith.ieee (trigNearThree 0 0)
      (Shape.RotZ Arith.ieee (trigNearThree 0 0) (XRange (.fin 1) (.fin (1 + 1 / 2 ^ 52)))
        (.fin 3))
      (.fin (-3)) (.fin 1) (.fin 0) (.fin 0) = false ∧
    Fl.add Arith.ieee.round64
      (Fl.mul Arith.ieee.round64 ((trigNearThree 0 0).cos (.fin 3))
        ((trigNearThree 0 0).cos (.fin 3)))
      (Fl.mul Arith.ieee.round64 ((trigNearThree 0 0).sin (.fin 3))
        ((trigNearThree 0 0).sin (.fin 3))) = .fin (1 - 1 / 2 ^ 53) ∧
    roundTripThree 0 0 = (false, true) ∧
    roundTripThree (-1) (-1) = (false, true) ∧ roundTripThree (-1) 0 = (false, true) ∧
    roundTripThree (-1) 1 = (false, true) ∧ roundTripThree 0 (-1) = (false, true) ∧
    roundTripThree 0 1 = (false, true) ∧ roundTripThree 1 (-1) = (false, true) ∧
    roundTripThree 1 0 = (false, true) ∧ roundTripThree 1 1 = (false, true) := by
  decide!

/-- C18, amended: rotations about Z compose additively in real-number
arithmetic.  When the cosine and sine of `a + b` are given by the addition
formulas from those of `a` and `b`, `s.RotZ(a).RotZ(b)` contains a finite point
exactly when `s.RotZ(a+b)` does; and when `cos(-a) = cos a`, `sin(-a) = -sin a`
and `cos² a + sin² a = 1`, `s.RotZ(a).RotZ(-a)` contains it exactly when `s`
does.  In any arithmetic in which 0 is a `float64` value (machine arithmetic
included) this holds for `a = b = 0` at points with `float64` coordinates:
`RotZ(0)` is the identity there. -/
theorem RotZ_compose (A : Arith) (T : Trig) (s : Shape) (a b : Fl) (ca sa cb sb x y : ℚ)
    (z : Fl) :
    (T.cos (.fin 0) = .fin 1 → T.sin (.fin 0) = .fin 0 → A.round64 0 = .fin 0 →
      A.round64 x = .fin x → A.round64 y = .fin y →
      Shape.RotZ A T s (.fin 0) (.fin x) (.fin y) z = s (.fin x) (.fin y) z ∧
      Shape.RotZ A T (Shape.RotZ A T s (.fin 0)) (.fin 0) (.fin x) (.fin y) z
        = Shape.RotZ A T s (Fl.add A.round64 (.fin 0) (.fin 0)) (.fin x) (.fin y) z ∧
      Shape.RotZ A T (Shape.RotZ A T s (.fin 0)) (Fl.neg (.fin 0)) (.fin x) (.fin y) z
        = s (.fin x) (.fin y) z) ∧
    (T.cos a = .fin ca → T.sin a = .fin sa → T.cos b = .fin cb → T.sin b = .fin sb →
      T.cos (Fl.add Arith.exact.round64 a b) = .fin (ca * cb - sa * sb) →
      T.sin (Fl.add Arith.exact.round64 a b) = .fin (sa * cb + ca * sb) →
      Shape.RotZ Arith.exact T (Shape.RotZ Arith.exact T s a) b (.fin x) (.fin y) z =
          Shape.RotZ Arith.exact T s (Fl.add Arith.exact.round64 a b) (.fin x) (.fin y) z ∧
      (T.cos (Fl.neg a) = .fin ca → T.sin (Fl.neg a) = .fin (-sa) → ca * ca + sa * sa = 1 →
        Shape.RotZ Arith.exact T (Shape.RotZ Arith.exact T s a) (Fl.neg a) (.fin x) (.fin y) z
          = s (.fin x) (.fin y) z)) := by
  constructor
  · intro hc hs hr0 hrx hry
    have h0 : Fl.add A.round64 (.fin 0) (.fin 0) = .fin 0 := by
      simp [Fl.add, hr0]
    have hn : Fl.neg (.fin 0) = .fin 0 := by
      simp [Fl.neg]
    have hz := RotZ_zero A T hc hs hr0 s x y z hrx hry
    have hzz := RotZ_zero A T hc hs hr0 (Shape.RotZ A T s (.fin 0)) x y z hrx hry
    refine ⟨hz, ?_, ?_⟩
    · rw [h0, hzz]
    · rw [hn, hzz, hz]
  · intro hca hsa hcb hsb hcab hsab
    constructor
    · generalize Fl.add Arith.exact.round64 a b = ab at hcab hsab
      simp only [Shape.RotZ, hca, hsa, hcb, hsb, hcab, hsab, Fl.mul, Fl.add, Fl.neg,
        Arith.exact]
      congr 2 <;> ring
    · intro hcn hsn hone
      generalize Fl.neg a = na at hcn hsn
      simp only [Shape.RotZ, hca, hsa, hcn, hsn, Fl.mul, Fl.add, Fl.neg, Arith.exact]
      congr 2
      · linear_combination x * hone
      · linear_combination y * hone

/-- C18, amended, at the angles named 1 and 2 of `trigPythagorean` (cosines
3/5 and 5/13) in real-number arithmetic, and at the angle 0 in machine
arithmetic, for the shape `XRange(0, 1)` and the point (1, 0, 0). -/
theorem RotZ_compose_witness :
    (trigPythagorean.cos (.fin 1) = .fin (3 / 5) ∧ trigPythagorean.sin (.fin 1) = .fin (4 / 5) ∧
      trigPythagorean.cos (.fin 2) = .fin (5 / 13) ∧
      trigPythagorean.sin (.fin 2) = .fin (12 / 13)) ∧
    (Shape.RotZ Arith.exact trigPythagorean
        (Shape.RotZ Arith.exact trigPythagorean (XRange (.fin 0) (.fin 1)) (.fin 1)) (.fin 2)
        (.fin 1) (.fin 0) (.fin 0) =
      Shape.RotZ Arith.exact trigPythagorean (XRange (.fin 0) (.fin 1))
        (Fl.add Arith.exact.round64 (.fin 1) (.fin 2)) (.fin 1) (.fin 0) (.fin 0)) ∧
    Shape.RotZ Arith.exact trigPythagorean
        (Shape.RotZ Arith.exact trigPythagorean (XRange (.fin 0) (.fin 1)) (.fin 1))
        (Fl.neg (.fin 1)) (.fin 1) (.fin 0) (.fin 0) =
      XRange (.fin 0) (.fin 1) (.fin 1) (.fin 0) (.fin 0) ∧
    Shape.RotZ Arith.ieee trigPythagorean (XRange (.fin 0) (.fin 1)) (.fin 0)
        (.fin 1) (.fin 0) (.fin 0) =
      XRange (.fin 0) (.fin 1) (.fin 1) (.fin 0) (.fin 0) :=
  (fun key => ⟨⟨by decide!, by decide!, by decide!, by decide!⟩,
      (key.2 (by decide!) (by decide!) (by decide!) (by decide!) (by decide!) (by decide!)).1,
      (key.2 (by decide!) (by decide!) (by decide!) (by decide!) (by decide!) (by decide!)).2
        (by decide!) (by decide!) (by norm_num),
      (key.1 (by decide!) (by decide!) (by decide!) (by decide!) (by decide!)).1⟩)
    (RotZ_compose Arith.ieee trigPythagorean (XRange (.fin 0) (.fin 1)) (.fin 1) (.fin 2)
      (3 / 5) (4 / 5) (5 / 13) (12 / 13) 1 0 (.fin 0))

end Mumax
